import Mathlib

/-! gcop: receding-horizon track harness, INS dynamics step, matrix loader and
visual-inertial estimator

A shallow embedding of parts of `bin/kinrccartracktest.cc` (function `Run`), of
`lib/systems/ins.cc` (`Ins::Step`), of the cost set-up of `bin/particle2dgdocp.cc`, of
`lib/utils/load_eigen_matrix.h` (`loadEigenMatrix`) and of `lib/algos/dynvisins.cc`
(`DynVisIns::ProcessImu`, `DynVisIns::ProcessCam`, the assertions of
`DynVisIns::Compute`), with the properties of the specification that concern them.

Conventions of the embedding.

* A `std::vector<T>` is a `List T`.  `operator[]` outside the vector is undefined
  behaviour and `.at` outside the vector throws `std::out_of_range`; in both cases the
  embedded operation returns `none`.
* C++ `int` and `size_t` values are integers / naturals without wrap-around: every
  index in `Run` is bounded by the length of a history buffer held in memory.  The one
  place where signedness matters, the comparison `i < v.size()` of an `int` with a
  `size_t`, is modelled explicitly (a negative `i` converts to a huge unsigned value,
  so the comparison is false).
* `double` arithmetic is arithmetic of the scalar type the definitions are
  parameterised by; statements that the specification makes "in exact arithmetic" are
  proved over ordered fields / commutative rings.
* A failed `assert` aborts the program: the embedded method returns `none`.
-/

namespace Gcop

universe u

/-! ## The history buffers of the pose track and the PDdp window -/

/-- The canonical history buffers `pg.ts`, `pg.xs`, `pg.us` of the pose track. -/
structure Track (T X U : Type) where
  ts : List T
  xs : List X
  us : List U
  deriving DecidableEq, Repr

/-- The three local vectors `ts_pddp`, `xs_pddp`, `us_pddp` handed to the PDdp engine. -/
structure Window (T X U : Type) where
  ts_pddp : List T
  xs_pddp : List X
  us_pddp : List U
  deriving DecidableEq, Repr

/-- The branch condition `slidingWindow < 0 || pg.us.size() < slidingWindow`
(kinrccartracktest.cc lines 246 and 271). -/
def wholeHistory {T X U : Type} (pg : Track T X U) (slidingWindow : Int) : Bool :=
  decide (slidingWindow < 0) || decide ((pg.us.length : Int) < slidingWindow)

/-- The range constructor `std::vector<A>(v.begin() + first, v.end())`; the iterator
`v.begin() + first` must lie within the vector. -/
def vecFrom {A : Type} (v : List A) (first : Int) : Option (List A) :=
  if 0 ≤ first ∧ first ≤ (v.length : Int) then some (v.drop first.toNat) else none

/-- Lines 248 / 254: `ts_pddp`. -/
def extractTs {T X U : Type} (pg : Track T X U) (slidingWindow : Int) : Option (List T) :=
  if wholeHistory pg slidingWindow then some pg.ts
  else vecFrom pg.ts ((pg.ts.length : Int) - slidingWindow - 1)

/-- Lines 249 / 255: `xs_pddp`. -/
def extractXs {T X U : Type} (pg : Track T X U) (slidingWindow : Int) : Option (List X) :=
  if wholeHistory pg slidingWindow then some pg.xs
  else vecFrom pg.xs ((pg.xs.length : Int) - slidingWindow - 1)

/-- Lines 250 / 256: `us_pddp`. -/
def extractUs {T X U : Type} (pg : Track T X U) (slidingWindow : Int) : Option (List U) :=
  if wholeHistory pg slidingWindow then some pg.us
  else vecFrom pg.us ((pg.us.length : Int) - slidingWindow)

/-- Lines 242-257: the window handed to the PDdp engine. -/
def extractWindow {T X U : Type} (pg : Track T X U) (slidingWindow : Int) :
    Option (Window T X U) :=
  match extractTs pg slidingWindow, extractXs pg slidingWindow, extractUs pg slidingWindow with
  | some ts, some xs, some us => some ⟨ts, xs, us⟩
  | _, _, _ => none

/-- The body of a splice loop `for (i, j; i < dst.size(); i++, j++) dst[i] = src.at(j);`
from a non-negative `i`.  `src.at(j)` throws when `j` is outside `src`. -/
def spliceFrom {A : Type} (dst src : List A) (i j : Nat) : Option (List A) :=
  if i < dst.length then
    match src[j]? with
    | none => none
    | some v => spliceFrom (dst.set i v) src (i + 1) (j + 1)
  else some dst
termination_by dst.length - i
decreasing_by simp only [List.length_set]; omega

/-- A splice loop whose `int` counter `i` starts at `start` and whose `j` starts at 0.
A negative `i` is converted to `size_t` in `i < dst.size()`, which makes the guard
false: the loop body does not run. -/
def spliceLoop {A : Type} (dst src : List A) (start : Int) : Option (List A) :=
  if start < 0 then some dst else spliceFrom dst src start.toNat 0

/-- First history index written by the control splice loop (lines 273 / 285). -/
def usSpliceStart {T X U : Type} (pg : Track T X U) (slidingWindow : Int) : Int :=
  if wholeHistory pg slidingWindow then 0 else (pg.us.length : Int) - slidingWindow

/-- First history index written by the state splice loop (lines 277 / 289). -/
def xsSpliceStart {T X U : Type} (pg : Track T X U) (slidingWindow : Int) : Int :=
  if wholeHistory pg slidingWindow then 0 else (pg.xs.length : Int) - slidingWindow - 1

/-- Lines 271-294: the optimised window is copied back into `pg.us` and then `pg.xs`. -/
def spliceBack {T X U : Type} (pg : Track T X U) (slidingWindow : Int) (w : Window T X U) :
    Option (Track T X U) :=
  match spliceLoop pg.us w.us_pddp (usSpliceStart pg slidingWindow) with
  | none => none
  | some us =>
    match spliceLoop pg.xs w.xs_pddp (xsSpliceStart pg slidingWindow) with
    | none => none
    | some xs => some { ts := pg.ts, xs := xs, us := us }

/-- Lines 242-294: one re-solve.  `solver` stands for the PDdp engine (construction and
the ten `Iterate` calls), which works in place on the three window vectors. -/
def resolve {T X U : Type} (solver : Window T X U → Window T X U) (pg : Track T X U)
    (slidingWindow : Int) : Option (Track T X U) :=
  match extractWindow pg slidingWindow with
  | none => none
  | some w => spliceBack pg slidingWindow (solver w)

/-! ## The control loop of `Run`: time grid, warm-start rollout, horizon shift -/

/-- Line 59: `double h = Tc/N;`. -/
def stepSize {K : Type} [Div K] [NatCast K] (Tc : K) (N : Nat) : K := Tc / (N : K)

/-- Lines 144-145: `for (int k = 0; k <= N; ++k) ts[k] = k*h;` from counter `k`. -/
def initGridFrom {K : Type} [Mul K] [NatCast K] (N : Nat) (h : K) (k : Nat) (ts : List K) :
    Option (List K) :=
  if k ≤ N then
    if k < ts.length then initGridFrom N h (k + 1) (ts.set k ((k : K) * h)) else none
  else some ts
termination_by N + 1 - k

/-- Lines 143-145: `vector<double> ts(N+1);` followed by the loop that fills it. -/
def initGrid {K : Type} [Zero K] [Mul K] [NatCast K] (N : Nat) (h : K) : Option (List K) :=
  initGridFrom N h 0 (List.replicate (N + 1) 0)

/-- Lines 194-196: `for (int j = 0; j < N; ++j) sys.Step(xs[j+1], t + j*h, xs[j], us[j], h);`
from counter `j`.  `step t xa u h` is the next state `xb` that `sys.Step(xb, t, xa, u, h)`
stores. -/
def rolloutFrom {K X U : Type} [Add K] [Mul K] [NatCast K] (step : K → X → U → K → X)
    (N : Nat) (t h : K) (us : List U) (j : Nat) (xs : List X) : Option (List X) :=
  if j < N then
    match xs[j]?, us[j]? with
    | some xj, some uj =>
      if j + 1 < xs.length then
        rolloutFrom step N t h us (j + 1) (xs.set (j + 1) (step (t + (j : K) * h) xj uj h))
      else none
    | _, _ => none
  else some xs
termination_by N - j

/-- Lines 193-196: `xs[0] = pg.xs.back();` and the rollout loop; `x0` is `pg.xs.back()`. -/
def rollout {K X U : Type} [Add K] [Mul K] [NatCast K] (step : K → X → U → K → X)
    (N : Nat) (t h : K) (x0 : X) (us : List U) (xs : List X) : Option (List X) :=
  if 0 < xs.length then rolloutFrom step N t h us 0 (xs.set 0 x0) else none

/-- Lines 226-230: the loop
`for (int k = 0; k < N; ++k) { ts[k] = ts[k+1]; if (k < N - 1) us[k] = us[k+1]; }`
from counter `k`. -/
def shiftFrom {K U : Type} (N : Nat) (k : Nat) (ts : List K) (us : List U) :
    Option (List K × List U) :=
  if k < N then
    match ts[k + 1]? with
    | none => none
    | some t1 =>
      if (k : Int) < (N : Int) - 1 then
        match us[k + 1]? with
        | none => none
        | some u1 => shiftFrom N (k + 1) (ts.set k t1) (us.set k u1)
      else shiftFrom N (k + 1) (ts.set k t1) us
  else some (ts, us)
termination_by N - k

/-- Lines 225-231: the horizon shift, i.e. the loop followed by `ts[N] = ts[N] + h;`. -/
def shiftHorizon {K U : Type} [Add K] (N : Nat) (h : K) (ts : List K) (us : List U) :
    Option (List K × List U) :=
  match shiftFrom N 0 ts us with
  | none => none
  | some (ts1, us1) =>
    match ts1[N]? with
    | none => none
    | some tN => some (ts1.set N (tN + h), us1)

/-- The loop variable `t` of `for (double t=0; t < tf; t+=h)` at the start of tick `m`. -/
def tickTime {K : Type} [Zero K] [Add K] (h : K) : Nat → K
  | 0 => 0
  | m + 1 => tickTime h m + h

/-- The time grid `ts` at the start of tick `m`: the initial grid after `m` horizon
shifts, where `usSeq i` is the control vector `us` at the shift of tick `i`. -/
def gridAfter {K U : Type} [Zero K] [Add K] [Mul K] [NatCast K] (N : Nat) (h : K)
    (usSeq : Nat → List U) : Nat → Option (List K)
  | 0 => initGrid N h
  | m + 1 =>
    match gridAfter N h usSeq m with
    | none => none
    | some ts =>
      match shiftHorizon N h ts (usSeq m) with
      | none => none
      | some (ts1, _) => some ts1

/-- The variables of `Run` that live across control ticks. -/
structure RunState (K X U : Type) where
  t : K
  ts : List K
  xs : List X
  us : List U
  tps : List K
  xps : List X
  ups : List U
  pg : Track K X U
  deriving DecidableEq, Repr

/-- The configuration of `Run` and the collaborators whose code is outside this file:
`step` is `sys.Step`, `ddp` the `iters` calls of `ddp.Iterate()` (it works in place on
`xs` and `us`), `add2` is `pg.Add2` and `pddp` the PDdp engine. -/
structure RunEnv (K X U : Type) where
  N : Nat
  h : K
  Ts : K
  oc : Bool
  slidingWindow : Int
  step : K → X → U → K → X
  ddp : List K → List X → List U → List X × List U
  add2 : Track K X U → U → X → K → Track K X U
  pddp : Window K X U → Window K X U

/-- Lines 142-158: the state before the first tick; `x0` is the initial true state and
`pg` the pose track after `MakeTrue`. -/
def initState {K X U : Type} [Zero K] [Mul K] [NatCast K] [Zero U] (N : Nat) (h : K) (x0 : X)
    (pg : Track K X U) : Option (RunState K X U) :=
  match initGrid N h, pg.xs[0]? with
  | some ts, some x => some
      { t := 0, ts := ts, xs := List.replicate (N + 1) x, us := List.replicate N 0,
        tps := [0], xps := [x0], ups := [], pg := pg }
  | _, _ => none

/-- Lines 187-311: one control tick with noise sample `w`. -/
def tick {K X U : Type} [Add K] [Mul K] [NatCast K] [LT K] [DecidableRel (α := K) (· < ·)]
    [Add U] (env : RunEnv K X U) (w : U) (s : RunState K X U) : Option (RunState K X U) :=
  -- lines 193-196
  match s.pg.xs.getLast? with
  | none => none
  | some xback =>
  match rollout env.step env.N s.t env.h xback s.us s.xs with
  | none => none
  | some xs1 =>
  -- lines 198-205
  let sol := if env.oc then env.ddp s.ts xs1 s.us else (xs1, s.us)
  -- lines 207-219
  match sol.2[0]?, s.xps.getLast? with
  | some u0, some xlast =>
    let xt := env.step s.t xlast (u0 + w) env.h
    -- line 222
    let pg1 := env.add2 s.pg u0 xt env.h
    -- lines 225-231
    match shiftHorizon env.N env.h s.ts sol.2 with
    | none => none
    | some (ts3, us3) =>
    -- lines 236-299
    match (if env.Ts < s.t then resolve env.pddp pg1 env.slidingWindow else some pg1) with
    | none => none
    | some pg2 =>
    -- lines 301-304
    match ts3[0]?, us3[0]? with
    | some t0, some u0s => some
        { t := s.t + env.h, ts := ts3, xs := sol.1, us := us3,
          tps := s.tps ++ [t0], xps := s.xps ++ [xt], ups := s.ups ++ [u0s + w], pg := pg2 }
    | _, _ => none
  | _, _ => none

/-- The state after `m` control ticks from `s`, tick `i` drawing the noise sample `ws i`. -/
def runTicks {K X U : Type} [Add K] [Mul K] [NatCast K] [LT K]
    [DecidableRel (α := K) (· < ·)] [Add U] (env : RunEnv K X U) (ws : Nat → U) :
    Nat → RunState K X U → Option (RunState K X U)
  | 0, s => some s
  | m + 1, s =>
    match runTicks env ws m s with
    | none => none
    | some s1 => tick env (ws m) s1

/-- Sample collaborators for a run over the integers: `Step(t, x, u, h) = x + u*h`, an
optimiser `ddp` that leaves the two controls `[1, 2]`, `Add2` appending to the history,
and a PDdp engine that changes nothing. -/
def sampleEnv : RunEnv Int Int Int :=
  { N := 2, h := 1, Ts := 1, oc := true, slidingWindow := -1,
    step := fun _ x u h => x + u * h,
    ddp := fun _ xs _ => (xs, [1, 2]),
    add2 := fun pg u x h => ⟨pg.ts ++ [h], pg.xs ++ [x], pg.us ++ [u]⟩,
    pddp := fun w => w }

/-! ## The INS dynamics step `Ins::Step` (lib/systems/ins.cc) -/

/-- An Eigen `Vector3d`. -/
abbrev Vec3 (K : Type) := Fin 3 → K

/-- An Eigen `Matrix3d`. -/
abbrev Mat3 (K : Type) := Matrix (Fin 3) (Fin 3) K

/-- The Jacobian type `Matrix15d`, in the tangent ordering `R, bg, ba, p, v`. -/
abbrev Matrix15 (K : Type) := Matrix (Fin 15) (Fin 15) K

/-- The Jacobian type `Matrix15x6d`. -/
abbrev Matrix15x6 (K : Type) := Matrix (Fin 15) (Fin 6) K

/-- The Jacobian type `Matrix15Xd` (15 rows, a run-time number of columns). -/
abbrev Matrix15X (K : Type) := Fin 15 → List K

/-- The fields of `InsState` that `Ins::Step` reads and writes: rotation `R`, gyro bias
`bg`, accelerometer bias `ba`, position `p`, velocity `v`. -/
structure InsState (K : Type) where
  R : Mat3 K
  bg : Vec3 K
  ba : Vec3 K
  p : Vec3 K
  v : Vec3 K

/-- The three functions of the `SO3` singleton that `Ins::Step` calls (`so3.h` is not
part of the sources at hand): `exp` and `dexp` return the matrix they store in their
first argument, `hat` likewise. -/
structure SO3 (K : Type) where
  exp : Vec3 K → Mat3 K
  dexp : Vec3 K → Mat3 K
  hat : Vec3 K → Mat3 K

/-- The data members of an `Ins` object. -/
structure Ins (K : Type) where
  sv : K
  su : K
  sa : K
  sra : K
  g0 : Vec3 K
  semiImplicit : Bool
  useAcc_ : Bool

/-- The constructor `Ins::Ins(bool useAcc)` (lines 11-22), over the rationals. -/
def Ins.new (useAcc : Bool) : Ins ℚ :=
  { sv := 3 * (1 / 1000), su := 3 * (1 / 100000000), sa := 3 * (1 / 1000000000000),
    sra := 5 / 100, g0 := ![0, 0, 980665 / 100000], semiImplicit := true, useAcc_ := useAcc }

/-- The assignment `A.block<3,3>(r, c) = M`. -/
def setBlock {K : Type} {n m : Nat} (A : Matrix (Fin n) (Fin m) K) (r c : Nat) (M : Mat3 K) :
    Matrix (Fin n) (Fin m) K :=
  fun i j =>
    if h : r ≤ i.val ∧ i.val < r + 3 ∧ c ≤ j.val ∧ j.val < c + 3 then
      M ⟨i.val - r, by omega⟩ ⟨j.val - c, by omega⟩
    else A i j

/-- The read `A.block<3,3>(r, c)`. -/
def getBlock {K : Type} {n m : Nat} (A : Matrix (Fin n) (Fin m) K) (r c : Nat)
    (hr : r + 3 ≤ n) (hc : c + 3 ≤ m) : Mat3 K :=
  fun i j => A ⟨r + i.val, by omega⟩ ⟨c + j.val, by omega⟩

/-- What a call of `Ins::Step` leaves behind: the returned `double`, the `Ins` object,
the out-parameter `xb`, and the matrices behind the pointers `A`, `B`, `C` (`none` for a
null pointer). -/
structure StepResult (K : Type) where
  ret : K
  self : Ins K
  xb : InsState K
  A : Option (Matrix15 K)
  B : Option (Matrix15x6 K)
  C : Option (Matrix15X K)

/-- The block `if (A) { ... }` of `Ins::Step` (lines 56-82): the matrix stored in `*A`.
`w`, `a` and `dR` are the locals of `Ins::Step` computed on lines 35-39. -/
def Ins.stepJacobian {K : Type} [CommRing K] (so3 : SO3 K) (self : Ins K) (xa : InsState K)
    (dt : K) (w a : Vec3 K) (dR : Mat3 K) : Matrix15 K :=
  let D : Mat3 K := so3.dexp ((-dt) • w)
  let J0 : Matrix15 K := 1
  let J1 := setBlock J0 0 0 dR.transpose
  let J2 := setBlock J1 0 3 ((-dt) • D)
  let D1 : Mat3 K := so3.hat a
  let J3 :=
    if self.semiImplicit && self.useAcc_ then
      setBlock (setBlock J2 9 0 ((-(dt * dt)) • (xa.R * D1))) 9 6 ((-(dt * dt)) • xa.R)
    else J2
  let J4 := setBlock J3 9 12 (dt • (1 : Mat3 K))
  let J5 := if self.useAcc_ then setBlock J4 12 0 ((-dt) • (xa.R * D1)) else J4
  setBlock J5 12 6 ((-dt) • xa.R)

/-- The method `Ins::Step(xb, t, xa, u, dt, p, A, B, C)` (lines 29-84).  `xb0` is the content of
`xb` before the call (every field modelled here is overwritten), `A`, `B`, `C` are the
matrices behind the three pointers before the call.  This is the call with `xb` and `xa`
bound to two different objects; `Ins.StepRef` is the call on objects in memory, where the
two references may be bound to the same object, and `StepRef_distinct` relates the two. -/
def Ins.Step {K : Type} [CommRing K] (so3 : SO3 K) (self : Ins K) (_xb0 : InsState K) (_t : K)
    (xa : InsState K) (u : Fin 6 → K) (dt : K) (_p : Option (List K))
    (A : Option (Matrix15 K)) (B : Option (Matrix15x6 K)) (C : Option (Matrix15X K)) :
    StepResult K :=
  -- lines 35-36
  let w : Vec3 K := (fun i : Fin 3 => u ⟨i.val, by omega⟩) - xa.bg
  let a : Vec3 K := (fun i : Fin 3 => u ⟨i.val + 3, by omega⟩) - xa.ba
  -- lines 38-43
  let dR : Mat3 K := so3.exp (dt • w)
  let xbR : Mat3 K := xa.R * dR
  -- lines 45-48
  let xbv : Vec3 K := if self.useAcc_ then xa.v + dt • (xa.R.mulVec a - self.g0) else xa.v
  -- lines 50-53
  let xbp : Vec3 K := if self.semiImplicit then xa.p + dt • xbv else xa.p + dt • xa.v
  -- lines 56-82
  let A1 : Option (Matrix15 K) :=
    match A with
    | none => none
    | some _ => some (Ins.stepJacobian so3 self xa dt w a dR)
  { ret := 0, self := self, xb := { R := xbR, bg := xa.bg, ba := xa.ba, p := xbp, v := xbv },
    A := A1, B := B, C := C }

/-- A stand-in for the `SO3` singleton in concrete evaluations over the rationals: `hat`
is the skew-symmetric matrix of a vector, `exp` and `dexp` are their series truncated
after the linear term (exact at the zero vector). -/
def sampleSO3 : SO3 ℚ :=
  { hat := fun v => !![0, -(v 2), v 1; v 2, 0, -(v 0); -(v 1), v 0, 0],
    exp := fun v => 1 + !![0, -(v 2), v 1; v 2, 0, -(v 0); -(v 1), v 0, 0],
    dexp := fun v => 1 + (1 / 2 : ℚ) • !![0, -(v 2), v 1; v 2, 0, -(v 0); -(v 1), v 0, 0] }

/-- What a call of `Ins::Step` on objects in memory leaves behind: the returned `double`,
the `Ins` object, the `InsState` objects by address, and the matrices behind the pointers
`A`, `B`, `C` (`none` for a null pointer). -/
structure StepRefResult (K : Type) where
  ret : K
  self : Ins K
  mem : Nat → InsState K
  A : Option (Matrix15 K)
  B : Option (Matrix15x6 K)
  C : Option (Matrix15X K)

/-- The method `Ins::Step(xb, t, xa, u, dt, p, A, B, C)` (lines 29-84) with its two
reference parameters as addresses: `mem` holds the `InsState` objects before the call,
`xb` and `xa` are the addresses of the objects the references `xb` and `xa` are bound to,
and they may be the same address.  Each assignment to a field of `xb` is a write to
memory, and each later read of a field of `xa` reads the memory as it then is.  On line 41
the product `xa.R*dR` is evaluated before it is stored (Eigen assigns a matrix product
through a temporary). -/
def Ins.StepRef {K : Type} [CommRing K] (so3 : SO3 K) (self : Ins K) (mem : Nat → InsState K)
    (xb : Nat) (_t : K) (xa : Nat) (u : Fin 6 → K) (dt : K) (_p : Option (List K))
    (A : Option (Matrix15 K)) (B : Option (Matrix15x6 K)) (C : Option (Matrix15X K)) :
    StepRefResult K :=
  -- lines 35-36
  let w : Vec3 K := (fun i : Fin 3 => u ⟨i.val, by omega⟩) - (mem xa).bg
  let a : Vec3 K := (fun i : Fin 3 => u ⟨i.val + 3, by omega⟩) - (mem xa).ba
  -- lines 38-39
  let dR : Mat3 K := so3.exp (dt • w)
  -- line 41
  let m1 := Function.update mem xb { mem xb with R := (mem xa).R * dR }
  -- line 42
  let m2 := Function.update m1 xb { m1 xb with bg := (m1 xa).bg }
  -- line 43
  let m3 := Function.update m2 xb { m2 xb with ba := (m2 xa).ba }
  -- lines 45-48
  let m4 := Function.update m3 xb
    { m3 xb with
      v := if self.useAcc_ then (m3 xa).v + dt • ((m3 xa).R.mulVec a - self.g0)
        else (m3 xa).v }
  -- lines 50-53
  let m5 := Function.update m4 xb
    { m4 xb with
      p := if self.semiImplicit then (m4 xa).p + dt • (m4 xb).v
        else (m4 xa).p + dt • (m4 xa).v }
  -- lines 56-82
  let A1 : Option (Matrix15 K) :=
    match A with
    | none => none
    | some _ => some (Ins.stepJacobian so3 self (m5 xa) dt w a dR)
  { ret := 0, self := self, mem := m5, A := A1, B := B, C := C }

/-! ## The cost set-up of `solver_process` (bin/particle2dgdocp.cc) -/

/-- The quadratic cost object `RnLqCost<4, 2> cost(sys, tf, xf)` with the weights assigned
on lines 33-35 (diagonals of `Q`, `Qf`, `R`). -/
structure RnLqCost where
  tf : ℚ
  xf : Fin 4 → ℚ
  Q : Fin 4 → ℚ
  Qf : Fin 4 → ℚ
  R : Fin 2 → ℚ

/-- The obstacle `Disk disk(Vector2d(-2.5,-2.5), 2)`: centre and radius. -/
structure Disk where
  o : Fin 2 → ℚ
  r : ℚ

/-- The constraint cost object `DiskConstraintCost dcost(sys, tf, constraint)` built on the
constraint `Particle2dDiskConstraint constraint(disk, 0)` (disk and collision radius). -/
structure DiskConstraintCost where
  tf : ℚ
  disk : Disk
  cr : ℚ

/-- A pointer stored in `MultiCost::costs`: the address of one of the two cost objects
of `solver_process`. -/
inductive CostPtr where
  | rnlq (c : RnLqCost)
  | constraint (c : DiskConstraintCost)

/-- The aggregate `MultiCost<Vector4d, 4, 2> mcost(sys, tf)` with its vector `costs`. -/
structure MultiCost where
  tf : ℚ
  costs : List CostPtr

/-- The cost objects alive when `gdocp` is constructed on line 63. -/
structure SolverCosts where
  N : Nat
  tf : ℚ
  h : ℚ
  cost : RnLqCost
  dcost : DiskConstraintCost
  mcost : MultiCost

/-- Lines 25-63 of `solver_process`, cost objects only: `cost` with its weights, the disk
constraint cost `dcost`, and `mcost`, into which line 59 pushes `&cost`; line 60, which
would push `&dcost`, is commented out. -/
def solver_process_costs : SolverCosts :=
  let N : Nat := 32
  let tf : ℚ := 10
  let h : ℚ := tf / (N : ℚ)
  let cost : RnLqCost :=
    { tf := tf, xf := 0, Q := ![1 / 100, 1 / 100, 5 / 1000, 5 / 1000], Qf := ![1, 1, 5, 5],
      R := ![1 / 10, 1 / 10] }
  let disk : Disk := { o := ![-5 / 2, -5 / 2], r := 2 }
  let dcost : DiskConstraintCost := { tf := tf, disk := disk, cr := 0 }
  let mcost0 : MultiCost := { tf := tf, costs := [] }
  let mcost1 : MultiCost := { mcost0 with costs := mcost0.costs ++ [CostPtr.rnlq cost] }
  { N := N, tf := tf, h := h, cost := cost, dcost := dcost, mcost := mcost1 }

/-! ## The matrix loader `loadEigenMatrix` (lib/utils/load_eigen_matrix.h)

The input file is the list of its characters (`none` when the file cannot be opened).
The formatted extractions of `std::istream` are modelled on the fragment where every
number is an optionally signed run of decimal digits; the same reader stands for
`>> rows`, `>> cols` and `>> val`.  A failed extraction leaves the stream in a failed
state, in which every later extraction fails too.  Outside this fragment the model says
nothing about the code: a value with a fraction or an exponent (which `>> val` accepts),
and a number beyond the range of `int` for `rows` or `cols` (which the extraction
saturates, failing the stream) are not modelled. -/

/-- The exceptions `loadEigenMatrix` throws (the message texts are left out). -/
inductive LoadError where
  | fileNotFound
  | rowsOrColsNotPositive
  | sizeWrong (rows cols index : Int)
  deriving DecidableEq, Repr

/-- The white space that a formatted extraction skips. -/
def isSpace (c : Char) : Bool :=
  c = ' ' || c = Char.ofNat 10 || c = Char.ofNat 9 || c = Char.ofNat 13 || c = Char.ofNat 11 ||
    c = Char.ofNat 12

/-- Skip leading white space. -/
def skipWs : List Char → List Char
  | [] => []
  | c :: cs => if isSpace c then skipWs cs else c :: cs

/-- Consume decimal digits, accumulating their value. -/
def digitsGo : List Char → Nat → Nat × List Char
  | [], acc => (acc, [])
  | c :: cs, acc => if c.isDigit then digitsGo cs (10 * acc + (c.toNat - 48)) else (acc, c :: cs)

/-- A non-empty run of decimal digits. -/
def readDigits : List Char → Option (Nat × List Char)
  | [] => none
  | c :: cs => if c.isDigit then some (digitsGo cs (c.toNat - 48)) else none

/-- The extraction of a number, `stream >> x`: the value and the rest of the stream, or
`none` when the extraction fails. -/
def readNumber (s : List Char) : Option (Int × List Char) :=
  match skipWs s with
  | [] => none
  | c :: cs =>
    if c = '-' then
      match readDigits cs with
      | none => none
      | some (n, r) => some (-(n : Int), r)
    else if c = '+' then
      match readDigits cs with
      | none => none
      | some (n, r) => some ((n : Int), r)
    else
      match readDigits (c :: cs) with
      | none => none
      | some (n, r) => some ((n : Int), r)

/-- The extraction of a `char`, `stream >> delim`: the first character that is not white
space. -/
def readChar (s : List Char) : Option (Char × List Char) :=
  match skipWs s with
  | [] => none
  | c :: cs => some (c, cs)

theorem skipWs_length (s : List Char) : (skipWs s).length ≤ s.length := by
  induction s with
  | nil => simp [skipWs]
  | cons c cs ih =>
    simp only [skipWs]
    split
    · simp only [List.length_cons]; omega
    · exact le_refl _

theorem readChar_length (s : List Char) (c : Char) (r : List Char)
    (h : readChar s = some (c, r)) : r.length < s.length := by
  unfold readChar at h
  have := skipWs_length s
  split at h
  · cases h
  · next c1 cs heq =>
    simp only [Option.some.injEq, Prod.mk.injEq] at h
    rw [heq] at this
    simp only [List.length_cons] at this
    rw [← h.2]
    omega

theorem digitsGo_length (s : List Char) (acc : Nat) : (digitsGo s acc).2.length ≤ s.length := by
  induction s generalizing acc with
  | nil => simp [digitsGo]
  | cons c cs ih =>
    simp only [digitsGo]
    split
    · have := ih (10 * acc + (c.toNat - 48))
      simp only [List.length_cons]; omega
    · exact le_refl _

theorem readDigits_length (s : List Char) (n : Nat) (r : List Char)
    (h : readDigits s = some (n, r)) : r.length < s.length := by
  cases s with
  | nil => simp [readDigits] at h
  | cons c cs =>
    simp only [readDigits] at h
    split at h
    · simp only [Option.some.injEq] at h
      have := digitsGo_length cs (c.toNat - 48)
      rw [h] at this
      simp only [List.length_cons]
      simp only at this
      omega
    · cases h

theorem readNumber_length (s : List Char) (v : Int) (r : List Char)
    (h : readNumber s = some (v, r)) : r.length < s.length := by
  unfold readNumber at h
  have hs := skipWs_length s
  split at h
  · cases h
  · next c cs heq =>
    rw [heq] at hs
    simp only [List.length_cons] at hs
    split at h
    · split at h
      · cases h
      · next n r1 hd =>
        simp only [Option.some.injEq, Prod.mk.injEq] at h
        have := readDigits_length _ _ _ hd
        rw [← h.2]; omega
    · split at h
      · split at h
        · cases h
        · next n r1 hd =>
          simp only [Option.some.injEq, Prod.mk.injEq] at h
          have := readDigits_length _ _ _ hd
          rw [← h.2]; omega
      · split at h
        · cases h
        · next n r1 hd =>
          simp only [Option.some.injEq, Prod.mk.injEq] at h
          have := readDigits_length _ _ _ hd
          simp only [List.length_cons] at this
          rw [← h.2]; omega

/-- The matrix `result`: its dimensions and its coefficients, `none` for a coefficient
that has not been assigned. -/
structure LoadedMatrix where
  rows : Int
  cols : Int
  coeff : Int → Int → Option Int

/-- Lines 35-45: the loop `while ((ifile >> val >> delim)) { ... ++index; }`; it returns
the final `index` and `result`, or the exception of line 39.  `%` and `/` are the
truncating operations of C++. -/
def readLoop (rows cols : Int) (s : List Char) (index : Int) (result : Int → Int → Option Int) :
    Except LoadError (Int × (Int → Int → Option Int)) :=
  match h1 : readNumber s with
  | none => .ok (index, result)
  | some (val, s1) =>
    match h2 : readChar s1 with
    | none => .ok (index, result)
    | some (_, s2) =>
      let col_ind := Int.tmod index cols
      let row_ind := Int.tdiv (index - col_ind) cols
      if row_ind ≥ rows ∨ col_ind ≥ cols then .error (.sizeWrong rows cols index)
      else
        readLoop rows cols s2 (index + 1)
          (fun r c => if r = row_ind ∧ c = col_ind then some val else result r c)
termination_by s.length
decreasing_by
  have a := readNumber_length _ _ _ h1
  have b := readChar_length _ _ _ h2
  omega

/-- The function `loadEigenMatrix(in_file_path)` (lines 21-52) on the content of the file
at `in_file_path`. -/
def loadEigenMatrix (file : Option (List Char)) : Except LoadError LoadedMatrix :=
  match file with
  | none => .error .fileNotFound
  | some s =>
    -- line 26; a failed extraction of `rows` stores 0, so that line 27 throws whatever
    -- `cols` holds; a failed extraction of `cols` on a good stream stores 0
    match readNumber s with
    | none => .error .rowsOrColsNotPositive
    | some (rows, s1) =>
      match readNumber s1 with
      | none => .error .rowsOrColsNotPositive
      | some (cols, s2) =>
        if rows ≤ 0 ∨ cols ≤ 0 then .error .rowsOrColsNotPositive
        else
          match readLoop rows cols s2 0 (fun _ _ => none) with
          | .error e => .error e
          | .ok (index, result) =>
            if index ≠ rows * cols then .error (.sizeWrong rows cols index)
            else .ok { rows := rows, cols := cols, coeff := result }

/-! ## The visual-inertial estimator `DynVisIns` (lib/algos/dynvisins.cc)

`F` is the scalar type (`double`), `X` the state type `Body3dState`.  A failed `assert`
aborts the program: the embedded method returns `none`. -/

/-- An Eigen `Vector2d`. -/
abbrev Vec2 (F : Type) := Fin 2 → F

/-- The data members of a `DynVisIns` object that `ProcessImu`, `ProcessCam` and the
assertions of `Compute` use (the class declaration is not part of the sources at hand). -/
structure DynVisIns (F X : Type) where
  t : F
  tc : F
  x0 : X
  Ric : Mat3 F
  K : Mat3 F
  useImu : Bool
  useCam : Bool
  useDyn : Bool
  usePrior : Bool
  xs : List X
  ls : List (Vec3 F)
  zs : List (Vec2 F)
  lus : List (Vec3 F)
  zInds : List Int
  zCamInds : List Int
  dts : List F
  tss : List (List F)
  wss : List (List (Vec3 F))
  ass : List (List (Vec3 F))
  dwStd : F
  dvStd : F

/-- The constructor `DynVisIns::DynVisIns()` (lines 468-502): `t = tc = -1`, the rotation
`Ric`, the four flags on, all containers empty, the noise scales `dwStd = 1`, `dvStd = 5`.  The prior state `x0` and the camera
matrix `K`, which the constructor does not compute from anything modelled here, are
arguments. -/
def DynVisIns.new {F X : Type} [Zero F] [One F] [Neg F] [OfNat F 5] (x0 : X) (K : Mat3 F) :
    DynVisIns F X :=
  { t := -1, tc := -1, x0 := x0, Ric := !![0, 0, 1; -1, 0, 0; 0, -1, 0], K := K,
    useImu := true, useCam := true, useDyn := true, usePrior := true,
    xs := [], ls := [], zs := [], lus := [], zInds := [], zCamInds := [], dts := [],
    tss := [], wss := [], ass := [], dwStd := 1, dvStd := 5 }

/-- The statement `vss.back().push_back(a)`; `back()` of an empty vector is excluded by
the assertions on lines 533-535. -/
def pushToLast {A : Type} (vss : List (List A)) (a : A) : Option (List (List A)) :=
  match vss.getLast? with
  | none => none
  | some l => some (vss.dropLast ++ [l ++ [a]])

/-- The method `DynVisIns::ProcessImu(t, w, a)` (lines 510-545): the returned `bool` and
the object after the call. -/
def DynVisIns.ProcessImu {F X : Type} [LinearOrderedField F] (self : DynVisIns F X) (t : F)
    (w a : Vec3 F) : Option (Bool × DynVisIns F X) :=
  -- lines 513-516
  if self.t < 0 then some (true, { self with t := t })
  else
    -- lines 519-524
    let dt := t - self.t
    if dt ≤ 0 then some (false, self)
    -- line 527
    else if self.useCam = false then none
    -- lines 531-540
    else if self.useCam = true ∧ self.xs.length ≠ 0 then
      if ¬ (self.tc < t) then none
      else
        match pushToLast self.tss (t - self.tc), pushToLast self.wss w, pushToLast self.ass a with
        | some tss, some wss, some ass =>
          some (true, { self with tss := tss, wss := wss, ass := ass, t := t })
        | _, _, _ => none
    -- lines 543-544
    else some (true, { self with t := t })

/-- The loop `while (zcInds[i] >= ls.size()) ls.push_back(Vector3d(1,0,0));` (lines
611-612) for a non-negative feature id. -/
def growLs {F : Type} [LinearOrderedField F] (id : Nat) (ls : List (Vec3 F)) : List (Vec3 F) :=
  if ls.length ≤ id then growLs id (ls ++ [![1, 0, 0]]) else ls
termination_by id + 1 - ls.length
decreasing_by simp only [List.length_append, List.length_singleton]; omega

/-- The unit bearing `lu` of a pixel measurement (lines 601-604); `norm` is
`Vector3d::norm`. -/
def unitBearing {F : Type} [LinearOrderedField F] (norm : Vec3 F → F) (K : Mat3 F)
    (z : Vec2 F) : Vec3 F :=
  let lu : Vec3 F := ![(z 0 - K 0 2) / K 0 0, (z 1 - K 1 2) / K 1 1, 1]
  fun i => lu i / norm lu

/-- One pass of the loop body of `ProcessCam` (lines 599-645) for the measurement
`zcs[i] = z` with feature id `zcInds[i] = id`.  A negative id compares as a huge
`size_t` on lines 609 and 611, where the `while` loop then does not come to an end. -/
def camStep {F X : Type} [LinearOrderedField F] (norm : Vec3 F → F) (self : DynVisIns F X)
    (z : Vec2 F) (id : Int) : Option (DynVisIns F X) :=
  let lu := unitBearing norm self.K z
  let lus := self.lus ++ [lu]
  if id < 0 then none
  else
    let grown : Option (List (Vec3 F)) :=
      if self.ls.length ≤ id.toNat then
        let ls1 := growLs id.toNat self.ls
        -- line 614
        if id = (ls1.length : Int) - 1 then
          -- lines 619-622
          some (ls1.set (ls1.length - 1) ((3 : F) • self.Ric.mulVec lu))
        else none
      else some self.ls
    match grown with
    | none => none
    | some ls =>
      some { self with
        lus := lus, ls := ls,
        zCamInds := self.zCamInds ++ [(self.xs.length : Int) - 1],
        zInds := self.zInds ++ [id] }

/-- The loop `for (int i = 0; i < zcs.size(); ++i)` of `ProcessCam` (lines 598-646) over
the remaining measurements and their ids; a missing `zcInds[i]` is excluded by the
assertion on line 589. -/
def camLoop {F X : Type} [LinearOrderedField F] (norm : Vec3 F → F) :
    DynVisIns F X → List (Vec2 F) → List Int → Option (DynVisIns F X)
  | self, [], _ => some self
  | _, _ :: _, [] => none
  | self, z :: zcs, id :: zcInds =>
    match camStep norm self z id with
    | none => none
    | some s1 => camLoop norm s1 zcs zcInds

/-- The block `if (useImu) { ... }` of `ProcessCam` (lines 560-587): the object after
the block, or `none` for the `return false` of line 565.  Line 577 reads
`this->tc = tc;`, with the member `tc` on both sides. -/
def DynVisIns.camImuBlock {F X : Type} [LinearOrderedField F] (self : DynVisIns F X) (t : F) :
    Option (DynVisIns F X) :=
  if self.useImu = true then
    let dt := t - self.t
    if dt < 0 then none
    else
      -- line 569
      let s1 : DynVisIns F X := { self with t := t }
      -- lines 573-575
      let s2 : DynVisIns F X :=
        if (0 : F) < s1.tc then { s1 with dts := s1.dts ++ [t - s1.tc] } else s1
      -- line 577
      let s3 : DynVisIns F X := { s2 with tc := s2.tc }
      -- lines 581-586
      some { s3 with tss := s3.tss ++ [[]], wss := s3.wss ++ [[]], ass := s3.ass ++ [[]] }
  else some self

/-- The method `DynVisIns::ProcessCam(t, zcs, zcInds)` (lines 555-648): the returned
`bool` and the object after the call. -/
def DynVisIns.ProcessCam {F X : Type} [LinearOrderedField F] (norm : Vec3 F → F)
    (self : DynVisIns F X) (t : F) (zcs : List (Vec2 F)) (zcInds : List Int) :
    Option (Bool × DynVisIns F X) :=
  -- lines 557-558
  if self.useCam = false then none
  else if self.t < 0 then none
  else
    -- lines 560-587
    match self.camImuBlock t with
    | none => some (false, self)
    | some s1 =>
      -- line 589
      if zcs.length ≠ zcInds.length then none
      else
        -- lines 592-596
        let s2 : DynVisIns F X := { s1 with xs := s1.xs ++ [s1.x0], zs := s1.zs ++ zcs }
        match camLoop norm s2 zcs zcInds with
        | none => none
        | some s3 => some (true, s3)

/-- The assertions of `Compute` on each measurement (lines 666-677): for every
`i < lus.size()`, `zCamInds[i] < xs.size()` and `zInds[i] < ls.size()`, the `int` on the
left being compared as a `size_t`. -/
def computeCamAsserts {F X : Type} (self : DynVisIns F X) : Bool :=
  (List.range self.lus.length).all fun i =>
    match self.zCamInds[i]?, self.zInds[i]? with
    | some c, some l =>
      decide (0 ≤ c ∧ c < (self.xs.length : Int)) && decide (0 ≤ l ∧ l < (self.ls.length : Int))
    | _, _ => false

/-- The assertions at the start of the IMU block of `Compute` (lines 698-699). -/
def computeImuAsserts {F X : Type} (self : DynVisIns F X) : Bool :=
  decide (self.tss.length ≤ self.xs.length) && decide (self.dts.length = self.tss.length)

/-- Validity of the end state of every IMU segment with data in `Compute` (lines
701-712): segment `i` uses the states `i` and `i+1`, so `i+1 < xs.size()` is needed
whenever `tss[i]` is not empty. -/
def computeImuEndStates {F X : Type} (self : DynVisIns F X) : Bool :=
  (List.range self.tss.length).all fun i =>
    match self.tss[i]? with
    | some ts => decide (ts.length = 0) || decide (i + 1 < self.xs.length)
    | none => false

/-- The assertion of the dynamics block of `Compute` (line 731). -/
def computeDynAssert {F X : Type} (self : DynVisIns F X) : Bool :=
  decide (self.xs.length = self.dts.length + 1)

/-- A call of one of the two measurement methods. -/
inductive Call (F : Type) where
  | imu (t : F) (w a : Vec3 F)
  | cam (t : F) (zcs : List (Vec2 F)) (zcInds : List Int)

/-- A sequence of calls on an object, each on the object the previous one left; `none`
when an assertion fails on the way. -/
def runCalls {F X : Type} [LinearOrderedField F] (norm : Vec3 F → F) :
    List (Call F) → DynVisIns F X → Option (DynVisIns F X)
  | [], s => some s
  | Call.imu t w a :: cs, s =>
    match s.ProcessImu t w a with
    | none => none
    | some (_, s1) => runCalls norm cs s1
  | Call.cam t zcs zcInds :: cs, s =>
    match s.ProcessCam norm t zcs zcInds with
    | none => none
    | some (_, s1) => runCalls norm cs s1

/-- Number of camera frames a sequence of calls gets accepted (`ProcessCam` returning
`true`). -/
def acceptedFrames {F X : Type} [LinearOrderedField F] (norm : Vec3 F → F) :
    List (Call F) → DynVisIns F X → Nat
  | [], _ => 0
  | Call.imu t w a :: cs, s =>
    match s.ProcessImu t w a with
    | none => 0
    | some (_, s1) => acceptedFrames norm cs s1
  | Call.cam t zcs zcInds :: cs, s =>
    match s.ProcessCam norm t zcs zcInds with
    | none => 0
    | some (b, s1) => (if b then 1 else 0) + acceptedFrames norm cs s1

/-- A stand-in for `Vector3d::norm` in concrete evaluations over the rationals (the sum
of the absolute values; the Euclidean norm is not rational). -/
def sampleNorm (v : Vec3 ℚ) : ℚ := |v 0| + |v 1| + |v 2|

/-- The fields of the object that the measurement loop of `ProcessCam` does not
touch are the same in `s` and `s1`. -/
def sameOutsideLoop {F X : Type} (s s1 : DynVisIns F X) : Prop :=
  s1.t = s.t ∧ s1.tc = s.tc ∧ s1.x0 = s.x0 ∧ s1.Ric = s.Ric ∧ s1.K = s.K ∧
    s1.useImu = s.useImu ∧ s1.useCam = s.useCam ∧ s1.xs = s.xs ∧ s1.zs = s.zs ∧
    s1.dts = s.dts ∧ s1.tss = s.tss ∧ s1.wss = s.wss ∧ s1.ass = s.ass

/-- The time stamp of a call. -/
def Call.time {F : Type} : Call F → F
  | Call.imu t _ _ => t
  | Call.cam t _ _ => t

/-- A call of `ProcessCam` gives as many feature ids as measurements and no negative id;
nothing is asked of a call of `ProcessImu`. -/
def Call.wellFormed {F : Type} : Call F → Prop
  | Call.imu _ _ _ => True
  | Call.cam _ zcs zcInds => zcs.length = zcInds.length ∧ ∀ id ∈ zcInds, 0 ≤ id

/-- The buffers filled by `ProcessImu` and the first block of `ProcessCam` on an object
that has only been used through these two methods: the flags are on, `tc` is still
negative and `dts` empty, there is one IMU segment per state, no state before the first
IMU time, and the three segment buffers have the same shape. -/
def imuInv {F X : Type} [LinearOrderedField F] (s : DynVisIns F X) : Prop :=
  s.useCam = true ∧ s.useImu = true ∧ s.tc < 0 ∧ s.dts = [] ∧
    s.xs.length = s.tss.length ∧ (s.xs ≠ [] → 0 ≤ s.t) ∧
    s.tss.map List.length = s.wss.map List.length ∧
    s.tss.map List.length = s.ass.map List.length

/-- The assertions of `ProcessImu` (lines 527-535) for a call at time `t`: `useCam` is on
and, when a state is stored (`xs.size()` is not zero), `t > tc` and the three segment
buffers `tss`, `wss`, `ass` are not empty. -/
def imuAsserts {F X : Type} [LinearOrderedField F] (s : DynVisIns F X) (t : F) : Prop :=
  s.useCam = true ∧
    (s.xs ≠ [] → s.tc < t ∧ s.tss ≠ [] ∧ s.wss ≠ [] ∧ s.ass ≠ [])

/-- The measurement arrays are consistent: `zs`, `lus`, `zCamInds`, `zInds` have one entry
per measurement, every camera index is a valid index into `xs` and every point index a
valid index into `ls`. -/
def camInv {F X : Type} (s : DynVisIns F X) : Prop :=
  s.zs.length = s.lus.length ∧ s.lus.length = s.zCamInds.length ∧
    s.zCamInds.length = s.zInds.length ∧
    (∀ c ∈ s.zCamInds, 0 ≤ c ∧ c < (s.xs.length : Int)) ∧
    (∀ l ∈ s.zInds, 0 ≤ l ∧ l < (s.ls.length : Int))

/-! ## The cubic interpolator `Cubic` and the constant-velocity residuals
(lib/algos/dynvisins.cc, lines 86-130 and 308-395)

The constructor of `Cubic` and the two residual functors are generic in the scalar type
`F` and use its operations only: they are read over the reals (or an ordered field) for
exact arithmetic, and over `Dbl` for the arithmetic of the type `double`. -/

/-- The data members of a `Cubic` object (lines 147-149). -/
structure Cubic (F : Type) where
  p0 : Vec3 F
  v0 : Vec3 F
  dt : F
  b : Vec3 F
  c : Vec3 F

/-- The constructor `Cubic(p0, v0, p1, v1, dt)` (lines 93-101). -/
def Cubic.new {F : Type} [Add F] [Sub F] [Mul F] [Div F] [Neg F] [OfNat F 2] [OfNat F 3]
    [OfNat F 6] (p0 v0 p1 v1 : Vec3 F) (dt : F) : Cubic F :=
  let dt2 := dt * dt
  let q1 : Vec3 F := p1 - p0 - dt • v0
  let q2 : Vec3 F := v1 - v0
  { p0 := p0, v0 := v0, dt := dt,
    b := (6 / dt2) • q1 + (-2 / dt) • q2,
    c := (-6 / (dt2 * dt)) • q1 + (3 / dt2) • q2 }

/-- The constructor `Cubic(p0, v0, dt)` (lines 103-107). -/
def Cubic.new0 {F : Type} [Field F] (p0 v0 : Vec3 F) (dt : F) : Cubic F :=
  { p0 := p0, v0 := v0, dt := dt, b := 0, c := 0 }

/-- The method `Cubic::GetPos(p, t)` (lines 110-116): the returned `bool` and the output
argument `p` after the call. -/
def Cubic.GetPos {F : Type} [LinearOrderedField F] (self : Cubic F) (p : Vec3 F) (t : F) :
    Bool × Vec3 F :=
  if self.dt < t then (false, p)
  else
    let t2 := t * t
    (true, self.p0 + t • self.v0 + (t2 / 2) • self.b + (t2 * t / 3) • self.c)

/-- The method `Cubic::GetVel(v, t)` (lines 118-123). -/
def Cubic.GetVel {F : Type} [LinearOrderedField F] (self : Cubic F) (v : Vec3 F) (t : F) :
    Bool × Vec3 F :=
  if self.dt < t then (false, v)
  else (true, self.v0 + t • self.b + (t * t) • self.c)

/-- The method `Cubic::GetAcc(a, t)` (lines 125-130). -/
def Cubic.GetAcc {F : Type} [LinearOrderedField F] (self : Cubic F) (a : Vec3 F) (t : F) :
    Bool × Vec3 F :=
  if self.dt < t then (false, a)
  else (true, self.b + (2 * t) • self.c)

/-- The residual functor `CvCubicRotError`: the estimator it refers to and the segment
time (lines 352-353). -/
structure CvCubicRotError (F X : Type) where
  vi : DynVisIns F X
  dt : F

/-- The constructor `CvCubicRotError(vi, dt)` with its assertion `dt > 0` (lines 316-321). -/
def CvCubicRotError.new {F X : Type} [Zero F] [LT F] [DecidableRel (fun a b : F => a < b)]
    (vi : DynVisIns F X) (dt : F) :
    Option (CvCubicRotError F X) :=
  if 0 < dt then some { vi := vi, dt := dt } else none

/-- The six numbers that two `memcpy` calls store in `res`: `e1` in `res[0..2]`, `e2` in
`res[3..5]`. -/
def residual6 {F : Type} (e1 e2 : Vec3 F) : Fin 6 → F :=
  fun i => if h : i.val < 3 then e1 ⟨i.val, h⟩ else e2 ⟨i.val - 3, by omega⟩

/-- The call `CvCubicRotError::operator()(ra, dra, rb, drb, res)` (lines 326-345): the
returned `bool` and the six residuals written to `res`.  `sqrt` is the function `sqrt` of
the C library. -/
def CvCubicRotError.call {F X : Type} [Add F] [Sub F] [Mul F] [Div F] [Neg F] [OfNat F 2]
    [OfNat F 3] [OfNat F 6] (sqrt : F → F)
    (self : CvCubicRotError F X) (ra dra rb drb : Vec3 F) : Bool × (Fin 6 → F) :=
  let cub := Cubic.new ra dra rb drb self.dt
  let e1 : Vec3 F := (sqrt self.dt / self.vi.dwStd) • (cub.b + self.dt • cub.c)
  let e2 : Vec3 F := (sqrt (self.dt / 3) / self.vi.dwStd) • (self.dt • cub.c)
  (true, residual6 e1 e2)

/-- The residual functor `CvCubicPosError` (lines 402-403). -/
structure CvCubicPosError (F X : Type) where
  vi : DynVisIns F X
  dt : F

/-- The constructor `CvCubicPosError(vi, dt)` with its assertion `dt > 0` (lines 366-371). -/
def CvCubicPosError.new {F X : Type} [Zero F] [LT F] [DecidableRel (fun a b : F => a < b)]
    (vi : DynVisIns F X) (dt : F) :
    Option (CvCubicPosError F X) :=
  if 0 < dt then some { vi := vi, dt := dt } else none

/-- The call `CvCubicPosError::operator()(pa, va, pb, vb, res)` (lines 376-395). -/
def CvCubicPosError.call {F X : Type} [Add F] [Sub F] [Mul F] [Div F] [Neg F] [OfNat F 2]
    [OfNat F 3] [OfNat F 6] (sqrt : F → F)
    (self : CvCubicPosError F X) (pa va pb vb : Vec3 F) : Bool × (Fin 6 → F) :=
  let cub := Cubic.new pa va pb vb self.dt
  let e1 : Vec3 F := (sqrt self.dt / self.vi.dvStd) • (cub.b + self.dt • cub.c)
  let e2 : Vec3 F := (sqrt (self.dt / 3) / self.vi.dvStd) • (self.dt • cub.c)
  (true, residual6 e1 e2)

/-! ## IEEE 754 binary64 arithmetic (the type `double` of the residual functors)

The scalar type of `Cubic`, `CvCubicRotError` and `CvCubicPosError` in the code is `double`.
`Dbl` models its values and the operations the three use, each rounded once to the nearest
double, ties to even (the default rounding mode, no fused multiply-add): `+`, `-`, `*`,
`/`, unary minus, `sqrt`, `<`, and the conversion of an integer literal.  Every finite
result is kept with an odd mantissa, so that two finite results are the same number
exactly when they are equal as terms (the two zeros differ in sign only). -/

/-- A value of the type `double` (IEEE 754 binary64): a finite number
`(-1)^neg * m * 2^e` (a signed zero when `m = 0`), an infinity, or a NaN. -/
inductive Dbl where
  | fin (neg : Bool) (m : Nat) (e : Int)
  | inf (neg : Bool)
  | nan
deriving DecidableEq

/-- The number of binary digits of `n`, counted with at most `fuel` halvings. -/
def Dbl.bitsFrom : Nat → Nat → Nat
  | 0, _ => 0
  | fuel + 1, n => if n = 0 then 0 else Dbl.bitsFrom fuel (n / 2) + 1

/-- The number of binary digits of `n` (`0` for `n = 0`). -/
def Dbl.bits (n : Nat) : Nat := Dbl.bitsFrom n n

/-- The finite number `(-1)^neg * m * 2^e` with the factors two of `m` moved into the
exponent (at most `fuel` of them), so that `m` is odd or zero. -/
def Dbl.oddFrom (neg : Bool) : Nat → Nat → Int → Dbl
  | 0, m, e => Dbl.fin neg m e
  | fuel + 1, m, e =>
    if m = 0 then Dbl.fin neg 0 0
    else if m % 2 = 0 then Dbl.oddFrom neg fuel (m / 2) (e + 1)
    else Dbl.fin neg m e

/-- The finite double `(-1)^neg * m * 2^e` in its unique form with `m` odd or zero. -/
def Dbl.mk (neg : Bool) (m : Nat) (e : Int) : Dbl := Dbl.oddFrom neg m m e

/-- The number `(-1)^neg * m * 2^e` rounded to the nearest `double`, ties to even: 53
significant bits, least exponent `-1074` (subnormal numbers), an infinity from `2^1024`
on. -/
def Dbl.round (neg : Bool) (m : Nat) (e : Int) : Dbl :=
  if m = 0 then Dbl.fin neg 0 0
  else
    let n : Int := ((Dbl.bits m : Nat) : Int)
    let q : Int := max (e + n - 53) (-1074)
    if q ≤ e then
      if 1024 < e + n then Dbl.inf neg else Dbl.mk neg m e
    else
      let sh : Nat := (q - e).toNat
      let hi : Nat := m / 2 ^ sh
      let lo : Nat := m % 2 ^ sh
      let half : Nat := 2 ^ (sh - 1)
      let r : Nat := if half < lo ∨ (lo = half ∧ hi % 2 = 1) then hi + 1 else hi
      if r = 0 then Dbl.fin neg 0 0
      else if 1024 < ((Dbl.bits r : Nat) : Int) + q then Dbl.inf neg
      else Dbl.mk neg r q

/-- The unary minus. -/
def Dbl.neg : Dbl → Dbl
  | Dbl.fin n m e => Dbl.fin (!n) m e
  | Dbl.inf n => Dbl.inf (!n)
  | Dbl.nan => Dbl.nan

/-- The product of two doubles. -/
def Dbl.mul : Dbl → Dbl → Dbl
  | Dbl.nan, _ => Dbl.nan
  | _, Dbl.nan => Dbl.nan
  | Dbl.inf n1, Dbl.inf n2 => Dbl.inf (xor n1 n2)
  | Dbl.inf n1, Dbl.fin n2 m2 _ => if m2 = 0 then Dbl.nan else Dbl.inf (xor n1 n2)
  | Dbl.fin n1 m1 _, Dbl.inf n2 => if m1 = 0 then Dbl.nan else Dbl.inf (xor n1 n2)
  | Dbl.fin n1 m1 e1, Dbl.fin n2 m2 e2 => Dbl.round (xor n1 n2) (m1 * m2) (e1 + e2)

/-- The quotient of two doubles.  For two finite non-zero numbers the integer quotient is
taken with at least 64 significant bits, and a non-zero remainder is recorded in one more
bit below them, so that rounding sees on which side of a tie the exact quotient lies. -/
def Dbl.div : Dbl → Dbl → Dbl
  | Dbl.nan, _ => Dbl.nan
  | _, Dbl.nan => Dbl.nan
  | Dbl.inf _, Dbl.inf _ => Dbl.nan
  | Dbl.inf n1, Dbl.fin n2 _ _ => Dbl.inf (xor n1 n2)
  | Dbl.fin n1 _ _, Dbl.inf n2 => Dbl.fin (xor n1 n2) 0 0
  | Dbl.fin n1 m1 e1, Dbl.fin n2 m2 e2 =>
    if m2 = 0 then
      if m1 = 0 then Dbl.nan else Dbl.inf (xor n1 n2)
    else if m1 = 0 then Dbl.fin (xor n1 n2) 0 0
    else
      let k : Nat := Dbl.bits m2 + 64
      let num : Nat := m1 * 2 ^ k
      let quo : Nat := num / m2
      let sticky : Nat := if num % m2 = 0 then 0 else 1
      Dbl.round (xor n1 n2) (2 * quo + sticky) (e1 - e2 - (k : Int) - 1)

/-- The sum of two doubles. -/
def Dbl.add : Dbl → Dbl → Dbl
  | Dbl.nan, _ => Dbl.nan
  | _, Dbl.nan => Dbl.nan
  | Dbl.inf n1, Dbl.inf n2 => if n1 = n2 then Dbl.inf n1 else Dbl.nan
  | Dbl.inf n1, Dbl.fin _ _ _ => Dbl.inf n1
  | Dbl.fin _ _ _, Dbl.inf n2 => Dbl.inf n2
  | Dbl.fin n1 m1 e1, Dbl.fin n2 m2 e2 =>
    let e : Int := min e1 e2
    let a1 : Int := (if n1 then -1 else 1) * ((m1 * 2 ^ (e1 - e).toNat : Nat) : Int)
    let a2 : Int := (if n2 then -1 else 1) * ((m2 * 2 ^ (e2 - e).toNat : Nat) : Int)
    let s : Int := a1 + a2
    if s = 0 then Dbl.fin (n1 && n2) 0 0
    else Dbl.round (decide (s < 0)) s.natAbs e

/-- The difference of two doubles. -/
def Dbl.sub (a b : Dbl) : Dbl := Dbl.add a (Dbl.neg b)

/-- The integer square root by bisection on the bits: for `r * r ≤ n`, the largest number
`r + d` with `d < 2 ^ (k + 1)` whose square is at most `n`. -/
def Dbl.isqrtFrom (n : Nat) : Nat → Nat → Nat
  | 0, r => if (r + 1) * (r + 1) ≤ n then r + 1 else r
  | k + 1, r =>
    Dbl.isqrtFrom n k (if (r + 2 ^ (k + 1)) * (r + 2 ^ (k + 1)) ≤ n then r + 2 ^ (k + 1) else r)

/-- The integer square root. -/
def Dbl.isqrt (n : Nat) : Nat := Dbl.isqrtFrom n (Dbl.bits n / 2 + 1) 0

/-- The function `sqrt` of the C library on doubles (correctly rounded): the root is taken
of the mantissa scaled to an even exponent and at least 128 more bits, and a root that is
not exact is recorded in one more bit, as in `Dbl.div`. -/
def Dbl.sqrt : Dbl → Dbl
  | Dbl.nan => Dbl.nan
  | Dbl.inf n => if n then Dbl.nan else Dbl.inf false
  | Dbl.fin n m e =>
    if m = 0 then Dbl.fin n 0 0
    else if n then Dbl.nan
    else
      let m1 : Nat := if e % 2 = 0 then m * 2 ^ 128 else m * 2 ^ 129
      let e1 : Int := if e % 2 = 0 then e - 128 else e - 129
      let r : Nat := Dbl.isqrt m1
      let sticky : Nat := if r * r = m1 then 0 else 1
      Dbl.round false (2 * r + sticky) (e1 / 2 - 1)

/-- The comparison `a < b` of two doubles. -/
def Dbl.lt : Dbl → Dbl → Bool
  | Dbl.nan, _ => false
  | _, Dbl.nan => false
  | Dbl.inf n1, Dbl.inf n2 => n1 && !n2
  | Dbl.inf n1, Dbl.fin _ _ _ => n1
  | Dbl.fin _ _ _, Dbl.inf n2 => !n2
  | Dbl.fin n1 m1 e1, Dbl.fin n2 m2 e2 =>
    let e : Int := min e1 e2
    let a1 : Int := (if n1 then -1 else 1) * ((m1 * 2 ^ (e1 - e).toNat : Nat) : Int)
    let a2 : Int := (if n2 then -1 else 1) * ((m2 * 2 ^ (e2 - e).toNat : Nat) : Int)
    decide (a1 < a2)

/-- The test `x == 0` on a double. -/
def Dbl.isZero : Dbl → Bool
  | Dbl.fin _ m _ => decide (m = 0)
  | _ => false

instance : Add Dbl := ⟨Dbl.add⟩
instance : Sub Dbl := ⟨Dbl.sub⟩
instance : Mul Dbl := ⟨Dbl.mul⟩
instance : Div Dbl := ⟨Dbl.div⟩
instance : Neg Dbl := ⟨Dbl.neg⟩
instance (n : Nat) : OfNat Dbl n := ⟨Dbl.round false n 0⟩
instance : Zero Dbl := ⟨Dbl.fin false 0 0⟩
instance : One Dbl := ⟨Dbl.fin false 1 0⟩
instance : LT Dbl := ⟨fun a b => Dbl.lt a b = true⟩
instance (a b : Dbl) : Decidable (a < b) := inferInstanceAs (Decidable (Dbl.lt a b = true))

/-- The rational number that a finite double stands for (`0` for an infinity or a NaN). -/
def Dbl.toRat : Dbl → ℚ
  | Dbl.fin n m e => (if n then -1 else 1) * (m : ℚ) * (2 : ℚ) ^ e
  | _ => 0

/-! # Lemmas and theorems -/

/-! ### Lemmas on the splice loop -/

theorem spliceFrom_some {A : Type} (src : List A) :
    ∀ (n : Nat) (dst : List A) (i j : Nat) (r : List A), dst.length - i = n →
      spliceFrom dst src i j = some r →
      r.length = dst.length ∧
        ∀ k, r[k]? = if i ≤ k ∧ k < dst.length then src[j + (k - i)]? else dst[k]? := by
  intro n
  induction n with
  | zero =>
    intro dst i j r hn h
    rw [spliceFrom] at h
    have hi : ¬ i < dst.length := by omega
    simp only [hi, if_false, Option.some.injEq] at h
    subst h
    refine ⟨rfl, fun k => ?_⟩
    have : ¬ (i ≤ k ∧ k < dst.length) := by omega
    simp [this]
  | succ n ih =>
    intro dst i j r hn h
    rw [spliceFrom] at h
    have hi : i < dst.length := by omega
    simp only [hi, if_true] at h
    cases hv : src[j]? with
    | none => simp [hv] at h
    | some v =>
      simp only [hv] at h
      have hlen : (dst.set i v).length - (i + 1) = n := by
        simp only [List.length_set]; omega
      obtain ⟨h1, h2⟩ := ih (dst.set i v) (i + 1) (j + 1) r hlen h
      simp only [List.length_set] at h1 h2
      refine ⟨h1, fun k => ?_⟩
      rw [h2 k]
      by_cases hk : i + 1 ≤ k ∧ k < dst.length
      · have hk2 : i ≤ k ∧ k < dst.length := ⟨by omega, hk.2⟩
        simp only [hk, hk2, and_self, if_true]
        congr 1
        omega
      · simp only [hk, if_false]
        by_cases hki : k = i
        · subst hki
          have hk2 : k ≤ k ∧ k < dst.length := ⟨le_refl _, hi⟩
          simp only [hk2, and_self, if_true, Nat.sub_self, Nat.add_zero, hv]
          simp [List.getElem?_set, hi]
        · have hk2 : ¬ (i ≤ k ∧ k < dst.length) := by omega
          simp only [hk2, if_false]
          rw [List.getElem?_set_ne (by omega)]

theorem spliceFrom_defined {A : Type} (src : List A) :
    ∀ (n : Nat) (dst : List A) (i j : Nat), dst.length - i = n →
      j + (dst.length - i) ≤ src.length → ∃ r, spliceFrom dst src i j = some r := by
  intro n
  induction n with
  | zero =>
    intro dst i j hn _
    rw [spliceFrom]
    have hi : ¬ i < dst.length := by omega
    simp [hi]
  | succ n ih =>
    intro dst i j hn hsrc
    rw [spliceFrom]
    have hi : i < dst.length := by omega
    have hj : j < src.length := by omega
    simp only [hi, if_true, List.getElem?_eq_getElem hj]
    apply ih
    · simp only [List.length_set]; omega
    · simp only [List.length_set]; omega

theorem spliceLoop_some {A : Type} (dst src : List A) (s : Nat) (r : List A)
    (h : spliceLoop dst src (s : Int) = some r) :
    r.length = dst.length ∧
      ∀ k, r[k]? = if s ≤ k ∧ k < dst.length then src[k - s]? else dst[k]? := by
  unfold spliceLoop at h
  have hs : ¬ ((s : Int) < 0) := by omega
  simp only [hs, if_false, Int.toNat_ofNat] at h
  obtain ⟨h1, h2⟩ := spliceFrom_some src _ dst s 0 r rfl h
  refine ⟨h1, fun k => ?_⟩
  rw [h2 k, Nat.zero_add]

theorem spliceLoop_defined {A : Type} (dst src : List A) (s : Nat)
    (h : dst.length - s ≤ src.length) : ∃ r, spliceLoop dst src (s : Int) = some r := by
  unfold spliceLoop
  have hs : ¬ ((s : Int) < 0) := by omega
  simp only [hs, if_false, Int.toNat_ofNat]
  exact spliceFrom_defined src _ dst s 0 rfl (by omega)

theorem wholeHistory_false_iff {T X U : Type} (pg : Track T X U) (sw : Int) :
    wholeHistory pg sw = false ↔ 0 ≤ sw ∧ sw ≤ (pg.us.length : Int) := by
  unfold wholeHistory
  simp only [Bool.or_eq_false_iff, decide_eq_false_iff_not, not_lt]

theorem wholeHistory_true_iff {T X U : Type} (pg : Track T X U) (sw : Int) :
    wholeHistory pg sw = true ↔ sw < 0 ∨ (pg.us.length : Int) < sw := by
  unfold wholeHistory
  simp only [Bool.or_eq_true, decide_eq_true_eq]

theorem vecFrom_natCast {A : Type} (v : List A) (n : Nat) (h : n ≤ v.length) :
    vecFrom v (n : Int) = some (v.drop n) := by
  unfold vecFrom
  have : 0 ≤ (n : Int) ∧ (n : Int) ≤ (v.length : Int) := ⟨by omega, by omega⟩
  simp only [this, and_self, if_true, Int.toNat_ofNat]

theorem spliceStart_eq {T X U : Type} (pg : Track T X U) (sw : Int)
    (hxs : pg.xs.length = pg.us.length + 1) :
    ∃ s : Nat, usSpliceStart pg sw = (s : Int) ∧ xsSpliceStart pg sw = (s : Int) ∧
      s ≤ pg.us.length ∧
      (wholeHistory pg sw = true → s = 0) ∧
      (wholeHistory pg sw = false → (s : Int) = (pg.us.length : Int) - sw) := by
  cases hb : wholeHistory pg sw with
  | true =>
    refine ⟨0, ?_, ?_, Nat.zero_le _, fun _ => rfl, fun h => (by cases h)⟩ <;>
      simp [usSpliceStart, xsSpliceStart, hb]
  | false =>
    obtain ⟨h0, h1⟩ := (wholeHistory_false_iff pg sw).1 hb
    refine ⟨pg.us.length - sw.toNat, ?_, ?_, Nat.sub_le _ _, fun h => (by cases h), fun _ => ?_⟩
    · simp only [usSpliceStart, hb, Bool.false_eq_true, if_false]; omega
    · simp only [xsSpliceStart, hb, Bool.false_eq_true, if_false]; omega
    · omega

theorem spliceBack_some {T X U : Type} (pg : Track T X U) (sw : Int) (w : Window T X U)
    (s : Nat) (hu : usSpliceStart pg sw = (s : Int)) (hx : xsSpliceStart pg sw = (s : Int))
    (pg' : Track T X U) (h : spliceBack pg sw w = some pg') :
    pg'.ts = pg.ts ∧ pg'.xs.length = pg.xs.length ∧ pg'.us.length = pg.us.length ∧
      (∀ k, pg'.us[k]? = if s ≤ k ∧ k < pg.us.length then w.us_pddp[k - s]? else pg.us[k]?) ∧
      (∀ k, pg'.xs[k]? = if s ≤ k ∧ k < pg.xs.length then w.xs_pddp[k - s]? else pg.xs[k]?) := by
  unfold spliceBack at h
  rw [hu, hx] at h
  cases h1 : spliceLoop pg.us w.us_pddp (s : Int) with
  | none => simp [h1] at h
  | some us =>
    cases h2 : spliceLoop pg.xs w.xs_pddp (s : Int) with
    | none => simp [h1, h2] at h
    | some xs =>
      simp only [h1, h2, Option.some.injEq] at h
      subst h
      obtain ⟨a1, a2⟩ := spliceLoop_some _ _ _ _ h1
      obtain ⟨b1, b2⟩ := spliceLoop_some _ _ _ _ h2
      exact ⟨rfl, b1, a1, a2, b2⟩

theorem spliceBack_defined {T X U : Type} (pg : Track T X U) (sw : Int) (w : Window T X U)
    (s : Nat) (hu : usSpliceStart pg sw = (s : Int)) (hx : xsSpliceStart pg sw = (s : Int))
    (h1 : pg.us.length - s ≤ w.us_pddp.length) (h2 : pg.xs.length - s ≤ w.xs_pddp.length) :
    ∃ pg', spliceBack pg sw w = some pg' := by
  unfold spliceBack
  rw [hu, hx]
  obtain ⟨us, e1⟩ := spliceLoop_defined pg.us w.us_pddp s h1
  obtain ⟨xs, e2⟩ := spliceLoop_defined pg.xs w.xs_pddp s h2
  exact ⟨⟨pg.ts, xs, us⟩, by simp only [e1, e2]⟩

theorem extractXs_eq {T X U : Type} (pg : Track T X U) (sw : Int)
    (hxs : pg.xs.length = pg.us.length + 1) (s : Nat)
    (hx : xsSpliceStart pg sw = (s : Int)) : extractXs pg sw = some (pg.xs.drop s) := by
  cases hb : wholeHistory pg sw with
  | true =>
    simp only [xsSpliceStart, hb, if_true] at hx
    have : s = 0 := by omega
    subst this
    simp [extractXs, hb]
  | false =>
    obtain ⟨h0, h1⟩ := (wholeHistory_false_iff pg sw).1 hb
    simp only [xsSpliceStart, hb, Bool.false_eq_true, if_false] at hx
    simp only [extractXs, hb, Bool.false_eq_true, if_false, hx]
    exact vecFrom_natCast _ _ (by omega)

theorem extractUs_eq {T X U : Type} (pg : Track T X U) (sw : Int) (s : Nat)
    (hu : usSpliceStart pg sw = (s : Int)) : extractUs pg sw = some (pg.us.drop s) := by
  cases hb : wholeHistory pg sw with
  | true =>
    simp only [usSpliceStart, hb, if_true] at hu
    have : s = 0 := by omega
    subst this
    simp [extractUs, hb]
  | false =>
    obtain ⟨h0, h1⟩ := (wholeHistory_false_iff pg sw).1 hb
    simp only [usSpliceStart, hb, Bool.false_eq_true, if_false] at hu
    simp only [extractUs, hb, Bool.false_eq_true, if_false, hu]
    exact vecFrom_natCast _ _ (by omega)

theorem drop_eq_of_getElem? {A : Type} (r src : List A) (s : Nat) (hs : s ≤ r.length)
    (hlen : src.length = r.length - s)
    (h : ∀ k, s ≤ k → k < r.length → r[k]? = src[k - s]?) : r.drop s = src := by
  apply List.ext_getElem?
  intro k
  rw [List.getElem?_drop]
  by_cases hk : s + k < r.length
  · rw [h (s + k) (Nat.le_add_right _ _) hk]
    congr 1
    omega
  · rw [List.getElem?_eq_none (by omega), List.getElem?_eq_none (by omega)]

/-! ### Lemmas on the horizon shift -/

theorem getElem?_set_self_of_lt {A : Type} (l : List A) (i : Nat) (a : A) (h : i < l.length) :
    (l.set i a)[i]? = some a := by
  simp [List.getElem?_set, h]

theorem shiftFrom_spec {K U : Type} (N : Nat) :
    ∀ (n k : Nat) (ts : List K) (us : List U), N - k = n → ts.length = N + 1 →
      us.length = N →
      ∃ ts1 us1, shiftFrom N k ts us = some (ts1, us1) ∧ ts1.length = N + 1 ∧
        us1.length = N ∧
        (∀ i, ts1[i]? = if k ≤ i ∧ i < N then ts[i + 1]? else ts[i]?) ∧
        (∀ i, us1[i]? = if k ≤ i ∧ i + 1 < N then us[i + 1]? else us[i]?) := by
  intro n
  induction n with
  | zero =>
    intro k ts us hn hts hus
    refine ⟨ts, us, ?_, hts, hus, fun i => ?_, fun i => ?_⟩
    · rw [shiftFrom]
      have : ¬ k < N := by omega
      simp only [this, if_false]
    · rw [if_neg (by omega)]
    · rw [if_neg (by omega)]
  | succ n ih =>
    intro k ts us hn hts hus
    have hk : k < N := by omega
    have hk1 : k + 1 < ts.length := by omega
    rw [shiftFrom]
    simp only [hk, if_true, List.getElem?_eq_getElem hk1]
    by_cases hlast : (k : Int) < (N : Int) - 1
    · have hku : k + 1 < us.length := by omega
      simp only [hlast, if_true, List.getElem?_eq_getElem hku]
      obtain ⟨ts1, us1, e, l1, l2, p1, p2⟩ :=
        ih (k + 1) (ts.set k ts[k + 1]) (us.set k us[k + 1]) (by omega)
          (by simp only [List.length_set]; exact hts) (by simp only [List.length_set]; exact hus)
      refine ⟨ts1, us1, e, l1, l2, fun i => ?_, fun i => ?_⟩
      · rw [p1 i]
        by_cases hi : i = k
        · subst hi
          rw [if_neg (by omega), if_pos ⟨le_refl _, hk⟩,
            getElem?_set_self_of_lt _ _ _ (by omega), List.getElem?_eq_getElem hk1]
        · rw [List.getElem?_set_ne (fun h => hi h.symm)]
          by_cases h2 : k + 1 ≤ i ∧ i < N
          · rw [if_pos h2, if_pos ⟨by omega, h2.2⟩, List.getElem?_set_ne (by omega)]
          · rw [if_neg h2, if_neg (by omega)]
      · rw [p2 i]
        by_cases hi : i = k
        · subst hi
          rw [if_neg (by omega), if_pos ⟨le_refl _, by omega⟩,
            getElem?_set_self_of_lt _ _ _ (by omega), List.getElem?_eq_getElem hku]
        · rw [List.getElem?_set_ne (fun h => hi h.symm)]
          by_cases h2 : k + 1 ≤ i ∧ i + 1 < N
          · rw [if_pos h2, if_pos ⟨by omega, h2.2⟩, List.getElem?_set_ne (by omega)]
          · rw [if_neg h2, if_neg (by omega)]
    · simp only [hlast, if_false]
      obtain ⟨ts1, us1, e, l1, l2, p1, p2⟩ :=
        ih (k + 1) (ts.set k ts[k + 1]) us (by omega)
          (by simp only [List.length_set]; exact hts) hus
      refine ⟨ts1, us1, e, l1, l2, fun i => ?_, fun i => ?_⟩
      · rw [p1 i]
        by_cases hi : i = k
        · subst hi
          rw [if_neg (by omega), if_pos ⟨le_refl _, hk⟩,
            getElem?_set_self_of_lt _ _ _ (by omega), List.getElem?_eq_getElem hk1]
        · rw [List.getElem?_set_ne (fun h => hi h.symm)]
          by_cases h2 : k + 1 ≤ i ∧ i < N
          · rw [if_pos h2, if_pos ⟨by omega, h2.2⟩, List.getElem?_set_ne (by omega)]
          · rw [if_neg h2, if_neg (by omega)]
      · rw [p2 i, if_neg (by omega), if_neg (by omega)]

theorem shiftHorizon_spec {K U : Type} [Add K] (N : Nat) (h : K) (ts : List K) (us : List U)
    (hts : ts.length = N + 1) (hus : us.length = N) :
    ∃ ts1 us1 tN, shiftHorizon N h ts us = some (ts1, us1) ∧ ts1.length = N + 1 ∧
      us1.length = N ∧ ts[N]? = some tN ∧ ts1[N]? = some (tN + h) ∧
      (∀ i, i < N → ts1[i]? = ts[i + 1]?) ∧
      (∀ i, us1[i]? = if i + 1 < N then us[i + 1]? else us[i]?) := by
  obtain ⟨ts1, us1, e, l1, l2, p1, p2⟩ := shiftFrom_spec N (N - 0) 0 ts us rfl hts hus
  have hN : N < ts.length := by omega
  have hN1 : ts1[N]? = some ts[N] := by
    rw [p1 N, if_neg (by omega), List.getElem?_eq_getElem hN]
  refine ⟨ts1.set N (ts[N] + h), us1, ts[N], ?_, ?_, l2, List.getElem?_eq_getElem hN, ?_, ?_, ?_⟩
  · unfold shiftHorizon
    simp only [e, hN1]
  · simp only [List.length_set]; exact l1
  · exact getElem?_set_self_of_lt _ _ _ (by omega)
  · intro i hi
    rw [List.getElem?_set_ne (by omega), p1 i, if_pos ⟨Nat.zero_le _, hi⟩]
  · intro i
    rw [p2 i]
    by_cases h2 : i + 1 < N
    · rw [if_pos ⟨Nat.zero_le _, h2⟩, if_pos h2]
    · rw [if_neg (by omega), if_neg h2]

/-! ### Lemmas on the time grid -/

theorem initGridFrom_spec {K : Type} [Mul K] [NatCast K] (N : Nat) (h : K) :
    ∀ (n k : Nat) (ts : List K), N + 1 - k = n → ts.length = N + 1 →
      ∃ ts1, initGridFrom N h k ts = some ts1 ∧ ts1.length = N + 1 ∧
        ∀ i, ts1[i]? = if k ≤ i ∧ i ≤ N then some ((i : K) * h) else ts[i]? := by
  intro n
  induction n with
  | zero =>
    intro k ts hn hts
    refine ⟨ts, ?_, hts, fun i => ?_⟩
    · rw [initGridFrom]
      have : ¬ k ≤ N := by omega
      simp only [this, if_false]
    · rw [if_neg (by omega)]
  | succ n ih =>
    intro k ts hn hts
    have hk : k ≤ N := by omega
    have hk1 : k < ts.length := by omega
    rw [initGridFrom]
    simp only [hk, hk1, if_true]
    obtain ⟨ts1, e, l1, p1⟩ := ih (k + 1) (ts.set k ((k : K) * h)) (by omega)
      (by simp only [List.length_set]; exact hts)
    refine ⟨ts1, e, l1, fun i => ?_⟩
    rw [p1 i]
    by_cases hi : i = k
    · subst hi
      rw [if_neg (by omega), if_pos ⟨le_refl _, hk⟩, getElem?_set_self_of_lt _ _ _ hk1]
    · rw [List.getElem?_set_ne (fun h => hi h.symm)]
      by_cases h2 : k + 1 ≤ i ∧ i ≤ N
      · rw [if_pos h2, if_pos ⟨by omega, h2.2⟩]
      · rw [if_neg h2, if_neg (by omega)]

theorem initGrid_spec {K : Type} [Zero K] [Mul K] [NatCast K] (N : Nat) (h : K) :
    ∃ ts, initGrid N h = some ts ∧ ts.length = N + 1 ∧
      ∀ i, i ≤ N → ts[i]? = some ((i : K) * h) := by
  obtain ⟨ts, e, l, p⟩ := initGridFrom_spec N h (N + 1 - 0) 0 (List.replicate (N + 1) (0 : K))
    rfl (List.length_replicate _ _)
  refine ⟨ts, e, l, fun i hi => ?_⟩
  rw [p i, if_pos ⟨Nat.zero_le _, hi⟩]

theorem gridAfter_spec {K U : Type} [CommRing K] (N : Nat) (h : K) (usSeq : Nat → List U)
    (hus : ∀ i, (usSeq i).length = N) :
    ∀ m, ∃ ts, gridAfter N h usSeq m = some ts ∧ ts.length = N + 1 ∧
      ∀ k, k ≤ N → ts[k]? = some (((m : K) + (k : K)) * h) := by
  intro m
  induction m with
  | zero =>
    obtain ⟨ts, e, l, p⟩ := initGrid_spec N h
    refine ⟨ts, e, l, fun k hk => ?_⟩
    rw [p k hk]
    simp
  | succ m ih =>
    obtain ⟨ts, e, l, p⟩ := ih
    obtain ⟨ts1, us1, tN, e1, l1, _, a1, a2, p1, _⟩ :=
      shiftHorizon_spec N h ts (usSeq m) l (hus m)
    refine ⟨ts1, ?_, l1, fun k hk => ?_⟩
    · simp only [gridAfter, e, e1]
    · by_cases hkN : k < N
      · rw [p1 k hkN, p (k + 1) (by omega)]
        congr 1
        push_cast
        ring
      · have hk2 : k = N := by omega
        subst hk2
        rw [a2]
        rw [p k (le_refl _)] at a1
        have : tN = ((m : K) + (k : K)) * h := (Option.some.inj a1).symm
        rw [this]
        congr 1
        push_cast
        ring

theorem tickTime_eq {K : Type} [CommRing K] (h : K) (m : Nat) : tickTime h m = (m : K) * h := by
  induction m with
  | zero => simp [tickTime]
  | succ m ih =>
    simp only [tickTime, ih]
    push_cast
    ring

/-! ### Lemmas on the warm-start rollout -/

theorem rolloutFrom_spec {K X U : Type} [Add K] [Mul K] [NatCast K] (step : K → X → U → K → X)
    (N : Nat) (t h : K) (us : List U) (hus : us.length = N) :
    ∀ (n j : Nat) (xs : List X), N - j = n → xs.length = N + 1 →
      ∃ xs1, rolloutFrom step N t h us j xs = some xs1 ∧ xs1.length = N + 1 ∧
        (∀ i, i ≤ j → xs1[i]? = xs[i]?) ∧
        (∀ i, j ≤ i → i < N → ∃ xi ui, xs1[i]? = some xi ∧ us[i]? = some ui ∧
          xs1[i + 1]? = some (step (t + (i : K) * h) xi ui h)) := by
  intro n
  induction n with
  | zero =>
    intro j xs hn hxs
    refine ⟨xs, ?_, hxs, fun _ _ => rfl, fun i h1 h2 => ?_⟩
    · rw [rolloutFrom]
      have : ¬ j < N := by omega
      simp only [this, if_false]
    · omega
  | succ n ih =>
    intro j xs hn hxs
    have hj : j < N := by omega
    have hjx : j < xs.length := by omega
    have hju : j < us.length := by omega
    have hj1 : j + 1 < xs.length := by omega
    rw [rolloutFrom]
    simp only [hj, hj1, if_true, List.getElem?_eq_getElem hjx, List.getElem?_eq_getElem hju]
    obtain ⟨xs1, e, l, p1, p2⟩ :=
      ih (j + 1) (xs.set (j + 1) (step (t + (j : K) * h) xs[j] us[j] h)) (by omega)
        (by simp only [List.length_set]; exact hxs)
    refine ⟨xs1, e, l, fun i hi => ?_, fun i h1 h2 => ?_⟩
    · rw [p1 i (by omega), List.getElem?_set_ne (by omega)]
    · by_cases hij : i = j
      · subst hij
        refine ⟨xs[i], us[i], ?_, List.getElem?_eq_getElem hju, ?_⟩
        · rw [p1 i (by omega), List.getElem?_set_ne (by omega), List.getElem?_eq_getElem hjx]
        · rw [p1 (i + 1) (le_refl _), getElem?_set_self_of_lt _ _ _ hj1]
      · exact p2 i (by omega) h2

theorem rollout_spec {K X U : Type} [Add K] [Mul K] [NatCast K] (step : K → X → U → K → X)
    (N : Nat) (t h : K) (x0 : X) (us : List U) (xs : List X) (hus : us.length = N)
    (hxs : xs.length = N + 1) :
    ∃ xs1, rollout step N t h x0 us xs = some xs1 ∧ xs1.length = N + 1 ∧
      xs1[0]? = some x0 ∧
      (∀ i, i < N → ∃ xi ui, xs1[i]? = some xi ∧ us[i]? = some ui ∧
        xs1[i + 1]? = some (step (t + (i : K) * h) xi ui h)) := by
  have h0 : 0 < xs.length := by omega
  obtain ⟨xs1, e, l, p1, p2⟩ := rolloutFrom_spec step N t h us hus (N - 0) 0 (xs.set 0 x0) rfl
    (by simp only [List.length_set]; exact hxs)
  refine ⟨xs1, ?_, l, ?_, fun i hi => p2 i (Nat.zero_le _) hi⟩
  · unfold rollout
    simp only [h0, if_true, e]
  · rw [p1 0 (le_refl _), getElem?_set_self_of_lt _ _ _ h0]

/-! ### The re-solve step of `Run`: window extraction and splice-back -/

/-- C1: for a history with `ts.size() = xs.size() = us.size()+1` and any `slidingWindow`,
the window given to the PDdp engine exists and satisfies
`ts_pddp.size() = xs_pddp.size() = us_pddp.size()+1`; for `slidingWindow = M` with
`0 ≤ M ≤ us.size()` it consists of the last `M+1` time stamps, the last `M+1` states and
the last `M` controls; for `slidingWindow < 0` or `us.size() < slidingWindow` it is the
whole history. -/
theorem extractWindow_shape {T X U : Type} (pg : Track T X U) (slidingWindow : Int)
    (hts : pg.ts.length = pg.xs.length) (hxs : pg.xs.length = pg.us.length + 1) :
    ∃ w, extractWindow pg slidingWindow = some w ∧
      w.ts_pddp.length = w.xs_pddp.length ∧
      w.xs_pddp.length = w.us_pddp.length + 1 ∧
      (∀ M : Nat, slidingWindow = (M : Int) → M ≤ pg.us.length →
        w.ts_pddp = pg.ts.drop (pg.ts.length - (M + 1)) ∧ w.ts_pddp.length = M + 1 ∧
        w.xs_pddp = pg.xs.drop (pg.xs.length - (M + 1)) ∧ w.xs_pddp.length = M + 1 ∧
        w.us_pddp = pg.us.drop (pg.us.length - M) ∧ w.us_pddp.length = M) ∧
      ((slidingWindow < 0 ∨ (pg.us.length : Int) < slidingWindow) →
        w = ⟨pg.ts, pg.xs, pg.us⟩) := by
  cases hb : wholeHistory pg slidingWindow with
  | true =>
    have hw := (wholeHistory_true_iff pg slidingWindow).1 hb
    refine ⟨⟨pg.ts, pg.xs, pg.us⟩, ?_, hts, hxs, ?_, fun _ => rfl⟩
    · simp [extractWindow, extractTs, extractXs, extractUs, hb]
    · intro M hM hle
      omega
  | false =>
    obtain ⟨h0, h1⟩ := (wholeHistory_false_iff pg slidingWindow).1 hb
    obtain ⟨M, rfl⟩ := Int.eq_ofNat_of_zero_le h0
    have hM : M ≤ pg.us.length := by omega
    have e1 : (pg.ts.length : Int) - (M : Int) - 1 = ((pg.ts.length - (M + 1) : Nat) : Int) := by
      omega
    have e2 : (pg.xs.length : Int) - (M : Int) - 1 = ((pg.xs.length - (M + 1) : Nat) : Int) := by
      omega
    have e3 : (pg.us.length : Int) - (M : Int) = ((pg.us.length - M : Nat) : Int) := by
      omega
    refine ⟨⟨pg.ts.drop (pg.ts.length - (M + 1)), pg.xs.drop (pg.xs.length - (M + 1)),
      pg.us.drop (pg.us.length - M)⟩, ?_, ?_, ?_, ?_, ?_⟩
    · simp only [extractWindow, extractTs, extractXs, extractUs, hb, Bool.false_eq_true,
        if_false, e1, e2, e3]
      rw [vecFrom_natCast _ _ (by omega), vecFrom_natCast _ _ (by omega),
        vecFrom_natCast _ _ (by omega)]
    · simp only [List.length_drop]; omega
    · simp only [List.length_drop]; omega
    · intro M' hM' _
      have : M' = M := by omega
      subst this
      refine ⟨rfl, ?_, rfl, ?_, rfl, ?_⟩ <;> simp only [List.length_drop] <;> omega
    · intro h
      omega

/-- Witness of C1 on a history of four time stamps / states and three controls with
`slidingWindow = 2`. -/
theorem extractWindow_shape_witness :
    ∃ w, extractWindow (⟨[0, 1, 2, 3], [10, 11, 12, 13], [20, 21, 22]⟩ : Track Nat Nat Nat) 2
        = some w ∧
      w.ts_pddp.length = w.xs_pddp.length ∧
      w.xs_pddp.length = w.us_pddp.length + 1 ∧
      (∀ M : Nat, (2 : Int) = (M : Int) → M ≤ 3 →
        w.ts_pddp = [1, 2, 3] ∧ w.ts_pddp.length = M + 1 ∧
        w.xs_pddp = [11, 12, 13] ∧ w.xs_pddp.length = M + 1 ∧
        w.us_pddp = [21, 22] ∧ w.us_pddp.length = M) ∧
      (((2 : Int) < 0 ∨ ((3 : Nat) : Int) < 2) → w = ⟨[0, 1, 2, 3], [10, 11, 12, 13], [20, 21, 22]⟩) := by
  obtain ⟨w, h1, h2, h3, h4, h5⟩ :=
    extractWindow_shape (⟨[0, 1, 2, 3], [10, 11, 12, 13], [20, 21, 22]⟩ : Track Nat Nat Nat) 2
      (by decide) (by decide)
  refine ⟨w, h1, h2, h3, ?_, h5⟩
  intro M hM hle
  have hM2 : M = 2 := by omega
  subst hM2
  simpa using h4 2 rfl (by decide)

/-- C2: for a solver that preserves the lengths of its window, a history with
`xs.size() = us.size()+1` and `0 ≤ M ≤ us.size()`, the splice loops complete without an
out-of-range access and afterwards the last `M+1` states and the last `M` controls of the
history are exactly the solver's output window. -/
theorem splice_window_equals_solved {T X U : Type} (solver : Window T X U → Window T X U)
    (hsolver : ∀ w, (solver w).xs_pddp.length = w.xs_pddp.length ∧
      (solver w).us_pddp.length = w.us_pddp.length)
    (pg : Track T X U) (M : Nat) (hxs : pg.xs.length = pg.us.length + 1)
    (hM : M ≤ pg.us.length) :
    ∃ xw uw, extractXs pg (M : Int) = some xw ∧ extractUs pg (M : Int) = some uw ∧
      xw.length = M + 1 ∧ uw.length = M ∧
      ∀ tw, ∃ pg', spliceBack pg (M : Int) (solver ⟨tw, xw, uw⟩) = some pg' ∧
        pg'.xs.length = pg.xs.length ∧ pg'.us.length = pg.us.length ∧
        pg'.xs.drop (pg'.xs.length - (M + 1)) = (solver ⟨tw, xw, uw⟩).xs_pddp ∧
        pg'.us.drop (pg'.us.length - M) = (solver ⟨tw, xw, uw⟩).us_pddp := by
  obtain ⟨s, hu, hx, hs, _, hsl⟩ := spliceStart_eq pg (M : Int) hxs
  have hb : wholeHistory pg (M : Int) = false :=
    (wholeHistory_false_iff pg (M : Int)).2 ⟨by omega, by omega⟩
  have hsM : s = pg.us.length - M := by have := hsl hb; omega
  refine ⟨pg.xs.drop s, pg.us.drop s, extractXs_eq pg _ hxs s hx, extractUs_eq pg _ s hu,
    by simp only [List.length_drop]; omega, by simp only [List.length_drop]; omega, ?_⟩
  intro tw
  obtain ⟨l1, l2⟩ := hsolver ⟨tw, pg.xs.drop s, pg.us.drop s⟩
  simp only [List.length_drop] at l1 l2
  obtain ⟨pg', hpg'⟩ := spliceBack_defined pg (M : Int) (solver ⟨tw, pg.xs.drop s, pg.us.drop s⟩)
    s hu hx (by omega) (by omega)
  obtain ⟨_, c2, c3, c4, c5⟩ := spliceBack_some pg _ _ s hu hx pg' hpg'
  refine ⟨pg', hpg', c2, c3, ?_, ?_⟩
  · have e : pg'.xs.length - (M + 1) = s := by omega
    rw [e]
    apply drop_eq_of_getElem? _ _ _ (by omega) (by omega)
    intro k hk1 hk2
    rw [c5 k, if_pos ⟨hk1, by omega⟩]
  · have e : pg'.us.length - M = s := by omega
    rw [e]
    apply drop_eq_of_getElem? _ _ _ (by omega) (by omega)
    intro k hk1 hk2
    rw [c4 k, if_pos ⟨hk1, by omega⟩]

/-- Witness of C2: history of three states and two controls, window `M = 1`, and a solver
that adds 100 to every state and control of its window. -/
theorem splice_window_equals_solved_witness :
    ∃ xw uw, extractXs (⟨[0, 1, 2], [10, 11, 12], [20, 21]⟩ : Track Nat Nat Nat) ((1 : Nat) : Int)
        = some xw ∧
      extractUs (⟨[0, 1, 2], [10, 11, 12], [20, 21]⟩ : Track Nat Nat Nat) ((1 : Nat) : Int)
        = some uw ∧
      xw.length = 1 + 1 ∧ uw.length = 1 ∧
      ∀ tw, ∃ pg', spliceBack (⟨[0, 1, 2], [10, 11, 12], [20, 21]⟩ : Track Nat Nat Nat)
          ((1 : Nat) : Int)
          ((fun w : Window Nat Nat Nat =>
            (⟨w.ts_pddp, w.xs_pddp.map (· + 100), w.us_pddp.map (· + 100)⟩ : Window Nat Nat Nat)) ⟨tw, xw, uw⟩)
          = some pg' ∧
        pg'.xs.length = 3 ∧ pg'.us.length = 2 ∧
        pg'.xs.drop (pg'.xs.length - (1 + 1)) = xw.map (· + 100) ∧
        pg'.us.drop (pg'.us.length - 1) = uw.map (· + 100) :=
  splice_window_equals_solved
    (fun w : Window Nat Nat Nat =>
            (⟨w.ts_pddp, w.xs_pddp.map (· + 100), w.us_pddp.map (· + 100)⟩ : Window Nat Nat Nat))
    (fun w => ⟨by simp, by simp⟩)
    (⟨[0, 1, 2], [10, 11, 12], [20, 21]⟩ : Track Nat Nat Nat) 1 (by decide) (by decide)

/-- C3: for a history with `xs.size() = us.size()+1` and `0 ≤ M ≤ us.size()`, the
sliding-window splice leaves `pg.ts`, `pg.xs.size()`, `pg.us.size()`, every state
`pg.xs[i]` with `i < xs.size()-M-1` and every control `pg.us[i]` with `i < us.size()-M`
as they were; and it completes whenever the window holds `M+1` states and `M` controls. -/
theorem splice_frame {T X U : Type} (pg : Track T X U) (M : Nat)
    (hxs : pg.xs.length = pg.us.length + 1) (hM : M ≤ pg.us.length) (w : Window T X U) :
    (∀ pg', spliceBack pg (M : Int) w = some pg' →
      pg'.xs.length = pg.xs.length ∧ pg'.us.length = pg.us.length ∧ pg'.ts = pg.ts ∧
      (∀ i : Nat, (i : Int) < (pg.xs.length : Int) - (M : Int) - 1 → pg'.xs[i]? = pg.xs[i]?) ∧
      (∀ i : Nat, (i : Int) < (pg.us.length : Int) - (M : Int) → pg'.us[i]? = pg.us[i]?)) ∧
    (w.xs_pddp.length = M + 1 → w.us_pddp.length = M →
      ∃ pg', spliceBack pg (M : Int) w = some pg') := by
  obtain ⟨s, hu, hx, hs, _, hsl⟩ := spliceStart_eq pg (M : Int) hxs
  have hb : wholeHistory pg (M : Int) = false :=
    (wholeHistory_false_iff pg (M : Int)).2 ⟨by omega, by omega⟩
  have hsM : s = pg.us.length - M := by have := hsl hb; omega
  constructor
  · intro pg' hpg'
    obtain ⟨c1, c2, c3, c4, c5⟩ := spliceBack_some pg _ _ s hu hx pg' hpg'
    refine ⟨c2, c3, c1, fun i hi => ?_, fun i hi => ?_⟩
    · rw [c5 i, if_neg (by omega)]
    · rw [c4 i, if_neg (by omega)]
  · intro l1 l2
    exact spliceBack_defined pg (M : Int) w s hu hx (by omega) (by omega)

/-- Witness of C3: five states, four controls, window `M = 2`. -/
theorem splice_frame_witness :
    (∀ pg', spliceBack (⟨[0, 1, 2, 3, 4], [10, 11, 12, 13, 14], [20, 21, 22, 23]⟩ :
        Track Nat Nat Nat) ((2 : Nat) : Int) ⟨[2, 3, 4], [7, 8, 9], [5, 6]⟩ = some pg' →
      pg'.xs.length = 5 ∧ pg'.us.length = 4 ∧ pg'.ts = [0, 1, 2, 3, 4] ∧
      (∀ i : Nat, (i : Int) < ((5 : Nat) : Int) - ((2 : Nat) : Int) - 1 →
        pg'.xs[i]? = [10, 11, 12, 13, 14][i]?) ∧
      (∀ i : Nat, (i : Int) < ((4 : Nat) : Int) - ((2 : Nat) : Int) →
        pg'.us[i]? = [20, 21, 22, 23][i]?)) ∧
    ((3 : Nat) = 2 + 1 → (2 : Nat) = 2 →
      ∃ pg', spliceBack (⟨[0, 1, 2, 3, 4], [10, 11, 12, 13, 14], [20, 21, 22, 23]⟩ :
        Track Nat Nat Nat) ((2 : Nat) : Int) ⟨[2, 3, 4], [7, 8, 9], [5, 6]⟩ = some pg') :=
  splice_frame (⟨[0, 1, 2, 3, 4], [10, 11, 12, 13, 14], [20, 21, 22, 23]⟩ : Track Nat Nat Nat)
    2 (by decide) (by decide) ⟨[2, 3, 4], [7, 8, 9], [5, 6]⟩

/-- C4: for a history with `xs.size() = us.size()+1` and every value of `slidingWindow`,
extracting the window and splicing it back unmodified leaves the history exactly as it
was; the control loop and the state loop start at the same history index, which is
`us.size() - (number of window controls)` (that is `us.size() - M` when
`0 ≤ slidingWindow = M ≤ us.size()`), and window control `j` and window state `j` are
both written to that index plus `j`. -/
theorem extract_splice_roundtrip {T X U : Type} (pg : Track T X U) (slidingWindow : Int)
    (hxs : pg.xs.length = pg.us.length + 1) :
    ∃ xw uw, extractXs pg slidingWindow = some xw ∧ extractUs pg slidingWindow = some uw ∧
      xw.length = uw.length + 1 ∧
      (∀ tw, spliceBack pg slidingWindow ⟨tw, xw, uw⟩ = some pg) ∧
      usSpliceStart pg slidingWindow = xsSpliceStart pg slidingWindow ∧
      usSpliceStart pg slidingWindow = (pg.us.length : Int) - (uw.length : Int) ∧
      (0 ≤ slidingWindow → slidingWindow ≤ (pg.us.length : Int) →
        usSpliceStart pg slidingWindow = (pg.us.length : Int) - slidingWindow) ∧
      (∀ w pg', spliceBack pg slidingWindow w = some pg' → ∀ j : Nat,
        (j < uw.length → pg'.us[pg.us.length - uw.length + j]? = w.us_pddp[j]?) ∧
        (j < xw.length → pg'.xs[pg.us.length - uw.length + j]? = w.xs_pddp[j]?)) := by
  obtain ⟨s, hu, hx, hs, hsw, hsl⟩ := spliceStart_eq pg slidingWindow hxs
  have hlu : (pg.us.drop s).length = pg.us.length - s := List.length_drop _ _
  have hlx : (pg.xs.drop s).length = pg.xs.length - s := List.length_drop _ _
  refine ⟨pg.xs.drop s, pg.us.drop s, extractXs_eq pg _ hxs s hx, extractUs_eq pg _ s hu,
    by omega, ?_, by rw [hu, hx], by rw [hu, hlu]; omega, ?_, ?_⟩
  · intro tw
    obtain ⟨pg', hpg'⟩ := spliceBack_defined pg slidingWindow ⟨tw, pg.xs.drop s, pg.us.drop s⟩
      s hu hx (by simp only [hlu]; exact le_refl _) (by simp only [hlx]; exact le_refl _)
    obtain ⟨c1, c2, c3, c4, c5⟩ := spliceBack_some pg _ _ s hu hx pg' hpg'
    rw [hpg']
    congr 1
    have e1 : pg'.us = pg.us := by
      apply List.ext_getElem?
      intro k
      rw [c4 k]
      split
      · next hk =>
        show (pg.us.drop s)[k - s]? = pg.us[k]?
        rw [List.getElem?_drop]
        congr 1
        omega
      · rfl
    have e2 : pg'.xs = pg.xs := by
      apply List.ext_getElem?
      intro k
      rw [c5 k]
      split
      · next hk =>
        show (pg.xs.drop s)[k - s]? = pg.xs[k]?
        rw [List.getElem?_drop]
        congr 1
        omega
      · rfl
    cases pg'
    cases pg
    simp only at c1 e1 e2
    subst c1 e1 e2
    rfl
  · intro h0 h1
    rw [hu]
    exact hsl ((wholeHistory_false_iff pg slidingWindow).2 ⟨h0, h1⟩)
  · intro w pg' hpg' j
    obtain ⟨_, _, _, c4, c5⟩ := spliceBack_some pg _ _ s hu hx pg' hpg'
    have e : pg.us.length - (pg.us.drop s).length = s := by rw [hlu]; omega
    rw [e]
    constructor
    · intro hj
      rw [c4 (s + j), if_pos ⟨Nat.le_add_right _ _, by omega⟩]
      congr 1
      omega
    · intro hj
      rw [c5 (s + j), if_pos ⟨Nat.le_add_right _ _, by omega⟩]
      congr 1
      omega

/-- Witness of C4: four states, three controls, `slidingWindow = 5` (larger than the
history, so the whole history is the window). -/
theorem extract_splice_roundtrip_witness :
    ∃ xw uw, extractXs (⟨[0, 1, 2, 3], [10, 11, 12, 13], [20, 21, 22]⟩ : Track Nat Nat Nat) 5
        = some xw ∧
      extractUs (⟨[0, 1, 2, 3], [10, 11, 12, 13], [20, 21, 22]⟩ : Track Nat Nat Nat) 5
        = some uw ∧
      xw.length = uw.length + 1 ∧
      (∀ tw, spliceBack (⟨[0, 1, 2, 3], [10, 11, 12, 13], [20, 21, 22]⟩ : Track Nat Nat Nat) 5
        ⟨tw, xw, uw⟩ = some ⟨[0, 1, 2, 3], [10, 11, 12, 13], [20, 21, 22]⟩) :=
  let ⟨xw, uw, h1, h2, h3, h4, _⟩ :=
    extract_splice_roundtrip (⟨[0, 1, 2, 3], [10, 11, 12, 13], [20, 21, 22]⟩ : Track Nat Nat Nat)
      5 (by decide)
  ⟨xw, uw, h1, h2, h3, h4⟩

/-! ### The horizon shift and the time grid -/

/-- C5: for `N ≥ 1`, a time grid of length `N+1` and a control sequence of length `N`,
the horizon shift completes and gives `us'[k] = us[k+1]` for `k < N-1`,
`us'[N-1] = us[N-1]`, `ts'[k] = ts[k+1]` for `k < N`, `ts'[N] = ts[N] + h`, with both
lengths unchanged. -/
theorem shiftHorizon_warm_start {K U : Type} [Add K] (N : Nat) (h : K) (ts : List K)
    (us : List U) (hN : 1 ≤ N) (hts : ts.length = N + 1) (hus : us.length = N) :
    ∃ ts1 us1, shiftHorizon N h ts us = some (ts1, us1) ∧
      ts1.length = N + 1 ∧ us1.length = N ∧
      (∀ k, k < N - 1 → us1[k]? = us[k + 1]?) ∧
      us1[N - 1]? = us[N - 1]? ∧
      (∀ k, k < N → ts1[k]? = ts[k + 1]?) ∧
      (∃ tN, ts[N]? = some tN ∧ ts1[N]? = some (tN + h)) := by
  obtain ⟨ts1, us1, tN, e, l1, l2, a1, a2, p1, p2⟩ := shiftHorizon_spec N h ts us hts hus
  refine ⟨ts1, us1, e, l1, l2, fun k hk => ?_, ?_, p1, tN, a1, a2⟩
  · rw [p2 k, if_pos (by omega)]
  · rw [p2 (N - 1), if_neg (by omega)]

/-- Witness of C5: `N = 3`, `ts = [0, 1, 2, 3]`, `us = [7, 8, 9]`, `h = 1`. -/
theorem shiftHorizon_warm_start_witness :
    ∃ ts1 us1, shiftHorizon 3 (1 : Int) [0, 1, 2, 3] [7, 8, 9] = some (ts1, us1) ∧
      ts1.length = 3 + 1 ∧ us1.length = 3 ∧
      (∀ k, k < 3 - 1 → us1[k]? = [7, 8, 9][k + 1]?) ∧
      us1[3 - 1]? = [7, 8, 9][3 - 1]? ∧
      (∀ k, k < 3 → ts1[k]? = [(0 : Int), 1, 2, 3][k + 1]?) ∧
      (∃ tN, [(0 : Int), 1, 2, 3][3]? = some tN ∧ ts1[3]? = some (tN + 1)) :=
  shiftHorizon_warm_start 3 (1 : Int) [0, 1, 2, 3] [7, 8, 9] (by decide) (by decide) (by decide)

/-- C6: with `N ≥ 1` and `h = Tc/N > 0` in exact arithmetic, the time grid after `m`
horizon shifts (`m = 0`: the initial grid) has length `N+1`, satisfies
`ts[k] = (m+k)*h` for all `k ≤ N`, is strictly increasing and has uniform spacing `h`. -/
theorem time_grid_strictly_increasing {K U : Type} [LinearOrderedField K] (N : Nat) (Tc : K)
    (_hN : 1 ≤ N) (hh : 0 < stepSize Tc N) (usSeq : Nat → List U)
    (hus : ∀ i, (usSeq i).length = N) (m : Nat) :
    ∃ ts, gridAfter N (stepSize Tc N) usSeq m = some ts ∧ ts.length = N + 1 ∧
      (∀ k, k ≤ N → ts[k]? = some (((m : K) + (k : K)) * stepSize Tc N)) ∧
      ts.Pairwise (· < ·) ∧
      (∀ k, k < N → ∀ a b, ts[k]? = some a → ts[k + 1]? = some b → b - a = stepSize Tc N) := by
  obtain ⟨ts, e, l, p⟩ := gridAfter_spec N (stepSize Tc N) usSeq hus m
  refine ⟨ts, e, l, p, ?_, ?_⟩
  · rw [List.pairwise_iff_getElem]
    intro i j hi hj hij
    have e1 := p i (by omega)
    have e2 := p j (by omega)
    rw [List.getElem?_eq_getElem hi] at e1
    rw [List.getElem?_eq_getElem hj] at e2
    rw [Option.some.inj e1, Option.some.inj e2]
    apply mul_lt_mul_of_pos_right _ hh
    have : (i : K) < (j : K) := by exact_mod_cast hij
    linarith
  · intro k hk a b ha hb
    rw [p k (by omega)] at ha
    rw [p (k + 1) (by omega)] at hb
    rw [← Option.some.inj ha, ← Option.some.inj hb]
    push_cast
    ring

/-- Witness of C6 over the rationals: `N = 2`, `Tc = 1`, after three shifts. -/
theorem time_grid_strictly_increasing_witness :
    ∃ ts, gridAfter 2 (stepSize (1 : ℚ) 2) (fun _ => [(0 : ℚ), 0]) 3 = some ts ∧
      ts.length = 2 + 1 ∧
      (∀ k : Nat, k ≤ 2 → ts[k]? = some ((((3 : Nat) : ℚ) + (k : ℚ)) * stepSize (1 : ℚ) 2)) ∧
      ts.Pairwise (· < ·) ∧
      (∀ k, k < 2 → ∀ a b, ts[k]? = some a → ts[k + 1]? = some b →
        b - a = stepSize (1 : ℚ) 2) :=
  time_grid_strictly_increasing 2 (1 : ℚ) (by decide) (by norm_num [stepSize])
    (fun _ => [(0 : ℚ), 0]) (fun _ => rfl) 3

/-- C7: at control tick `m` (loop variable `t = m*h`, time grid shifted `m` times, exact
arithmetic), the warm-start rollout completes; afterwards `xs[0]` is the latest estimated
state `pg.xs.back()` and for every `j < N`,
`xs[j+1] = Step(ts[j], xs[j], us[j], ts[j+1]-ts[j])`: the time `t + j*h` and the step `h`
passed to `sys.Step` are `ts[j]` and `ts[j+1]-ts[j]`. -/
theorem rollout_consistent_with_grid {K X U : Type} [CommRing K] (step : K → X → U → K → X)
    (N : Nat) (h : K) (usSeq : Nat → List U) (hseq : ∀ i, (usSeq i).length = N) (m : Nat)
    (pgxs : List X) (xback : X) (hback : pgxs.getLast? = some xback)
    (us : List U) (xs : List X) (hus : us.length = N) (hxs : xs.length = N + 1) :
    tickTime h m = (m : K) * h ∧
    ∃ ts xs1, gridAfter N h usSeq m = some ts ∧
      rollout step N (tickTime h m) h xback us xs = some xs1 ∧
      xs1.length = N + 1 ∧ xs1[0]? = pgxs.getLast? ∧
      ∀ j, j < N → ∃ tj tj1 xj uj, ts[j]? = some tj ∧ ts[j + 1]? = some tj1 ∧
        xs1[j]? = some xj ∧ us[j]? = some uj ∧
        tickTime h m + (j : K) * h = tj ∧ h = tj1 - tj ∧
        xs1[j + 1]? = some (step tj xj uj (tj1 - tj)) := by
  refine ⟨tickTime_eq h m, ?_⟩
  obtain ⟨ts, e, _, p⟩ := gridAfter_spec N h usSeq hseq m
  obtain ⟨xs1, e1, l1, a0, a1⟩ := rollout_spec step N (tickTime h m) h xback us xs hus hxs
  refine ⟨ts, xs1, e, e1, l1, by rw [a0, hback], fun j hj => ?_⟩
  obtain ⟨xj, uj, b1, b2, b3⟩ := a1 j hj
  have t1 : tickTime h m + (j : K) * h = ((m : K) + (j : K)) * h := by
    rw [tickTime_eq]; ring
  have t2 : h = ((m : K) + ((j + 1 : Nat) : K)) * h - ((m : K) + (j : K)) * h := by
    push_cast; ring
  refine ⟨_, _, xj, uj, p j (by omega), p (j + 1) (by omega), b1, b2, t1, t2, ?_⟩
  rw [b3, t1, ← t2]

/-- Witness of C7 over the integers: `N = 2`, `h = 1`, tick `m = 1`, the system
`Step(t, x, u, h) = x + u*h + t`. -/
theorem rollout_consistent_with_grid_witness :
    tickTime (1 : Int) 1 = ((1 : Nat) : Int) * 1 ∧
    ∃ ts xs1, gridAfter 2 (1 : Int) (fun _ => [(0 : Int), 0]) 1 = some ts ∧
      rollout (fun t x u h => x + u * h + t) 2 (tickTime (1 : Int) 1) 1 5 [(3 : Int), 4]
        [(0 : Int), 0, 0] = some xs1 ∧
      xs1.length = 2 + 1 ∧ xs1[0]? = [(9 : Int), 5].getLast? ∧
      ∀ j : Nat, j < 2 → ∃ tj tj1 xj uj, ts[j]? = some tj ∧ ts[j + 1]? = some tj1 ∧
        xs1[j]? = some xj ∧ [(3 : Int), 4][j]? = some uj ∧
        tickTime (1 : Int) 1 + (j : Int) * 1 = tj ∧ (1 : Int) = tj1 - tj ∧
        xs1[j + 1]? = some ((fun t x u h => x + u * h + t) tj xj uj (tj1 - tj)) :=
  rollout_consistent_with_grid (fun t x u h => x + u * h + t) 2 (1 : Int)
    (fun _ => [(0 : Int), 0]) (fun _ => rfl) 1 [(9 : Int), 5] 5 rfl [(3 : Int), 4]
    [(0 : Int), 0, 0] rfl rfl

theorem tick_inv {K X U : Type} [Add K] [Mul K] [NatCast K] [LT K]
    [DecidableRel (α := K) (· < ·)] [Add U] (env : RunEnv K X U) (w : U)
    (s s1 : RunState K X U) (h : tick env w s = some s1) :
    ∃ xback xs1 u0 xlast ts3 us3 t0 u0s,
      s.pg.xs.getLast? = some xback ∧
      rollout env.step env.N s.t env.h xback s.us s.xs = some xs1 ∧
      (if env.oc then env.ddp s.ts xs1 s.us else (xs1, s.us)).2[0]? = some u0 ∧
      s.xps.getLast? = some xlast ∧
      shiftHorizon env.N env.h s.ts (if env.oc then env.ddp s.ts xs1 s.us else (xs1, s.us)).2
        = some (ts3, us3) ∧
      ts3[0]? = some t0 ∧ us3[0]? = some u0s ∧
      s1.t = s.t + env.h ∧ s1.ts = ts3 ∧ s1.us = us3 ∧
      s1.tps = s.tps ++ [t0] ∧
      s1.xps = s.xps ++ [env.step s.t xlast (u0 + w) env.h] ∧
      s1.ups = s.ups ++ [u0s + w] := by
  unfold tick at h
  split at h
  · cases h
  · next xback hxback =>
    split at h
    · cases h
    · next xs1 hxs1 =>
      simp only at h
      split at h
      · next u0 xlast hu0 hxlast =>
        split at h
        · cases h
        · next ts3 us3 hshift =>
          split at h
          · cases h
          · next pg2 hpg2 =>
            split at h
            · next t0 u0s ht0 hu0s =>
              cases h
              exact ⟨xback, xs1, u0, xlast, ts3, us3, t0, u0s, hxback, hxs1, hu0, hxlast,
                hshift, ht0, hu0s, rfl, rfl, rfl, rfl, rfl, rfl⟩
            · cases h
      · cases h

theorem initState_inv {K X U : Type} [Zero K] [Mul K] [NatCast K] [Zero U] (N : Nat) (h : K)
    (x0 : X) (pg : Track K X U) (s : RunState K X U) (hs : initState N h x0 pg = some s) :
    s.t = 0 ∧ initGrid N h = some s.ts ∧ s.us.length = N ∧ s.xs.length = N + 1 ∧
      s.tps = [0] ∧ s.xps = [x0] ∧ s.ups = [] := by
  unfold initState at hs
  split at hs
  · next ts x hts hx =>
    cases hs
    exact ⟨rfl, hts, List.length_replicate _ _, List.length_replicate _ _, rfl, rfl, rfl⟩
  · cases hs

/-- Along a run of `Run` whose optimiser `ddp` keeps the number of controls, the loop
variable and the time grid at the start of tick `m` are `t = m*h` and
`ts[k] = (m+k)*h`. -/
theorem runTicks_time_grid {K X U : Type} [LinearOrderedCommRing K] [Add U] [Zero U]
    (env : RunEnv K X U)
    (hddp : ∀ ts xs us, (env.ddp ts xs us).2.length = us.length)
    (ws : Nat → U) (x0 : X) (pg : Track K X U) (s0 : RunState K X U)
    (h0 : initState env.N env.h x0 pg = some s0) :
    ∀ m s, runTicks env ws m s0 = some s →
      s.t = tickTime env.h m ∧ s.us.length = env.N ∧ s.ts.length = env.N + 1 ∧
      ∀ k, k ≤ env.N → s.ts[k]? = some (((m : K) + (k : K)) * env.h) := by
  intro m
  induction m with
  | zero =>
    intro s hs
    simp only [runTicks, Option.some.injEq] at hs
    subst hs
    obtain ⟨a1, a2, a3, _⟩ := initState_inv _ _ _ _ _ h0
    obtain ⟨ts, e, l, p⟩ := initGrid_spec env.N env.h
    rw [a2] at e
    cases e
    refine ⟨by rw [a1]; rfl, a3, l, fun k hk => ?_⟩
    rw [p k hk]
    simp
  | succ m ih =>
    intro s hs
    simp only [runTicks] at hs
    split at hs
    · cases hs
    · next s1 hs1 =>
      obtain ⟨i1, i2, i3, i4⟩ := ih s1 hs1
      obtain ⟨xback, xs1, u0, xlast, ts3, us3, t0, u0s, _, _, _, _, hshift, _, _, e1, e2, e3,
        _⟩ := tick_inv env (ws m) s1 s hs
      have hlen : (if env.oc then env.ddp s1.ts xs1 s1.us else (xs1, s1.us)).2.length
          = env.N := by
        split
        · rw [hddp]; exact i2
        · exact i2
      obtain ⟨ts4, us4, tN, e4, l1, l2, a1, a2, p1, _⟩ :=
        shiftHorizon_spec env.N env.h s1.ts _ i3 hlen
      rw [hshift] at e4
      cases e4
      refine ⟨by rw [e1, i1]; rfl, by rw [e3]; exact l2, by rw [e2]; exact l1, fun k hk => ?_⟩
      rw [e2]
      by_cases hkN : k < env.N
      · rw [p1 k hkN, i4 (k + 1) (by omega)]
        congr 1
        push_cast
        ring
      · have hk2 : k = env.N := by omega
        rw [i4 env.N (le_refl _)] at a1
        rw [hk2, a2, ← Option.some.inj a1]
        congr 1
        push_cast
        ring

/-! ### The recorded true trajectory -/

/-- What one tick appends to the true trajectory when `N ≥ 2`: the true state is produced
by the control `us[0] + w` (with `us` as left by the optimiser), the recorded time is
`ts[1]`, and the recorded control is `us[1] + w`, because line 304 reads `us[0]` after
the shift of lines 226-230. -/
theorem tick_true_history {K X U : Type} [Add K] [Mul K] [NatCast K] [LT K]
    [DecidableRel (α := K) (· < ·)] [Add U] (env : RunEnv K X U) (w : U)
    (s s1 : RunState K X U) (h : tick env w s = some s1) (hN : 2 ≤ env.N)
    (hts : s.ts.length = env.N + 1) (hus : s.us.length = env.N)
    (hddp : ∀ ts xs us, (env.ddp ts xs us).2.length = us.length) :
    ∃ xs1 u0 u1 t1 xlast,
      (if env.oc then env.ddp s.ts xs1 s.us else (xs1, s.us)).2[0]? = some u0 ∧
      (if env.oc then env.ddp s.ts xs1 s.us else (xs1, s.us)).2[1]? = some u1 ∧
      s.ts[1]? = some t1 ∧ s.xps.getLast? = some xlast ∧
      s1.tps = s.tps ++ [t1] ∧
      s1.xps = s.xps ++ [env.step s.t xlast (u0 + w) env.h] ∧
      s1.ups = s.ups ++ [u1 + w] := by
  obtain ⟨xback, xs1, u0, xlast, ts3, us3, t0, u0s, _, _, hu0, hxlast, hshift, ht0, hu0s, _, _,
    _, e1, e2, e3⟩ := tick_inv env w s s1 h
  have hlen : (if env.oc then env.ddp s.ts xs1 s.us else (xs1, s.us)).2.length = env.N := by
    split
    · rw [hddp]; exact hus
    · exact hus
  obtain ⟨ts4, us4, tN, e4, _, _, _, _, p1, p2⟩ := shiftHorizon_spec env.N env.h s.ts _ hts hlen
  rw [hshift] at e4
  cases e4
  have q1 := p1 0 (by omega)
  have q2 := p2 0
  rw [if_pos (by omega)] at q2
  rw [ht0] at q1
  rw [hu0s] at q2
  exact ⟨xs1, u0, u0s, t0, xlast, hu0, q2.symm, q1.symm, hxlast, e1, e2, e3⟩

/-- C8 (defect of the code): first tick of a run with `N = 2`, `h = 1`, `oc` on, the
optimiser leaving `us = [1, 2]`, noise `w = 10` and `Step(t, x, u, h) = x + u*h`.  The
true state `11` is produced by the applied control `us[0] + w = 11`, but the control
recorded in `ups` is `us[1] + w = 12`, so `xps[1] = Step(xps[0], ups[0], h)` fails:
`Step(0, 12, 1) = 12`.  The recorded time `tps[1] = 1` is the time of `xps[1]`. -/
theorem tick_records_shifted_control :
    ∃ s s1, initState 2 (1 : Int) (0 : Int) (⟨[0], [0], []⟩ : Track Int Int Int) = some s ∧
      tick sampleEnv 10 s = some s1 ∧
      s1.tps = [0, 1] ∧ s1.xps = [0, 11] ∧ s1.ups = [12] ∧
      sampleEnv.step 0 0 (1 + 10) 1 = 11 ∧
      sampleEnv.step 0 0 12 1 ≠ 11 := by
  refine ⟨{ t := 0, ts := [0, 1, 2], xs := [0, 0, 0], us := [0, 0], tps := [0], xps := [0],
            ups := [], pg := ⟨[0], [0], []⟩ },
          { t := 1, ts := [1, 2, 3], xs := [0, 0, 0], us := [2, 2], tps := [0, 1],
            xps := [0, 11], ups := [12], pg := ⟨[0, 1], [0, 11], [1]⟩ }, ?_, ?_, rfl, rfl, rfl,
          ?_, ?_⟩
  · simp [initState, initGrid, initGridFrom]
  · simp [tick, sampleEnv, rollout, rolloutFrom, shiftHorizon, shiftFrom]
  · simp [sampleEnv]
  · simp [sampleEnv]

/-! ### `Ins::Step` -/

theorem getBlock_setBlock_same {K : Type} {n m : Nat} (A : Matrix (Fin n) (Fin m) K)
    (r c : Nat) (M : Mat3 K) (hr : r + 3 ≤ n) (hc : c + 3 ≤ m) :
    getBlock (setBlock A r c M) r c hr hc = M := by
  funext i j
  have h : r ≤ r + i.val ∧ r + i.val < r + 3 ∧ c ≤ c + j.val ∧ c + j.val < c + 3 :=
    ⟨by omega, by omega, by omega, by omega⟩
  simp only [getBlock, setBlock, h, and_self, dif_pos]
  congr 1 <;> apply Fin.ext <;> simp

theorem getBlock_setBlock_disjoint {K : Type} {n m : Nat} (A : Matrix (Fin n) (Fin m) K)
    (r c r1 c1 : Nat) (M : Mat3 K) (hr : r + 3 ≤ n) (hc : c + 3 ≤ m)
    (hd : r1 + 3 ≤ r ∨ r + 3 ≤ r1 ∨ c1 + 3 ≤ c ∨ c + 3 ≤ c1) :
    getBlock (setBlock A r1 c1 M) r c hr hc = getBlock A r c hr hc := by
  funext i j
  have h : ¬ (r1 ≤ r + i.val ∧ r + i.val < r1 + 3 ∧ c1 ≤ c + j.val ∧ c + j.val < c1 + 3) := by
    omega
  simp only [getBlock, setBlock, h, dif_neg, not_false_eq_true]

/-- Whatever the flags, the block of `A` at rows 12..14 (velocity) and columns 6..8
(accelerometer bias) is `-dt*R`: line 79 is not guarded by `useAcc_`. -/
theorem Step_A_block_v_ba {K : Type} [CommRing K] (so3 : SO3 K) (self : Ins K)
    (xb0 : InsState K) (t : K) (xa : InsState K) (u : Fin 6 → K) (dt : K)
    (p : Option (List K)) (A0 : Matrix15 K) (B : Option (Matrix15x6 K))
    (C : Option (Matrix15X K)) :
    ∃ A, (Ins.Step so3 self xb0 t xa u dt p (some A0) B C).A = some A ∧
      getBlock A 12 6 (by decide) (by decide) = (-dt) • xa.R :=
  ⟨_, rfl, getBlock_setBlock_same _ _ _ _ _ _⟩

/-- With `xb` and `xa` bound to two different objects, the call on objects in memory leaves
in `xb` the state and in `*A` the matrix that `Ins.Step` computes, and leaves `xa` and every
other object as they were. -/
theorem StepRef_distinct {K : Type} [CommRing K] (so3 : SO3 K) (self : Ins K)
    (mem : Nat → InsState K) (xb xa : Nat) (t : K) (u : Fin 6 → K) (dt : K)
    (p : Option (List K)) (A : Option (Matrix15 K)) (B : Option (Matrix15x6 K))
    (C : Option (Matrix15X K)) (hne : xb ≠ xa) :
    (Ins.StepRef so3 self mem xb t xa u dt p A B C).mem xb
        = (Ins.Step so3 self (mem xb) t (mem xa) u dt p A B C).xb ∧
      (Ins.StepRef so3 self mem xb t xa u dt p A B C).A
        = (Ins.Step so3 self (mem xb) t (mem xa) u dt p A B C).A ∧
      (Ins.StepRef so3 self mem xb t xa u dt p A B C).mem xa = mem xa := by
  have hne1 : xa ≠ xb := fun h => hne h.symm
  refine ⟨?_, ?_, ?_⟩
  · simp only [Ins.StepRef, Ins.Step, Function.update_same, Function.update_noteq hne1]
  · simp only [Ins.StepRef, Ins.Step, Function.update_same, Function.update_noteq hne1]
  · simp only [Ins.StepRef, Function.update_noteq hne1]

/-- Whatever objects the references are bound to, a call writes to no object but `xb` and
leaves the `Ins` object and the matrices behind `B` and `C` as they were. -/
theorem StepRef_frame {K : Type} [CommRing K] (so3 : SO3 K) (self : Ins K)
    (mem : Nat → InsState K) (xb xa : Nat) (t : K) (u : Fin 6 → K) (dt : K)
    (p : Option (List K)) (A : Option (Matrix15 K)) (B : Option (Matrix15x6 K))
    (C : Option (Matrix15X K)) :
    (∀ k, k ≠ xb → (Ins.StepRef so3 self mem xb t xa u dt p A B C).mem k = mem k) ∧
      (Ins.StepRef so3 self mem xb t xa u dt p A B C).self = self ∧
      (Ins.StepRef so3 self mem xb t xa u dt p A B C).B = B ∧
      (Ins.StepRef so3 self mem xb t xa u dt p A B C).C = C := by
  refine ⟨fun k hk => ?_, rfl, rfl, rfl⟩
  simp only [Ins.StepRef, Function.update_noteq hk]

/-- C9 (counterexample): the object built by `Ins(true)` and a state `xa` with identity
rotation and zero biases, position and velocity, the input `u = (0, 0, 1, 1, 0, 0)` and
`dt = 1`.  The call with `xb` bound to the same object as `xa` (address 0 for both)
modifies `xa`: its rotation is no longer the identity.  It also leaves in `xb` the velocity
`(1, 1, -9.80665)`, computed on line 46 with the rotation that line 41 has just stored,
while the call with the same `xa`, `u`, `dt` and `xb` bound to another object (address 1)
leaves `(1, 0, -9.80665)`: equal `xa`, `u`, `dt` do not give equal `xb`. -/
theorem Step_aliased_call_overwrites_xa :
    (Ins.StepRef sampleSO3 (Ins.new true) (fun _ => ⟨1, 0, 0, 0, 0⟩) 0 0 0
        ![0, 0, 1, 1, 0, 0] 1 none none none none).mem 0
      ≠ (⟨1, 0, 0, 0, 0⟩ : InsState ℚ) ∧
    ((Ins.StepRef sampleSO3 (Ins.new true) (fun _ => ⟨1, 0, 0, 0, 0⟩) 0 0 0
        ![0, 0, 1, 1, 0, 0] 1 none none none none).mem 0).v
      = ![1, 1, -(980665 / 100000)] ∧
    ((Ins.StepRef sampleSO3 (Ins.new true) (fun _ => ⟨1, 0, 0, 0, 0⟩) 1 0 0
        ![0, 0, 1, 1, 0, 0] 1 none none none none).mem 1).v
      = ![1, 0, -(980665 / 100000)] ∧
    ((Ins.StepRef sampleSO3 (Ins.new true) (fun _ => ⟨1, 0, 0, 0, 0⟩) 0 0 0
        ![0, 0, 1, 1, 0, 0] 1 none none none none).mem 0)
      ≠ ((Ins.StepRef sampleSO3 (Ins.new true) (fun _ => ⟨1, 0, 0, 0, 0⟩) 1 0 0
        ![0, 0, 1, 1, 0, 0] 1 none none none none).mem 1) := by
  have hv0 : ((Ins.StepRef sampleSO3 (Ins.new true) (fun _ => ⟨1, 0, 0, 0, 0⟩) 0 0 0
      ![0, 0, 1, 1, 0, 0] 1 none none none none).mem 0).v
      = ![1, 1, -(980665 / 100000)] := by
    funext i
    fin_cases i <;>
      norm_num [Ins.StepRef, Ins.new, sampleSO3, Function.update, Matrix.mulVec,
        Matrix.dotProduct, Fin.sum_univ_three, Matrix.one_apply, Matrix.vecHead,
        Matrix.vecTail, show ¬ ((2 : Fin 3) = 0) from by decide]
  have hv1 : ((Ins.StepRef sampleSO3 (Ins.new true) (fun _ => ⟨1, 0, 0, 0, 0⟩) 1 0 0
      ![0, 0, 1, 1, 0, 0] 1 none none none none).mem 1).v
      = ![1, 0, -(980665 / 100000)] := by
    funext i
    fin_cases i <;>
      norm_num [Ins.StepRef, Ins.new, sampleSO3, Function.update, Matrix.mulVec,
        Matrix.dotProduct, Fin.sum_univ_three, Matrix.one_apply, Matrix.vecHead,
        Matrix.vecTail, show ¬ ((2 : Fin 3) = 0) from by decide]
  refine ⟨fun h => ?_, hv0, hv1, fun h => ?_⟩
  · have h1 := congrFun (congrArg InsState.v h) 1
    rw [hv0] at h1
    norm_num at h1
  · have h1 := congrFun (congrArg InsState.v h) 1
    rw [hv0, hv1] at h1
    norm_num at h1

/-- C9 (amended): two calls of `Ins::Step` on `Ins` objects with the same configuration
(`useAcc_`, `semiImplicit`, `g0`) that each bind `xb` and `xa` to two different objects
and agree on the state `xa`, on `u` and on `dt` (and on whether `A` is requested) leave
the same state in `xb` and the same matrix in `*A`, whatever the time `t`, the parameter
pointer `p`, the rest of the memory, the previous contents of `xb` and `*A`, and the
pointers `B`, `C`; such a call leaves `xa`, every object other than `xb`, and the `Ins`
object as they were.  A call that binds `xb` to the object of `xa` leaves in it the
rotation `xa.R*dR` and, with `useAcc_` on, the velocity computed on line 46 from this
updated rotation. -/
theorem Step_pure {K : Type} [CommRing K] (so3 : SO3 K) (self self1 : Ins K)
    (mem mem1 : Nat → InsState K) (xb xa xb1 xa1 : Nat) (u : Fin 6 → K) (dt : K) (t t1 : K)
    (p p1 : Option (List K)) (A A1 : Option (Matrix15 K)) (B B1 : Option (Matrix15x6 K))
    (C C1 : Option (Matrix15X K))
    (hacc : self.useAcc_ = self1.useAcc_) (hsemi : self.semiImplicit = self1.semiImplicit)
    (hg0 : self.g0 = self1.g0)
    (hne : xb ≠ xa) (hne1 : xb1 ≠ xa1) (hxa : mem xa = mem1 xa1)
    (hA : A.isSome = A1.isSome) :
    (Ins.StepRef so3 self mem xb t xa u dt p A B C).mem xb
        = (Ins.StepRef so3 self1 mem1 xb1 t1 xa1 u dt p1 A1 B1 C1).mem xb1 ∧
      (Ins.StepRef so3 self mem xb t xa u dt p A B C).A
        = (Ins.StepRef so3 self1 mem1 xb1 t1 xa1 u dt p1 A1 B1 C1).A ∧
      (Ins.StepRef so3 self mem xb t xa u dt p A B C).ret
        = (Ins.StepRef so3 self1 mem1 xb1 t1 xa1 u dt p1 A1 B1 C1).ret ∧
      (Ins.StepRef so3 self mem xb t xa u dt p A B C).mem xa = mem xa ∧
      (∀ k, k ≠ xb → (Ins.StepRef so3 self mem xb t xa u dt p A B C).mem k = mem k) ∧
      (Ins.StepRef so3 self mem xb t xa u dt p A B C).self = self ∧
      (Ins.StepRef so3 self1 mem1 xb1 t1 xa1 u dt p1 A1 B1 C1).self = self1 ∧
      ((Ins.StepRef so3 self mem xa t xa u dt p A B C).mem xa).R
        = (mem xa).R * so3.exp (dt • ((fun i : Fin 3 => u ⟨i.val, by omega⟩) - (mem xa).bg)) ∧
      (self.useAcc_ = true →
        ((Ins.StepRef so3 self mem xa t xa u dt p A B C).mem xa).v
          = (mem xa).v + dt •
            (((mem xa).R
                * so3.exp (dt • ((fun i : Fin 3 => u ⟨i.val, by omega⟩) - (mem xa).bg))).mulVec
              ((fun i : Fin 3 => u ⟨i.val + 3, by omega⟩) - (mem xa).ba) - self.g0)) := by
  have ha : xa ≠ xb := fun h => hne h.symm
  have ha1 : xa1 ≠ xb1 := fun h => hne1 h.symm
  refine ⟨?_, ?_, rfl, ?_, fun k hk => ?_, rfl, rfl, ?_, fun hu => ?_⟩
  · simp only [Ins.StepRef, Function.update_same, Function.update_noteq ha,
      Function.update_noteq ha1, hxa, hacc, hsemi, hg0]
  · cases A with
    | none =>
      cases A1 with
      | none => rfl
      | some _ => cases hA
    | some _ =>
      cases A1 with
      | none => cases hA
      | some _ =>
        simp only [Ins.StepRef, Ins.stepJacobian, Function.update_noteq ha,
          Function.update_noteq ha1, hxa, hacc, hsemi]
  · simp only [Ins.StepRef, Function.update_noteq ha]
  · simp only [Ins.StepRef, Function.update_noteq hk]
  · simp only [Ins.StepRef, Function.update_same]
  · simp only [Ins.StepRef, Function.update_same, hu, if_true]

/-- Witness of C9 over the rationals: the object built by `Ins(true)` and one that differs
from it in the noise scale `sv`, two calls with different `t`, `p`, addresses, previous
`xb` and previous `A`, on the same state `xa`. -/
theorem Step_pure_witness :
    (Ins.StepRef sampleSO3 (Ins.new true)
        (fun k => if k = 0 then ⟨1, 0, 0, 0, ![1, 2, 3]⟩ else ⟨1, 0, 0, 0, 0⟩) 1 0 0
        ![0, 0, 0, 0, 0, 1] (1 / 2) none (some 0) none none).mem 1
      = (Ins.StepRef sampleSO3 { Ins.new true with sv := 1 }
        (fun k => if k = 5 then ⟨1, 0, 0, 0, ![1, 2, 3]⟩ else ⟨0, 0, 0, 0, 0⟩) 2 7 5
        ![0, 0, 0, 0, 0, 1] (1 / 2) (some [1]) (some 1) (some 0) none).mem 2 ∧
    (Ins.StepRef sampleSO3 (Ins.new true)
        (fun k => if k = 0 then ⟨1, 0, 0, 0, ![1, 2, 3]⟩ else ⟨1, 0, 0, 0, 0⟩) 1 0 0
        ![0, 0, 0, 0, 0, 1] (1 / 2) none (some 0) none none).mem 0
      = ⟨1, 0, 0, 0, ![1, 2, 3]⟩ :=
  let h := Step_pure sampleSO3 (Ins.new true) { Ins.new true with sv := 1 }
    (fun k => if k = 0 then ⟨1, 0, 0, 0, ![1, 2, 3]⟩ else ⟨1, 0, 0, 0, 0⟩)
    (fun k => if k = 5 then ⟨1, 0, 0, 0, ![1, 2, 3]⟩ else ⟨0, 0, 0, 0, 0⟩) 1 0 2 5
    ![0, 0, 0, 0, 0, 1] (1 / 2) 0 7 none (some [1]) (some 0) (some 1) none (some 0)
    none none rfl rfl rfl (by decide) (by decide) rfl rfl
  ⟨h.1, h.2.2.2.1⟩

theorem getBlock_one_diag {K : Type} [CommRing K] (r : Nat) (hr : r + 3 ≤ 15) :
    getBlock (1 : Matrix15 K) r r hr hr = 1 := by
  funext i j
  simp only [getBlock, Matrix.one_apply, Fin.mk.injEq, Fin.ext_iff]
  congr 1
  apply propext
  omega

theorem getBlock_one_off {K : Type} [CommRing K] (r c : Nat) (hr : r + 3 ≤ 15)
    (hc : c + 3 ≤ 15) (hd : r + 3 ≤ c ∨ c + 3 ≤ r) :
    getBlock (1 : Matrix15 K) r c hr hc = 0 := by
  funext i j
  have h : ¬ (r + i.val = c + j.val) := by omega
  simp only [getBlock, Matrix.one_apply, Fin.mk.injEq, h, if_false, Matrix.zero_apply]

theorem stepJacobian_row_p {K : Type} [CommRing K] (so3 : SO3 K) (self : Ins K)
    (xa : InsState K) (dt : K) (w a : Vec3 K) (dR : Mat3 K) :
    getBlock (Ins.stepJacobian so3 self xa dt w a dR) 9 3 (by decide) (by decide) = 0 ∧
    getBlock (Ins.stepJacobian so3 self xa dt w a dR) 9 6 (by decide) (by decide)
      = (if self.semiImplicit && self.useAcc_ then (-(dt * dt)) • xa.R else 0) ∧
    getBlock (Ins.stepJacobian so3 self xa dt w a dR) 9 9 (by decide) (by decide) = 1 ∧
    getBlock (Ins.stepJacobian so3 self xa dt w a dR) 9 12 (by decide) (by decide)
      = dt • (1 : Mat3 K) := by
  unfold Ins.stepJacobian
  cases self.semiImplicit <;> cases self.useAcc_ <;>
    simp (disch := omega) only [Bool.and_true, Bool.and_false, Bool.false_eq_true, if_true,
      if_false, getBlock_setBlock_disjoint, getBlock_setBlock_same, getBlock_one_diag,
      getBlock_one_off, and_self]

theorem stepJacobian_row_v {K : Type} [CommRing K] (so3 : SO3 K) (self : Ins K)
    (xa : InsState K) (dt : K) (w a : Vec3 K) (dR : Mat3 K) :
    getBlock (Ins.stepJacobian so3 self xa dt w a dR) 12 3 (by decide) (by decide) = 0 ∧
    getBlock (Ins.stepJacobian so3 self xa dt w a dR) 12 6 (by decide) (by decide)
      = (-dt) • xa.R ∧
    getBlock (Ins.stepJacobian so3 self xa dt w a dR) 12 9 (by decide) (by decide) = 0 ∧
    getBlock (Ins.stepJacobian so3 self xa dt w a dR) 12 12 (by decide) (by decide) = 1 := by
  unfold Ins.stepJacobian
  cases self.semiImplicit <;> cases self.useAcc_ <;>
    simp (disch := omega) only [Bool.and_true, Bool.and_false, Bool.false_eq_true, if_true,
      if_false, getBlock_setBlock_disjoint, getBlock_setBlock_same, getBlock_one_diag,
      getBlock_one_off, and_self]

/-- With the accelerometer in use, the position and velocity rows of `A` (rows 9..14)
restricted to the `bg`, `ba`, `p`, `v` columns are the exact partial derivatives of
`xb.p` and `xb.v`: these are affine in `(bg, ba, p, v)`, and a perturbation
`(dbg, dba, dp, dv)` of `xa` changes them by exactly the block rows of `A` applied to
the perturbation.  The block of the velocity rows in the `ba` columns is `-dt*R`. -/
theorem Step_pv_rows_exact_with_acc {K : Type} [CommRing K] (so3 : SO3 K) (self : Ins K)
    (hacc : self.useAcc_ = true) (xb0 : InsState K) (t : K) (xa : InsState K)
    (u : Fin 6 → K) (dt : K) (p : Option (List K)) (A0 : Matrix15 K)
    (B : Option (Matrix15x6 K)) (C : Option (Matrix15X K)) (dbg dba dp dv : Vec3 K) :
    ∃ A, (Ins.Step so3 self xb0 t xa u dt p (some A0) B C).A = some A ∧
      (Ins.Step so3 self xb0 t
          { R := xa.R, bg := xa.bg + dbg, ba := xa.ba + dba, p := xa.p + dp, v := xa.v + dv }
          u dt p (some A0) B C).xb.p - (Ins.Step so3 self xb0 t xa u dt p (some A0) B C).xb.p
        = (getBlock A 9 3 (by decide) (by decide)).mulVec dbg
          + (getBlock A 9 6 (by decide) (by decide)).mulVec dba
          + (getBlock A 9 9 (by decide) (by decide)).mulVec dp
          + (getBlock A 9 12 (by decide) (by decide)).mulVec dv ∧
      (Ins.Step so3 self xb0 t
          { R := xa.R, bg := xa.bg + dbg, ba := xa.ba + dba, p := xa.p + dp, v := xa.v + dv }
          u dt p (some A0) B C).xb.v - (Ins.Step so3 self xb0 t xa u dt p (some A0) B C).xb.v
        = (getBlock A 12 3 (by decide) (by decide)).mulVec dbg
          + (getBlock A 12 6 (by decide) (by decide)).mulVec dba
          + (getBlock A 12 9 (by decide) (by decide)).mulVec dp
          + (getBlock A 12 12 (by decide) (by decide)).mulVec dv ∧
      getBlock A 12 6 (by decide) (by decide) = (-dt) • xa.R := by
  refine ⟨_, rfl, ?_, ?_, (stepJacobian_row_v so3 self xa dt _ _ _).2.1⟩
  · obtain ⟨b1, b2, b3, b4⟩ := stepJacobian_row_p so3 self xa dt
      ((fun i : Fin 3 => u ⟨i.val, by omega⟩) - xa.bg)
      ((fun i : Fin 3 => u ⟨i.val + 3, by omega⟩) - xa.ba)
      (so3.exp (dt • ((fun i : Fin 3 => u ⟨i.val, by omega⟩) - xa.bg)))
    rw [b1, b2, b3, b4]
    cases hs : self.semiImplicit <;>
      simp only [Ins.Step, hacc, hs, if_true, Bool.false_and, Bool.true_and,
        Bool.false_eq_true, if_false, Matrix.zero_mulVec, Matrix.one_mulVec,
        Matrix.smul_mulVec_assoc, Matrix.mulVec_sub, Matrix.mulVec_add] <;>
      funext i <;>
      simp only [Pi.add_apply, Pi.sub_apply, Pi.smul_apply, Pi.zero_apply, smul_eq_mul] <;>
      ring
  · obtain ⟨b1, b2, b3, b4⟩ := stepJacobian_row_v so3 self xa dt
      ((fun i : Fin 3 => u ⟨i.val, by omega⟩) - xa.bg)
      ((fun i : Fin 3 => u ⟨i.val + 3, by omega⟩) - xa.ba)
      (so3.exp (dt • ((fun i : Fin 3 => u ⟨i.val, by omega⟩) - xa.bg)))
    rw [b1, b2, b3, b4]
    simp only [Ins.Step, hacc, if_true, Matrix.zero_mulVec, Matrix.one_mulVec,
      Matrix.smul_mulVec_assoc, Matrix.mulVec_sub, Matrix.mulVec_add]
    funext i
    simp only [Pi.add_apply, Pi.sub_apply, Pi.smul_apply, Pi.zero_apply, smul_eq_mul]
    ring

/-- Without the accelerometer the returned velocity is `xa.v`, whatever the bias `ba`. -/
theorem Step_v_without_acc {K : Type} [CommRing K] (so3 : SO3 K) (self : Ins K)
    (hacc : self.useAcc_ = false) (xb0 : InsState K) (t : K) (xa : InsState K)
    (u : Fin 6 → K) (dt : K) (p : Option (List K)) (A : Option (Matrix15 K))
    (B : Option (Matrix15x6 K)) (C : Option (Matrix15X K)) :
    (Ins.Step so3 self xb0 t xa u dt p A B C).xb.v = xa.v := by
  simp only [Ins.Step, hacc, Bool.false_eq_true, if_false]

/-- Without the accelerometer, at `dt = 1`, `R = I` and `u = 0`, the block of `A` at
rows 12..14, columns 6..8 is `-I`, not zero, while `xb.v = xa.v = 0` for every bias. -/
theorem Step_v_ba_block_without_acc (so3 : SO3 ℚ) :
    ∃ A : Matrix15 ℚ,
      (Ins.Step so3 (Ins.new false) ⟨1, 0, 0, 0, 0⟩ 0 ⟨1, 0, 0, 0, 0⟩ 0 1 none (some 0) none
        none).A = some A ∧
      getBlock A 12 6 (by decide) (by decide) = -1 ∧
      getBlock A 12 6 (by decide) (by decide) ≠ 0 ∧
      ∀ ba : Vec3 ℚ,
        (Ins.Step so3 (Ins.new false) ⟨1, 0, 0, 0, 0⟩ 0 ⟨1, 0, ba, 0, 0⟩ 0 1 none (some 0) none
          none).xb.v = 0 := by
  have hb : getBlock (Ins.stepJacobian so3 (Ins.new false) ⟨1, 0, 0, 0, 0⟩ 1
      ((fun i : Fin 3 => (0 : Fin 6 → ℚ) ⟨i.val, by omega⟩) - 0)
      ((fun i : Fin 3 => (0 : Fin 6 → ℚ) ⟨i.val + 3, by omega⟩) - 0)
      (so3.exp ((1 : ℚ) • ((fun i : Fin 3 => (0 : Fin 6 → ℚ) ⟨i.val, by omega⟩) - 0))))
      12 6 (by decide) (by decide) = -1 := by
    rw [(stepJacobian_row_v so3 _ _ _ _ _ _).2.1]
    simp
  refine ⟨_, rfl, hb, ?_, fun ba => ?_⟩
  · rw [hb]
    intro h
    have h00 := congrFun (congrFun h 0) 0
    simp at h00
  · exact Step_v_without_acc so3 (Ins.new false) rfl _ _ _ _ _ _ _ _ _

/-- C10 (defect of the code): the object built by `Ins(false)`, `dt = 1`, `xa` with
`R = I` and all vectors zero, `u = 0`, a non-null `A`.  The returned velocity is `xa.v`
for every accelerometer bias `ba`, so the exact derivative of `xb.v` with respect to
`xa.ba` is zero, but the block of `A` at rows 12..14, columns 6..8 is `-dt*R = -I`. -/
theorem Step_velocity_bias_block_without_acc :
    ∃ A : Matrix15 ℚ,
      (Ins.Step sampleSO3 (Ins.new false) ⟨1, 0, 0, 0, 0⟩ 0 ⟨1, 0, 0, 0, 0⟩ 0 1 none (some 0)
        none none).A = some A ∧
      getBlock A 12 6 (by decide) (by decide) = -1 ∧
      getBlock A 12 6 (by decide) (by decide) ≠ 0 ∧
      ∀ ba : Vec3 ℚ,
        (Ins.Step sampleSO3 (Ins.new false) ⟨1, 0, 0, 0, 0⟩ 0 ⟨1, 0, ba, 0, 0⟩ 0 1 none (some 0)
          none none).xb.v = 0 :=
  Step_v_ba_block_without_acc sampleSO3

/-! ### The control Jacobian `B` of `Ins::Step` -/

/-- C11 (counterexample): the object built by `Ins(true)`, `dt = 1`, `xa` with `R = I`
and all vectors zero, `u = 0`, a non-null `B` holding the zero matrix.  On return `B`
still holds the zero matrix, so its velocity rows in the accelerometer columns are not
`dt*R = I`, although a unit accelerometer reading changes `xb.v` by `(1, 0, 0)`; and a
`B` that held sevens before the call holds sevens after it. -/
theorem Step_B_not_control_jacobian :
    ∃ B1 : Matrix15x6 ℚ,
      (Ins.Step sampleSO3 (Ins.new true) ⟨1, 0, 0, 0, 0⟩ 0 ⟨1, 0, 0, 0, 0⟩ 0 1 none none
        (some 0) none).B = some B1 ∧
      getBlock B1 12 3 (by decide) (by decide) ≠ (1 : ℚ) • (1 : Mat3 ℚ) ∧
      (Ins.Step sampleSO3 (Ins.new true) ⟨1, 0, 0, 0, 0⟩ 0 ⟨1, 0, 0, 0, 0⟩
          ![0, 0, 0, 1, 0, 0] 1 none none (some 0) none).xb.v
        - (Ins.Step sampleSO3 (Ins.new true) ⟨1, 0, 0, 0, 0⟩ 0 ⟨1, 0, 0, 0, 0⟩ 0 1 none none
          (some 0) none).xb.v = ![1, 0, 0] ∧
      (Ins.Step sampleSO3 (Ins.new true) ⟨1, 0, 0, 0, 0⟩ 0 ⟨1, 0, 0, 0, 0⟩ 0 1 none none
        (some (fun _ _ => 7)) none).B = some (fun _ _ => 7) := by
  refine ⟨0, rfl, ?_, ?_, rfl⟩
  · intro h
    have h00 := congrFun (congrFun h 0) 0
    simp [getBlock] at h00
  · funext i
    fin_cases i <;>
      simp [Ins.Step, Ins.new, Matrix.mulVec, Matrix.dotProduct, Fin.sum_univ_three,
        Matrix.one_apply, Matrix.vecHead, Matrix.vecTail]

/-- C11 (amended): `Ins::Step` never writes through `B` or `C`: on return `B` and `C`
hold exactly what they held before the call, for every `xa`, `u`, `dt` and every
setting of the flags; the only Jacobian the call fills is `A`. -/
theorem Step_leaves_B_and_C {K : Type} [CommRing K] (so3 : SO3 K) (self : Ins K)
    (xb0 : InsState K) (t : K) (xa : InsState K) (u : Fin 6 → K) (dt : K)
    (p : Option (List K)) (A : Option (Matrix15 K)) (B : Option (Matrix15x6 K))
    (C : Option (Matrix15X K)) :
    (Ins.Step so3 self xb0 t xa u dt p A B C).B = B ∧
      (Ins.Step so3 self xb0 t xa u dt p A B C).C = C :=
  ⟨rfl, rfl⟩

/-! ### The cost aggregate of `solver_process` -/

/-- C17 (counterexample): in `solver_process` the aggregate `mcost` handed to `GDocp` has
one entry, and the disk constraint cost `dcost` is not among its entries. -/
theorem solver_process_mcost_lacks_dcost :
    CostPtr.constraint solver_process_costs.dcost ∉ solver_process_costs.mcost.costs ∧
      solver_process_costs.mcost.costs.length = 1 := by
  constructor
  · intro h
    simp [solver_process_costs] at h
  · rfl

/-- C17 (amended): `solver_process` builds the disk constraint cost `dcost` for the disk
of radius 2 centred at `(-2.5, -2.5)`, but the aggregate `mcost` passed to `GDocp`
contains the quadratic cost `cost` only: the `push_back(&dcost)` of line 60 is commented
out. -/
theorem solver_process_mcost_is_quadratic_only :
    solver_process_costs.mcost.costs = [CostPtr.rnlq solver_process_costs.cost] ∧
      solver_process_costs.dcost.disk.r = 2 ∧
      solver_process_costs.dcost.disk.o = ![-5 / 2, -5 / 2] :=
  ⟨rfl, rfl, rfl⟩

/-! ### The matrix loader -/

/-- With a delimiter after every value, the last one included, a 2 x 2 file is loaded in
row-major order. -/
theorem loadEigenMatrix_trailing_delimiter :
    ∃ M, loadEigenMatrix (some "2\n2\n1,2,3,4,".toList) = .ok M ∧ M.rows = 2 ∧ M.cols = 2 ∧
      M.coeff 0 0 = some 1 ∧ M.coeff 0 1 = some 2 ∧ M.coeff 1 0 = some 3 ∧
      M.coeff 1 1 = some 4 := by
  simp [loadEigenMatrix, readLoop, readNumber, readChar, skipWs, isSpace, readDigits, digitsGo,
    Int.tmod, Int.tdiv]

/-- C12 (defect of the code): the file with the lines `2`, `2` and `1,2,3,4` holds
exactly `rows*cols = 4` comma-separated values and no trailing comma.  The loop
condition `ifile >> val >> delim` fails on the last value, for which no delimiter
follows, so only three values are stored and line 46 throws with `index = 3`. -/
theorem loadEigenMatrix_exact_data_throws :
    loadEigenMatrix (some "2\n2\n1,2,3,4".toList) = .error (.sizeWrong 2 2 3) := by
  simp [loadEigenMatrix, readLoop, readNumber, readChar, skipWs, isSpace, readDigits, digitsGo,
    Int.tmod, Int.tdiv]

/-- C13 (defect of the code): the file with the lines `2`, `2` and `1,2,3,4,5` holds five
values for a 2 x 2 matrix, one more than `rows*cols`, and nothing is thrown: the fifth
value, which no delimiter follows, is dropped by the loop condition and the matrix of
the first four values is returned. -/
theorem loadEigenMatrix_extra_value_accepted :
    ∃ M, loadEigenMatrix (some "2\n2\n1,2,3,4,5".toList) = .ok M ∧ M.rows = 2 ∧ M.cols = 2 ∧
      M.coeff 0 0 = some 1 ∧ M.coeff 0 1 = some 2 ∧ M.coeff 1 0 = some 3 ∧
      M.coeff 1 1 = some 4 := by
  simp [loadEigenMatrix, readLoop, readNumber, readChar, skipWs, isSpace, readDigits, digitsGo,
    Int.tmod, Int.tdiv]

/-! ### The visual-inertial estimator -/

theorem growLs_eq {F : Type} [LinearOrderedField F] (id : Nat) :
    ∀ (n : Nat) (ls : List (Vec3 F)), id + 1 - ls.length = n →
      growLs id ls = ls ++ List.replicate (id + 1 - ls.length) ![1, 0, 0] := by
  intro n
  induction n with
  | zero =>
    intro ls hn
    rw [growLs, if_neg (by omega), hn]
    simp
  | succ n ih =>
    intro ls hn
    have hl : id + 1 - (ls ++ [(![1, 0, 0] : Vec3 F)]).length = n := by
      simp only [List.length_append, List.length_singleton]
      omega
    rw [growLs, if_pos (by omega), ih _ hl]
    simp only [List.length_append, List.length_singleton, List.append_assoc]
    have e : id + 1 - ls.length = (id + 1 - (ls.length + 1)) + 1 := by omega
    rw [e, List.replicate_succ]
    rfl

theorem growLs_length {F : Type} [LinearOrderedField F] (id : Nat) (ls : List (Vec3 F))
    (h : ls.length ≤ id) : (growLs id ls).length = id + 1 := by
  rw [growLs_eq id _ ls rfl]
  simp only [List.length_append, List.length_replicate]
  omega

/-- One pass of the measurement loop: what it leaves alone, what it appends, and what it
does to the landmarks. -/
theorem camStep_some {F X : Type} [LinearOrderedField F] (norm : Vec3 F → F)
    (s s1 : DynVisIns F X) (z : Vec2 F) (id : Int) (h : camStep norm s z id = some s1) :
    sameOutsideLoop s s1 ∧ 0 ≤ id ∧
      s1.lus = s.lus ++ [unitBearing norm s.K z] ∧
      s1.zCamInds = s.zCamInds ++ [(s.xs.length : Int) - 1] ∧
      s1.zInds = s.zInds ++ [id] ∧
      ((id.toNat < s.ls.length ∧ s1.ls = s.ls) ∨
        (s.ls.length ≤ id.toNat ∧
          s1.ls = (s.ls ++ List.replicate (id.toNat + 1 - s.ls.length) ![1, 0, 0]).set id.toNat
            ((3 : F) • s.Ric.mulVec (unitBearing norm s.K z)))) := by
  unfold camStep at h
  simp only at h
  split at h
  · cases h
  · next hid =>
    have hid0 : 0 ≤ id := not_lt.mp hid
    split at h
    · cases h
    · next ls hls =>
      simp only [Option.some.injEq] at h
      subst h
      refine ⟨⟨rfl, rfl, rfl, rfl, rfl, rfl, rfl, rfl, rfl, rfl, rfl, rfl, rfl⟩, hid0, rfl, rfl,
        rfl, ?_⟩
      split at hls
      · next hle =>
        split at hls
        · simp only [Option.some.injEq] at hls
          right
          refine ⟨hle, ?_⟩
          rw [← hls, growLs_length _ _ hle, growLs_eq _ _ _ rfl]
          rfl
        · cases hls
      · next hlt =>
        simp only [Option.some.injEq] at hls
        left
        exact ⟨by omega, hls.symm⟩

/-- A pass of the measurement loop on a non-negative id never fails: the assertion of
line 614 holds. -/
theorem camStep_defined {F X : Type} [LinearOrderedField F] (norm : Vec3 F → F)
    (s : DynVisIns F X) (z : Vec2 F) (id : Int) (hid : 0 ≤ id) :
    ∃ s1, camStep norm s z id = some s1 := by
  unfold camStep
  simp only [not_lt.mpr hid, if_false]
  by_cases hle : s.ls.length ≤ id.toNat
  · have : id = ((growLs id.toNat s.ls).length : Int) - 1 := by
      rw [growLs_length _ _ hle]
      omega
    simp only [hle, if_true, ← this]
    exact ⟨_, rfl⟩
  · simp only [hle, if_false]
    exact ⟨_, rfl⟩

theorem sameOutsideLoop_refl {F X : Type} (s : DynVisIns F X) : sameOutsideLoop s s :=
  ⟨rfl, rfl, rfl, rfl, rfl, rfl, rfl, rfl, rfl, rfl, rfl, rfl, rfl⟩

theorem sameOutsideLoop_trans {F X : Type} (s s1 s2 : DynVisIns F X)
    (h1 : sameOutsideLoop s s1) (h2 : sameOutsideLoop s1 s2) : sameOutsideLoop s s2 := by
  obtain ⟨a1, a2, a3, a4, a5, a6, a7, a8, a9, a10, a11, a12, a13⟩ := h1
  obtain ⟨b1, b2, b3, b4, b5, b6, b7, b8, b9, b10, b11, b12, b13⟩ := h2
  exact ⟨b1.trans a1, b2.trans a2, b3.trans a3, b4.trans a4, b5.trans a5, b6.trans a6,
    b7.trans a7, b8.trans a8, b9.trans a9, b10.trans a10, b11.trans a11, b12.trans a12,
    b13.trans a13⟩

theorem camStep_ls_prefix {F X : Type} [LinearOrderedField F] (norm : Vec3 F → F)
    (s s1 : DynVisIns F X) (z : Vec2 F) (id : Int) (h : camStep norm s z id = some s1) :
    s.ls <+: s1.ls ∧ id.toNat < s1.ls.length ∧
      (s1.ls.length = s.ls.length ∨ s1.ls.length = id.toNat + 1) := by
  obtain ⟨_, _, _, _, _, hls⟩ := camStep_some norm s s1 z id h
  rcases hls with ⟨h1, h2⟩ | ⟨h1, h2⟩
  · rw [h2]
    exact ⟨List.prefix_refl _, h1, Or.inl rfl⟩
  · have hlen : s1.ls.length = id.toNat + 1 := by
      rw [h2]
      simp only [List.length_set, List.length_append, List.length_replicate]
      omega
    refine ⟨?_, by omega, Or.inr hlen⟩
    rw [List.prefix_iff_eq_take]
    apply List.ext_getElem?
    intro k
    rw [h2]
    by_cases hk : k < s.ls.length
    · rw [List.getElem?_take_of_lt hk, List.getElem?_set_ne (by omega),
        List.getElem?_append_left hk]
    · rw [List.getElem?_eq_none (by omega), List.getElem?_eq_none]
      simp only [List.length_take, List.length_set, List.length_append, List.length_replicate]
      omega

/-- The measurement loop: what it leaves alone, what it appends, and how the landmark
vector grows. -/
theorem camLoop_some {F X : Type} [LinearOrderedField F] (norm : Vec3 F → F) :
    ∀ (zcs : List (Vec2 F)) (zcInds : List Int) (s s1 : DynVisIns F X),
      camLoop norm s zcs zcInds = some s1 → zcs.length = zcInds.length →
      sameOutsideLoop s s1 ∧ (∀ id ∈ zcInds, 0 ≤ id) ∧
        s1.lus.length = s.lus.length + zcs.length ∧
        s1.zCamInds = s.zCamInds ++ List.replicate zcs.length ((s.xs.length : Int) - 1) ∧
        s1.zInds = s.zInds ++ zcInds ∧
        s.ls <+: s1.ls ∧ (∀ id ∈ zcInds, id.toNat < s1.ls.length) ∧
        (s1.ls.length = s.ls.length ∨ ∃ id ∈ zcInds, s1.ls.length = id.toNat + 1) := by
  intro zcs
  induction zcs with
  | nil =>
    intro zcInds s s1 h hlen
    have hnil : zcInds = [] := List.length_eq_zero.mp hlen.symm
    subst hnil
    simp only [camLoop, Option.some.injEq] at h
    subst h
    exact ⟨sameOutsideLoop_refl _, by simp, by simp, by simp, by simp, List.prefix_refl _,
      by simp, Or.inl rfl⟩
  | cons z zcs ih =>
    intro zcInds s s1 h hlen
    cases zcInds with
    | nil => simp at hlen
    | cons id zcInds =>
      simp only [camLoop] at h
      split at h
      · cases h
      · next s2 hstep =>
        obtain ⟨f1, i1, l1, c1, d1, _⟩ := camStep_some norm s s2 z id hstep
        obtain ⟨p1, p2, p3⟩ := camStep_ls_prefix norm s s2 z id hstep
        obtain ⟨f2, i2, l2, c2, d2, q1, q2, q3⟩ := ih zcInds s2 s1 h (by simpa using hlen)
        have hxs : s2.xs = s.xs := f1.2.2.2.2.2.2.2.1
        refine ⟨sameOutsideLoop_trans _ _ _ f1 f2, ?_, ?_, ?_, ?_, p1.trans q1, ?_, ?_⟩
        · intro j hj
          rcases List.mem_cons.mp hj with rfl | hj
          · exact i1
          · exact i2 j hj
        · rw [l2, l1]
          simp only [List.length_append, List.length_cons, List.length_nil]
          omega
        · rw [c2, c1, hxs]
          simp only [List.append_assoc, List.singleton_append, List.length_cons,
            List.replicate_succ]
        · rw [d2, d1]
          simp only [List.append_assoc, List.singleton_append]
        · intro j hj
          rcases List.mem_cons.mp hj with rfl | hj
          · have := q1.length_le
            omega
          · exact q2 j hj
        · rcases q3 with q3 | ⟨j, hj, q3⟩
          · rcases p3 with p3 | p3
            · exact Or.inl (q3.trans p3)
            · exact Or.inr ⟨id, List.mem_cons_self _ _, q3.trans p3⟩
          · exact Or.inr ⟨j, List.mem_cons_of_mem _ hj, q3⟩

/-- The measurement loop completes when there are as many ids as measurements and no
id is negative: the assertion of line 614 holds at every new landmark. -/
theorem camLoop_defined {F X : Type} [LinearOrderedField F] (norm : Vec3 F → F) :
    ∀ (zcs : List (Vec2 F)) (zcInds : List Int) (s : DynVisIns F X),
      zcs.length = zcInds.length → (∀ id ∈ zcInds, 0 ≤ id) →
      ∃ s1, camLoop norm s zcs zcInds = some s1 := by
  intro zcs
  induction zcs with
  | nil =>
    intro zcInds s _ _
    exact ⟨s, by simp only [camLoop]⟩
  | cons z zcs ih =>
    intro zcInds s hlen hid
    cases zcInds with
    | nil => simp at hlen
    | cons id zcInds =>
      obtain ⟨s2, h2⟩ := camStep_defined norm s z id (hid id (List.mem_cons_self _ _))
      obtain ⟨s1, h1⟩ := ih zcInds s2 (by simpa using hlen)
        (fun j hj => hid j (List.mem_cons_of_mem _ hj))
      exact ⟨s1, by simp only [camLoop, h2, h1]⟩

/-- What the IMU block of `ProcessCam` does when it does not reject the frame. -/
theorem camImuBlock_some {F X : Type} [LinearOrderedField F] (s s0 : DynVisIns F X) (t : F)
    (h : s.camImuBlock t = some s0) :
    s0.useCam = s.useCam ∧ s0.useImu = s.useImu ∧ s0.tc = s.tc ∧ s0.x0 = s.x0 ∧
      s0.K = s.K ∧ s0.Ric = s.Ric ∧ s0.xs = s.xs ∧ s0.ls = s.ls ∧ s0.zs = s.zs ∧
      s0.lus = s.lus ∧ s0.zInds = s.zInds ∧ s0.zCamInds = s.zCamInds ∧
      (s.useImu = true → s.t ≤ t ∧ s0.t = t ∧
        s0.dts = (if (0 : F) < s.tc then s.dts ++ [t - s.tc] else s.dts) ∧
        s0.tss = s.tss ++ [[]] ∧ s0.wss = s.wss ++ [[]] ∧ s0.ass = s.ass ++ [[]]) ∧
      (s.useImu = false → s0 = s) := by
  unfold DynVisIns.camImuBlock at h
  split at h
  · next hu =>
    simp only at h
    split at h
    · cases h
    · next hdt =>
      have hle : s.t ≤ t := by
        have := not_lt.mp hdt
        linarith
      by_cases htc : (0 : F) < s.tc
      · simp only [htc, if_true, Option.some.injEq] at h
        subst h
        exact ⟨rfl, rfl, rfl, rfl, rfl, rfl, rfl, rfl, rfl, rfl, rfl, rfl,
          fun _ => ⟨hle, rfl, by rw [if_pos htc], rfl, rfl, rfl⟩,
          fun hf => by rw [hu] at hf; cases hf⟩
      · simp only [htc, if_false, Option.some.injEq] at h
        subst h
        exact ⟨rfl, rfl, rfl, rfl, rfl, rfl, rfl, rfl, rfl, rfl, rfl, rfl,
          fun _ => ⟨hle, rfl, by rw [if_neg htc], rfl, rfl, rfl⟩,
          fun hf => by rw [hu] at hf; cases hf⟩
  · next hu =>
    simp only [Option.some.injEq] at h
    subst h
    exact ⟨rfl, rfl, rfl, rfl, rfl, rfl, rfl, rfl, rfl, rfl, rfl, rfl,
      fun hf => absurd hf hu, fun _ => rfl⟩

theorem camImuBlock_none {F X : Type} [LinearOrderedField F] (s : DynVisIns F X) (t : F)
    (h : s.camImuBlock t = none) : s.useImu = true ∧ t < s.t := by
  unfold DynVisIns.camImuBlock at h
  split at h
  · next hu =>
    simp only at h
    split at h
    · next hdt => exact ⟨hu, by linarith⟩
    · cases h
  · cases h

/-- The ways a call of `ProcessCam` can return. -/
theorem ProcessCam_some {F X : Type} [LinearOrderedField F] (norm : Vec3 F → F)
    (s s1 : DynVisIns F X) (t : F) (zcs : List (Vec2 F)) (zcInds : List Int) (b : Bool)
    (h : s.ProcessCam norm t zcs zcInds = some (b, s1)) :
    s.useCam = true ∧ 0 ≤ s.t ∧
      ((b = false ∧ s1 = s ∧ s.camImuBlock t = none) ∨
        (b = true ∧ zcs.length = zcInds.length ∧
          ∃ s0, s.camImuBlock t = some s0 ∧
            camLoop norm { s0 with xs := s0.xs ++ [s0.x0], zs := s0.zs ++ zcs } zcs zcInds
              = some s1)) := by
  unfold DynVisIns.ProcessCam at h
  split at h
  · cases h
  · next hcam =>
    split at h
    · cases h
    · next ht =>
      refine ⟨by simpa using hcam, not_lt.mp ht, ?_⟩
      split at h
      · next hblock =>
        simp only [Option.some.injEq, Prod.mk.injEq] at h
        exact Or.inl ⟨h.1.symm, h.2.symm, hblock⟩
      · next s0 hblock =>
        split at h
        · cases h
        · next hlen =>
          simp only at h
          split at h
          · cases h
          · next s3 hloop =>
            simp only [Option.some.injEq, Prod.mk.injEq] at h
            refine Or.inr ⟨h.1.symm, not_not.mp hlen, s0, hblock, ?_⟩
            rw [← h.2]
            exact hloop

/-- A call of `ProcessCam` returns (no assertion fails) on an object with `useCam` on
and a recorded IMU time, when there are as many ids as measurements and no negative
id. -/
theorem ProcessCam_defined {F X : Type} [LinearOrderedField F] (norm : Vec3 F → F)
    (s : DynVisIns F X) (t : F) (zcs : List (Vec2 F)) (zcInds : List Int)
    (hcam : s.useCam = true) (ht : 0 ≤ s.t) (hlen : zcs.length = zcInds.length)
    (hid : ∀ id ∈ zcInds, 0 ≤ id) :
    ∃ b s1, s.ProcessCam norm t zcs zcInds = some (b, s1) := by
  unfold DynVisIns.ProcessCam
  simp only [hcam, Bool.true_eq_false, if_false, not_lt.mpr ht]
  cases hb : s.camImuBlock t with
  | none => exact ⟨false, s, rfl⟩
  | some s0 =>
    simp only [hlen, ne_eq, not_true_eq_false, if_false]
    obtain ⟨s1, h1⟩ := camLoop_defined norm zcs zcInds
      { s0 with xs := s0.xs ++ [s0.x0], zs := s0.zs ++ zcs } hlen hid
    exact ⟨true, s1, by simp only [h1]⟩

/-- The ways a call of `ProcessImu` can return. -/
theorem ProcessImu_some {F X : Type} [LinearOrderedField F] (s s1 : DynVisIns F X) (t : F)
    (w a : Vec3 F) (b : Bool) (h : s.ProcessImu t w a = some (b, s1)) :
    (s.t < 0 ∧ b = true ∧ s1 = { s with t := t }) ∨
      (0 ≤ s.t ∧ t ≤ s.t ∧ b = false ∧ s1 = s) ∨
      (0 ≤ s.t ∧ s.t < t ∧ b = true ∧ s.useCam = true ∧
        ((s.xs = [] ∧ s1 = { s with t := t }) ∨
          (s.xs ≠ [] ∧ s.tc < t ∧ ∃ tss wss ass,
            pushToLast s.tss (t - s.tc) = some tss ∧ pushToLast s.wss w = some wss ∧
            pushToLast s.ass a = some ass ∧
            s1 = { s with tss := tss, wss := wss, ass := ass, t := t }))) := by
  unfold DynVisIns.ProcessImu at h
  split at h
  · next ht =>
    simp only [Option.some.injEq, Prod.mk.injEq] at h
    exact Or.inl ⟨ht, h.1.symm, h.2.symm⟩
  · next ht =>
    have ht0 : 0 ≤ s.t := not_lt.mp ht
    simp only at h
    split at h
    · next hdt =>
      simp only [Option.some.injEq, Prod.mk.injEq] at h
      exact Or.inr (Or.inl ⟨ht0, by linarith, h.1.symm, h.2.symm⟩)
    · next hdt =>
      have hlt : s.t < t := by
        have := not_le.mp hdt
        linarith
      split at h
      · cases h
      · next hcam =>
        have hcam1 : s.useCam = true := by simpa using hcam
        split at h
        · next hxs =>
          split at h
          · cases h
          · next htc =>
            split at h
            · next tss wss ass e1 e2 e3 =>
              simp only [Option.some.injEq, Prod.mk.injEq] at h
              refine Or.inr (Or.inr ⟨ht0, hlt, h.1.symm, hcam1, Or.inr ⟨?_, not_not.mp htc, tss,
                wss, ass, e1, e2, e3, h.2.symm⟩⟩)
              intro hnil
              rw [hnil] at hxs
              exact hxs.2 rfl
            · cases h
        · next hxs =>
          simp only [Option.some.injEq, Prod.mk.injEq] at h
          refine Or.inr (Or.inr ⟨ht0, hlt, h.1.symm, hcam1, Or.inl ⟨?_, h.2.symm⟩⟩)
          by_contra hne
          exact hxs ⟨hcam1, fun h0 => hne (List.length_eq_zero.mp h0)⟩

theorem pushToLast_some {A : Type} (vss : List (List A)) (a : A) (h : vss ≠ []) :
    ∃ r, pushToLast vss a = some r ∧ r.length = vss.length ∧
      r.map List.length = vss.dropLast.map List.length ++ [(vss.getLast h).length + 1] := by
  unfold pushToLast
  rw [List.getLast?_eq_getLast _ h]
  refine ⟨_, rfl, ?_, ?_⟩
  · have hpos : 0 < vss.length := List.length_pos.mpr h
    simp only [List.length_append, List.length_dropLast, List.length_singleton]
    omega
  · simp only [List.map_append, List.map_cons, List.map_nil, List.length_append,
      List.length_singleton]

theorem map_length_getLast {A B : Type} (us : List (List A)) (vs : List (List B))
    (h : us.map List.length = vs.map List.length) (hu : us ≠ []) (hv : vs ≠ []) :
    (us.getLast hu).length = (vs.getLast hv).length ∧
      us.dropLast.map List.length = vs.dropLast.map List.length := by
  have h1 : (us.map List.length).getLast? = (vs.map List.length).getLast? := by rw [h]
  have h2 : (us.map List.length).dropLast = (vs.map List.length).dropLast := by rw [h]
  rw [List.getLast?_map, List.getLast?_map, List.getLast?_eq_getLast _ hu,
    List.getLast?_eq_getLast _ hv] at h1
  refine ⟨by simpa using h1, ?_⟩
  simpa [List.map_dropLast] using h2

theorem pushToLast_ne_nil {A : Type} (vss r : List (List A)) (a : A)
    (h : pushToLast vss a = some r) : vss ≠ [] := by
  intro hnil
  subst hnil
  simp [pushToLast] at h

theorem imuInv_new {F X : Type} [LinearOrderedField F] (x0 : X) (K : Mat3 F) :
    imuInv (DynVisIns.new x0 K : DynVisIns F X) := by
  refine ⟨rfl, rfl, ?_, rfl, rfl, fun h => absurd rfl h, rfl, rfl⟩
  show (-1 : F) < 0
  linarith

theorem ProcessImu_imuInv {F X : Type} [LinearOrderedField F] (s s1 : DynVisIns F X) (t : F)
    (w a : Vec3 F) (b : Bool) (hinv : imuInv s) (h : s.ProcessImu t w a = some (b, s1)) :
    imuInv s1 ∧ s1.xs = s.xs := by
  obtain ⟨i1, i2, i3, i4, i5, i6, i7, i8⟩ := hinv
  rcases ProcessImu_some s s1 t w a b h with ⟨ht, _, rfl⟩ | ⟨_, _, _, rfl⟩ |
    ⟨ht, hlt, _, _, ⟨hxs, rfl⟩ | ⟨hxs, _, tss, wss, ass, e1, e2, e3, rfl⟩⟩
  · refine ⟨⟨i1, i2, i3, i4, i5, fun hne => ?_, i7, i8⟩, rfl⟩
    have := i6 hne
    exact absurd ht (not_lt.mpr this)
  · exact ⟨⟨i1, i2, i3, i4, i5, i6, i7, i8⟩, rfl⟩
  · exact ⟨⟨i1, i2, i3, i4, i5, fun hne => absurd hxs hne, i7, i8⟩, rfl⟩
  · have n1 := pushToLast_ne_nil _ _ _ e1
    have n2 := pushToLast_ne_nil _ _ _ e2
    have n3 := pushToLast_ne_nil _ _ _ e3
    obtain ⟨r1, q1, l1, m1⟩ := pushToLast_some s.tss (t - s.tc) n1
    obtain ⟨r2, q2, l2, m2⟩ := pushToLast_some s.wss w n2
    obtain ⟨r3, q3, l3, m3⟩ := pushToLast_some s.ass a n3
    rw [e1] at q1
    rw [e2] at q2
    rw [e3] at q3
    cases q1
    cases q2
    cases q3
    obtain ⟨g1, g2⟩ := map_length_getLast s.tss s.wss i7 n1 n2
    obtain ⟨g3, g4⟩ := map_length_getLast s.tss s.ass i8 n1 n3
    refine ⟨⟨i1, i2, i3, i4, ?_, fun _ => ?_, ?_, ?_⟩, rfl⟩
    · show s.xs.length = tss.length
      rw [l1]
      exact i5
    · show (0 : F) ≤ t
      linarith
    · show tss.map List.length = wss.map List.length
      rw [m1, m2, g1, g2]
    · show tss.map List.length = ass.map List.length
      rw [m1, m3, g3, g4]

/-- On an object used only through the two methods, `ProcessImu` returns, and it returns
`true` unless a time has been recorded and the new time is not later. -/
theorem ProcessImu_defined {F X : Type} [LinearOrderedField F] (s : DynVisIns F X) (t : F)
    (w a : Vec3 F) (hinv : imuInv s) (ht : s.t < 0 ∨ s.t < t) :
    ∃ s1, s.ProcessImu t w a = some (true, s1) := by
  obtain ⟨i1, i2, i3, i4, i5, i6, i7, i8⟩ := hinv
  unfold DynVisIns.ProcessImu
  by_cases h0 : s.t < 0
  · rw [if_pos h0]
    exact ⟨_, rfl⟩
  · have hlt : s.t < t := by
      rcases ht with ht | ht
      · exact absurd ht h0
      · exact ht
    have hdt : ¬ (t - s.t ≤ 0) := by
      intro hle
      linarith
    have hcam : ¬ (s.useCam = false) := by
      rw [i1]
      exact Bool.noConfusion
    rw [if_neg h0]
    simp only []
    rw [if_neg hdt, if_neg hcam]
    by_cases hxs : s.xs.length ≠ 0
    · have hne : s.xs ≠ [] := fun hnil => hxs (by rw [hnil]; rfl)
      have ht0 := i6 hne
      have htc : s.tc < t := by linarith
      have n1 : s.tss ≠ [] := by
        intro hnil
        rw [hnil] at i5
        exact hxs i5
      have n2 : s.wss ≠ [] := by
        intro hnil
        rw [hnil] at i7
        exact n1 (List.map_eq_nil_iff.mp i7)
      have n3 : s.ass ≠ [] := by
        intro hnil
        rw [hnil] at i8
        exact n1 (List.map_eq_nil_iff.mp i8)
      obtain ⟨r1, q1, _⟩ := pushToLast_some s.tss (t - s.tc) n1
      obtain ⟨r2, q2, _⟩ := pushToLast_some s.wss w n2
      obtain ⟨r3, q3, _⟩ := pushToLast_some s.ass a n3
      rw [if_pos ⟨i1, hxs⟩, if_neg (not_not.mpr htc), q1, q2, q3]
      exact ⟨_, rfl⟩
    · rw [if_neg (fun h => hxs h.2)]
      exact ⟨_, rfl⟩

theorem ProcessImu_time_mono {F X : Type} [LinearOrderedField F] (s s1 : DynVisIns F X)
    (t : F) (w a : Vec3 F) (b : Bool) (ht : 0 ≤ t) (h : s.ProcessImu t w a = some (b, s1)) :
    s.t ≤ s1.t := by
  rcases ProcessImu_some s s1 t w a b h with ⟨h0, _, rfl⟩ | ⟨_, _, _, rfl⟩ |
    ⟨_, hlt, _, _, ⟨_, rfl⟩ | ⟨_, _, tss, wss, ass, _, _, _, rfl⟩⟩
  · show s.t ≤ t
    linarith
  · exact le_refl _
  · exact le_of_lt hlt
  · exact le_of_lt hlt

theorem ProcessCam_imuInv {F X : Type} [LinearOrderedField F] (norm : Vec3 F → F)
    (s s1 : DynVisIns F X) (t : F) (zcs : List (Vec2 F)) (zcInds : List Int) (b : Bool)
    (hinv : imuInv s) (h : s.ProcessCam norm t zcs zcInds = some (b, s1)) :
    imuInv s1 ∧ s1.xs.length = s.xs.length + (if b = true then 1 else 0) ∧ s.t ≤ s1.t := by
  obtain ⟨i1, i2, i3, i4, i5, i6, i7, i8⟩ := hinv
  obtain ⟨_, ht0, ⟨rfl, rfl, _⟩ | ⟨rfl, hlen, s0, hb, hloop⟩⟩ :=
    ProcessCam_some norm s s1 t zcs zcInds b h
  · exact ⟨⟨i1, i2, i3, i4, i5, i6, i7, i8⟩, by simp, le_refl _⟩
  · obtain ⟨a1, a2, a3, _, _, _, a7, _, _, _, _, _, a13, _⟩ := camImuBlock_some s s0 t hb
    obtain ⟨hle, b1, b2, b3, b4, b5⟩ := a13 i2
    obtain ⟨⟨c1, c2, _, _, _, c6, c7, c8, _, c10, c11, c12, c13⟩, _⟩ :=
      camLoop_some norm zcs zcInds _ s1 hloop hlen
    simp only at c1 c2 c6 c7 c8 c10 c11 c12 c13
    have hdts : s1.dts = [] := by
      rw [c10, b2, if_neg (not_lt.mpr (le_of_lt (by rw [← a3] at i3; rw [a3] at i3; exact i3))),
        i4]
    refine ⟨⟨by rw [c7, a1, i1], by rw [c6, a2, i2], by rw [c2, a3]; exact i3, hdts, ?_,
      fun _ => ?_, ?_, ?_⟩, ?_, ?_⟩
    · rw [c8, c11, b3, a7]
      simp only [List.length_append, List.length_singleton]
      omega
    · rw [c1, b1]
      linarith
    · rw [c11, c12, b3, b4, List.map_append, List.map_append, i7]
      rfl
    · rw [c11, c13, b3, b5, List.map_append, List.map_append, i8]
      rfl
    · rw [c8, a7]
      simp only [List.length_append, List.length_singleton, if_true]
    · rw [c1, b1]
      exact hle

theorem runCalls_imuInv {F X : Type} [LinearOrderedField F] (norm : Vec3 F → F) :
    ∀ (calls : List (Call F)) (s s1 : DynVisIns F X), imuInv s →
      runCalls norm calls s = some s1 →
      imuInv s1 ∧ s1.xs.length = s.xs.length + acceptedFrames norm calls s := by
  intro calls
  induction calls with
  | nil =>
    intro s s1 hinv h
    simp only [runCalls, Option.some.injEq] at h
    subst h
    exact ⟨hinv, rfl⟩
  | cons c calls ih =>
    intro s s1 hinv h
    cases c with
    | imu t w a =>
      simp only [runCalls] at h
      split at h
      · cases h
      · next b s2 hstep =>
        obtain ⟨j1, j2⟩ := ProcessImu_imuInv s s2 t w a b hinv hstep
        obtain ⟨k1, k2⟩ := ih s2 s1 j1 h
        refine ⟨k1, ?_⟩
        simp only [acceptedFrames, hstep]
        rw [k2, j2]
    | cam t zcs zcInds =>
      simp only [runCalls] at h
      split at h
      · cases h
      · next b s2 hstep =>
        obtain ⟨j1, j2, _⟩ := ProcessCam_imuInv norm s s2 t zcs zcInds b hinv hstep
        obtain ⟨k1, k2⟩ := ih s2 s1 j1 h
        refine ⟨k1, ?_⟩
        simp only [acceptedFrames, hstep]
        rw [k2, j2]
        cases b <;> simp only [Bool.false_eq_true, if_false, if_true] <;> omega

theorem runCalls_time_mono {F X : Type} [LinearOrderedField F] (norm : Vec3 F → F) :
    ∀ (calls : List (Call F)) (s s1 : DynVisIns F X), imuInv s →
      (∀ c ∈ calls, 0 ≤ c.time) → runCalls norm calls s = some s1 → s.t ≤ s1.t := by
  intro calls
  induction calls with
  | nil =>
    intro s s1 _ _ h
    simp only [runCalls, Option.some.injEq] at h
    subst h
    exact le_refl _
  | cons c calls ih =>
    intro s s1 hinv hnn h
    have hc := hnn c (List.mem_cons_self _ _)
    have hrest : ∀ c1 ∈ calls, 0 ≤ c1.time := fun c1 h1 => hnn c1 (List.mem_cons_of_mem _ h1)
    cases c with
    | imu t w a =>
      simp only [runCalls] at h
      split at h
      · cases h
      · next b s2 hstep =>
        have m1 := ProcessImu_time_mono s s2 t w a b hc hstep
        have m2 := ih s2 s1 (ProcessImu_imuInv s s2 t w a b hinv hstep).1 hrest h
        exact le_trans m1 m2
    | cam t zcs zcInds =>
      simp only [runCalls] at h
      split at h
      · cases h
      · next b s2 hstep =>
        obtain ⟨j1, _, m1⟩ := ProcessCam_imuInv norm s s2 t zcs zcInds b hinv hstep
        exact le_trans m1 (ih s2 s1 j1 hrest h)

theorem pushToLast_nil {A : Type} (a : A) : pushToLast ([] : List (List A)) a = none := rfl

theorem pushToLast_getLast {A : Type} (vss r : List (List A)) (a : A)
    (h : pushToLast vss a = some r) :
    r.getLast?.map List.length = vss.getLast?.map (fun l => l.length + 1) := by
  unfold pushToLast at h
  split at h
  · cases h
  · next l hl =>
    simp only [Option.some.injEq] at h
    subst h
    rw [hl]
    simp

/-- A call of `ProcessImu` that returns keeps `tss.back()`, `wss.back()`, `ass.back()` of
equal length when they were so before. -/
theorem ProcessImu_last_lengths {F X : Type} [LinearOrderedField F] (s s1 : DynVisIns F X)
    (t : F) (w a : Vec3 F) (b : Bool) (h : s.ProcessImu t w a = some (b, s1))
    (h1 : s.tss.getLast?.map List.length = s.wss.getLast?.map List.length)
    (h2 : s.tss.getLast?.map List.length = s.ass.getLast?.map List.length) :
    s1.tss.getLast?.map List.length = s1.wss.getLast?.map List.length ∧
      s1.tss.getLast?.map List.length = s1.ass.getLast?.map List.length := by
  have key : ∀ {A B : Type} (us : List (List A)) (vs : List (List B)),
      us.getLast?.map List.length = vs.getLast?.map List.length →
      us.getLast?.map (fun l => l.length + 1) = vs.getLast?.map (fun l => l.length + 1) := by
    intro A B us vs e
    have e1 := congrArg (Option.map (fun n : Nat => n + 1)) e
    simpa only [Option.map_map, Function.comp_def] using e1
  rcases ProcessImu_some s s1 t w a b h with ⟨_, _, rfl⟩ | ⟨_, _, _, rfl⟩ |
    ⟨_, _, _, _, ⟨_, rfl⟩ | ⟨_, _, tss, wss, ass, e1, e2, e3, rfl⟩⟩
  · exact ⟨h1, h2⟩
  · exact ⟨h1, h2⟩
  · exact ⟨h1, h2⟩
  · show tss.getLast?.map List.length = wss.getLast?.map List.length ∧
      tss.getLast?.map List.length = ass.getLast?.map List.length
    rw [pushToLast_getLast _ _ _ e1, pushToLast_getLast _ _ _ e2, pushToLast_getLast _ _ _ e3]
    exact ⟨key _ _ h1, key _ _ h2⟩

/-- A call of `ProcessImu` that is not an out-of-sync call (a time is recorded and the new
time is not later) returns `true` when no time was recorded before or the assertions of
lines 527-535 hold, and stops at an assertion otherwise. -/
theorem ProcessImu_other_call {F X : Type} [LinearOrderedField F] (s : DynVisIns F X) (t : F)
    (w a : Vec3 F) (hother : ¬ (0 ≤ s.t ∧ t ≤ s.t)) :
    ((s.t < 0 ∨ imuAsserts s t) → ∃ s1, s.ProcessImu t w a = some (true, s1)) ∧
      (0 ≤ s.t → ¬ imuAsserts s t → s.ProcessImu t w a = none) := by
  unfold DynVisIns.ProcessImu
  by_cases h0 : s.t < 0
  · rw [if_pos h0]
    exact ⟨fun _ => ⟨_, rfl⟩, fun h => absurd h0 (not_lt.mpr h)⟩
  · have h00 : 0 ≤ s.t := not_lt.mp h0
    have hlt : s.t < t := not_le.mp (fun hle => hother ⟨h00, hle⟩)
    have hdt : ¬ (t - s.t ≤ 0) := by
      intro hle
      linarith
    rw [if_neg h0]
    simp only []
    rw [if_neg hdt]
    by_cases hcam : s.useCam = false
    · rw [if_pos hcam]
      refine ⟨fun h => ?_, fun _ _ => rfl⟩
      rcases h with h | h
      · exact absurd h h0
      · rw [h.1] at hcam
        cases hcam
    · have hcam1 : s.useCam = true := by simpa using hcam
      rw [if_neg hcam]
      by_cases hxs : s.xs.length ≠ 0
      · have hne : s.xs ≠ [] := fun hnil => hxs (by rw [hnil]; rfl)
        rw [if_pos ⟨hcam1, hxs⟩]
        by_cases htc : s.tc < t
        · rw [if_neg (not_not.mpr htc)]
          by_cases n1 : s.tss = []
          · rw [n1, pushToLast_nil]
            refine ⟨fun h => ?_, fun _ _ => rfl⟩
            rcases h with h | h
            · exact absurd h h0
            · exact absurd n1 (h.2 hne).2.1
          · by_cases n2 : s.wss = []
            · rw [n2, pushToLast_nil]
              refine ⟨fun h => ?_, fun _ _ => by split <;> first | rfl | contradiction⟩
              rcases h with h | h
              · exact absurd h h0
              · exact absurd n2 (h.2 hne).2.2.1
            · by_cases n3 : s.ass = []
              · rw [n3, pushToLast_nil]
                refine ⟨fun h => ?_, fun _ _ => by split <;> first | rfl | contradiction⟩
                rcases h with h | h
                · exact absurd h h0
                · exact absurd n3 (h.2 hne).2.2.2
              · obtain ⟨r1, q1, _⟩ := pushToLast_some s.tss (t - s.tc) n1
                obtain ⟨r2, q2, _⟩ := pushToLast_some s.wss w n2
                obtain ⟨r3, q3, _⟩ := pushToLast_some s.ass a n3
                rw [q1, q2, q3]
                exact ⟨fun _ => ⟨_, rfl⟩,
                  fun _ hn => absurd ⟨hcam1, fun _ => ⟨htc, n1, n2, n3⟩⟩ hn⟩
        · rw [if_pos htc]
          refine ⟨fun h => ?_, fun _ _ => rfl⟩
          rcases h with h | h
          · exact absurd h h0
          · exact absurd (h.2 hne).1 htc
      · rw [if_neg (fun h => hxs h.2)]
        refine ⟨fun _ => ⟨_, rfl⟩, fun _ hn => absurd ⟨hcam1, fun hne => ?_⟩ hn⟩
        exact absurd (by simpa using hxs : s.xs = []) hne

/-- On an object used only through the two methods the assertions of `ProcessImu` hold for
every time later than the recorded one. -/
theorem imuAsserts_of_imuInv {F X : Type} [LinearOrderedField F] (s : DynVisIns F X) (t : F)
    (hinv : imuInv s) (ht : s.t < t) : imuAsserts s t := by
  obtain ⟨i1, _, i3, _, i5, i6, i7, i8⟩ := hinv
  refine ⟨i1, fun hne => ?_⟩
  have ht0 := i6 hne
  have n1 : s.tss ≠ [] := by
    intro hnil
    rw [hnil] at i5
    exact hne (List.length_eq_zero.mp i5)
  have n2 : s.wss ≠ [] := by
    intro hnil
    rw [hnil] at i7
    exact n1 (List.map_eq_nil_iff.mp i7)
  have n3 : s.ass ≠ [] := by
    intro hnil
    rw [hnil] at i8
    exact n1 (List.map_eq_nil_iff.mp i8)
  exact ⟨by linarith, n1, n2, n3⟩

/-! ### `ProcessImu` -/

/-- C14 (counterexample): two objects on which a call of `ProcessImu` that is not out of
sync does not return `true`.  On an object with `useCam` switched off, the first sample
(time 1) is recorded and the second (time 2) stops at the assertion of line 527.  On an
object with `useImu` switched off, after a sample at time 1 and a camera frame at time 2
(which stores a state but no IMU segment) the sample at time 3 stops at the assertion of
line 533. -/
theorem ProcessImu_assertion_stops_later_sample :
    (∃ s : DynVisIns ℚ Unit,
      ({ (DynVisIns.new () (1 : Mat3 ℚ) : DynVisIns ℚ Unit) with
          useCam := false }).ProcessImu 1 0 0 = some (true, s) ∧
        s.t = 1 ∧ ¬ (0 ≤ s.t ∧ (2 : ℚ) ≤ s.t) ∧ s.ProcessImu 2 0 0 = none) ∧
    (∃ s : DynVisIns ℚ Unit,
      runCalls sampleNorm [Call.imu 1 0 0, Call.cam 2 [] []]
          { (DynVisIns.new () (1 : Mat3 ℚ) : DynVisIns ℚ Unit) with useImu := false }
        = some s ∧
        s.t = 1 ∧ s.useCam = true ∧ s.xs = [()] ∧ s.tss = [] ∧
        ¬ (0 ≤ s.t ∧ (3 : ℚ) ≤ s.t) ∧ s.ProcessImu 3 0 0 = none) := by
  constructor
  · refine ⟨{ (DynVisIns.new () (1 : Mat3 ℚ) : DynVisIns ℚ Unit) with
      useCam := false, t := 1 }, ?_, rfl, ?_, ?_⟩
    · norm_num [DynVisIns.ProcessImu, DynVisIns.new]
    · norm_num
    · norm_num [DynVisIns.ProcessImu, DynVisIns.new]
  · refine ⟨{ (DynVisIns.new () (1 : Mat3 ℚ) : DynVisIns ℚ Unit) with
      useImu := false, t := 1, xs := [()] }, ?_, rfl, rfl, rfl, rfl, ?_, ?_⟩
    · norm_num [runCalls, DynVisIns.ProcessImu, DynVisIns.ProcessCam, DynVisIns.camImuBlock,
        DynVisIns.new, camLoop]
    · norm_num
    · norm_num [DynVisIns.ProcessImu, DynVisIns.new, pushToLast]

/-- C14 (amended): `ProcessImu` rejects out-of-sync data atomically.  On any object with a
recorded time (`this->t >= 0`) a call with `t <= this->t` returns `false` and leaves the
whole object unchanged.  On any object, every other call returns `true` when no time was
recorded or the assertions of lines 527-535 hold (`imuAsserts`), and stops at one of them
otherwise; it never returns `false`.  On any object, a call with a non-negative time stamp
that returns does not decrease the stored time, and it keeps `tss.back()`, `wss.back()`,
`ass.back()` of equal length.  On an object reached from the constructor by calls of
`ProcessImu` and `ProcessCam` with non-negative time stamps (the flags as the constructor
sets them) the assertions hold, so every other call returns `true`; the stored time is
at least `-1` and never decreases along any further such calls, and `tss.back()`,
`wss.back()`, `ass.back()` have equal length. -/
theorem ProcessImu_rejects_out_of_sync {F X : Type} [LinearOrderedField F]
    (norm : Vec3 F → F) (x0 : X) (K : Mat3 F) (calls : List (Call F)) (s : DynVisIns F X)
    (hnn : ∀ c ∈ calls, 0 ≤ c.time)
    (hs : runCalls norm calls (DynVisIns.new x0 K) = some s) (t : F) (w a : Vec3 F) :
    (∀ s0 : DynVisIns F X, 0 ≤ s0.t → t ≤ s0.t → s0.ProcessImu t w a = some (false, s0)) ∧
      (∀ s0 : DynVisIns F X, ¬ (0 ≤ s0.t ∧ t ≤ s0.t) →
        ((s0.t < 0 ∨ imuAsserts s0 t) → ∃ s1, s0.ProcessImu t w a = some (true, s1)) ∧
        (0 ≤ s0.t → ¬ imuAsserts s0 t → s0.ProcessImu t w a = none) ∧
        (∀ b s1, s0.ProcessImu t w a = some (b, s1) → b = true)) ∧
      (∀ (s0 s1 : DynVisIns F X) (b : Bool), 0 ≤ t → s0.ProcessImu t w a = some (b, s1) →
        s0.t ≤ s1.t) ∧
      (∀ (s0 s1 : DynVisIns F X) (b : Bool), s0.ProcessImu t w a = some (b, s1) →
        s0.tss.getLast?.map List.length = s0.wss.getLast?.map List.length →
        s0.tss.getLast?.map List.length = s0.ass.getLast?.map List.length →
        s1.tss.getLast?.map List.length = s1.wss.getLast?.map List.length ∧
          s1.tss.getLast?.map List.length = s1.ass.getLast?.map List.length) ∧
      (s.t < t → imuAsserts s t) ∧
      ((s.t < 0 ∨ s.t < t) → ∃ s1, s.ProcessImu t w a = some (true, s1)) ∧
      (-1 ≤ s.t) ∧
      (∀ calls2 s2, (∀ c ∈ calls2, 0 ≤ c.time) → runCalls norm calls2 s = some s2 →
        s.t ≤ s2.t) ∧
      s.tss.getLast?.map List.length = s.wss.getLast?.map List.length ∧
      s.tss.getLast?.map List.length = s.ass.getLast?.map List.length := by
  have hinv0 : imuInv (DynVisIns.new x0 K : DynVisIns F X) := imuInv_new x0 K
  have hinv : imuInv s := (runCalls_imuInv norm calls _ s hinv0 hs).1
  refine ⟨fun s0 h0 hle => ?_, fun s0 hother => ?_,
    fun s0 s1 b ht h => ProcessImu_time_mono s0 s1 t w a b ht h,
    fun s0 s1 b h h1 h2 => ProcessImu_last_lengths s0 s1 t w a b h h1 h2,
    fun ht => imuAsserts_of_imuInv s t hinv ht,
    fun ht => ProcessImu_defined s t w a hinv ht, ?_,
    fun calls2 s2 hnn2 h2 => runCalls_time_mono norm calls2 s s2 hinv hnn2 h2, ?_, ?_⟩
  · unfold DynVisIns.ProcessImu
    rw [if_neg (not_lt.mpr h0)]
    simp only []
    rw [if_pos (by linarith)]
  · obtain ⟨o1, o2⟩ := ProcessImu_other_call s0 t w a hother
    refine ⟨o1, o2, fun b s1 h => ?_⟩
    rcases ProcessImu_some s0 s1 t w a b h with ⟨_, hb, _⟩ | ⟨h1, h2, _, _⟩ | ⟨_, _, hb, _⟩
    · exact hb
    · exact absurd ⟨h1, h2⟩ hother
    · exact hb
  · exact runCalls_time_mono norm calls _ s hinv0 hnn hs
  · rw [← List.getLast?_map, ← List.getLast?_map, hinv.2.2.2.2.2.2.1]
  · rw [← List.getLast?_map, ← List.getLast?_map, hinv.2.2.2.2.2.2.2]

/-- Witness of C14 over the rationals: after an IMU sample at time 1, a camera frame at
time 2 and an IMU sample at time 3, a further IMU sample at time 3. -/
theorem ProcessImu_rejects_out_of_sync_witness :
    ∃ s : DynVisIns ℚ Unit,
      runCalls sampleNorm [Call.imu 1 0 0, Call.cam 2 [] [], Call.imu 3 0 0]
        (DynVisIns.new () (1 : Mat3 ℚ)) = some s ∧
      s.t = 3 ∧ s.tss = [[4]] ∧
      (∀ s0 : DynVisIns ℚ Unit, 0 ≤ s0.t → (3 : ℚ) ≤ s0.t →
        s0.ProcessImu 3 0 0 = some (false, s0)) ∧
      s.tss.getLast?.map List.length = s.wss.getLast?.map List.length := by
  have h : ∃ s : DynVisIns ℚ Unit,
      runCalls sampleNorm [Call.imu 1 0 0, Call.cam 2 [] [], Call.imu 3 0 0]
        (DynVisIns.new () (1 : Mat3 ℚ)) = some s ∧ s.t = 3 ∧ s.tss = [[4]] := by
    norm_num [runCalls, DynVisIns.ProcessImu, DynVisIns.ProcessCam, DynVisIns.camImuBlock,
      DynVisIns.new, camLoop, pushToLast]
  obtain ⟨s, hs, h1, h2⟩ := h
  have hnn : ∀ c ∈ [Call.imu (1 : ℚ) 0 0, Call.cam 2 [] [], Call.imu 3 0 0], 0 ≤ c.time := by
    intro c hc
    simp only [List.mem_cons, List.mem_singleton, List.not_mem_nil, or_false] at hc
    rcases hc with rfl | rfl | rfl <;> norm_num [Call.time]
  have key := ProcessImu_rejects_out_of_sync sampleNorm () (1 : Mat3 ℚ) _ s hnn hs 3 0 0
  exact ⟨s, hs, h1, h2, key.1, key.2.2.2.2.2.2.2.2.1⟩

/-! ### `ProcessCam`, camera time and segment deltas -/

/-- On an object reached from the constructor by calls of the two methods, the camera time
is still negative, `dts` is empty, and there are as many states and as many IMU segments
as accepted camera frames. -/
theorem runCalls_shape {F X : Type} [LinearOrderedField F] (norm : Vec3 F → F) (x0 : X)
    (K : Mat3 F) (calls : List (Call F)) (s : DynVisIns F X)
    (hs : runCalls norm calls (DynVisIns.new x0 K) = some s) :
    s.tc < 0 ∧ s.dts = [] ∧
      s.xs.length = acceptedFrames norm calls (DynVisIns.new x0 K : DynVisIns F X) ∧
      s.tss.length = acceptedFrames norm calls (DynVisIns.new x0 K : DynVisIns F X) := by
  obtain ⟨hinv, hx⟩ := runCalls_imuInv norm calls _ s (imuInv_new x0 K) hs
  have hx1 : s.xs.length = acceptedFrames norm calls (DynVisIns.new x0 K : DynVisIns F X) := by
    rw [hx]
    simp [DynVisIns.new]
  exact ⟨hinv.2.2.1, hinv.2.2.2.1, hx1, by rw [← hinv.2.2.2.2.1]; exact hx1⟩

/-- C15 (defect of the code): an IMU sample at time 1 and two camera frames accepted at
times 2 and 3.  Line 577 assigns the member `tc` to itself, so the camera time is still
`-1` instead of 3, the test `tc > 0` of line 573 never holds, `dts` is empty instead of
holding `3 - 2`, and with two states the assertion `xs.size() == dts.size() + 1` of
`Compute` fails. -/
theorem ProcessCam_camera_time_not_updated :
    ∃ s : DynVisIns ℚ Unit,
      runCalls sampleNorm [Call.imu 1 0 0, Call.cam 2 [] [], Call.cam 3 [] []]
        (DynVisIns.new () (1 : Mat3 ℚ)) = some s ∧
      acceptedFrames sampleNorm [Call.imu 1 0 0, Call.cam 2 [] [], Call.cam 3 [] []]
        (DynVisIns.new () (1 : Mat3 ℚ) : DynVisIns ℚ Unit) = 2 ∧
      s.t = 3 ∧ s.tc = -1 ∧ s.dts = [] ∧ s.xs.length = 2 ∧ computeDynAssert s = false := by
  norm_num [runCalls, acceptedFrames, DynVisIns.ProcessImu, DynVisIns.ProcessCam,
    DynVisIns.camImuBlock, DynVisIns.new, camLoop, computeDynAssert]

/-- Whatever the calls, once a camera frame has been accepted the assertion
`dts.size() == tss.size()` of `Compute` fails: there is one IMU segment per accepted
frame and `dts` is empty. -/
theorem computeImuAsserts_fails {F X : Type} [LinearOrderedField F] (norm : Vec3 F → F)
    (x0 : X) (K : Mat3 F) (calls : List (Call F)) (s : DynVisIns F X)
    (hs : runCalls norm calls (DynVisIns.new x0 K) = some s)
    (hacc : 1 ≤ acceptedFrames norm calls (DynVisIns.new x0 K : DynVisIns F X)) :
    computeImuAsserts s = false := by
  obtain ⟨_, h2, _, h4⟩ := runCalls_shape norm x0 K calls s hs
  unfold computeImuAsserts
  rw [h2, h4]
  simp only [List.length_nil, Bool.and_eq_false_imp, decide_eq_true_eq, decide_eq_false_iff_not]
  intro _
  omega

/-- C18 (defect of the code): an IMU sample at time 0, a camera frame accepted at time 1
and an IMU sample at time 2.  One frame is accepted, so `xs`, `tss` have one entry each
while `dts` is empty: the assertion `dts.size() == tss.size()` of line 699 fails; and
segment 0 holds IMU data although its end state, index 1, is not a state
(`xs.size() = 1`). -/
theorem Compute_imu_assertions_fail :
    ∃ s : DynVisIns ℚ Unit,
      runCalls sampleNorm [Call.imu 0 0 0, Call.cam 1 [] [], Call.imu 2 0 0]
        (DynVisIns.new () (1 : Mat3 ℚ)) = some s ∧
      acceptedFrames sampleNorm [Call.imu 0 0 0, Call.cam 1 [] [], Call.imu 2 0 0]
        (DynVisIns.new () (1 : Mat3 ℚ) : DynVisIns ℚ Unit) = 1 ∧
      s.xs.length = 1 ∧ s.tss = [[3]] ∧ s.dts = [] ∧
      computeImuAsserts s = false ∧ computeImuEndStates s = false := by
  norm_num [runCalls, acceptedFrames, DynVisIns.ProcessImu, DynVisIns.ProcessCam,
    DynVisIns.camImuBlock, DynVisIns.new, camLoop, pushToLast, computeImuAsserts,
    computeImuEndStates]

/-! ### `ProcessCam` and the measurement arrays -/

theorem camInv_new {F X : Type} [LinearOrderedField F] (x0 : X) (K : Mat3 F) :
    camInv (DynVisIns.new x0 K : DynVisIns F X) := by
  refine ⟨rfl, rfl, rfl, ?_, ?_⟩ <;> intro c hc <;> simp [DynVisIns.new] at hc

theorem ProcessImu_camInv {F X : Type} [LinearOrderedField F] (s s1 : DynVisIns F X) (t : F)
    (w a : Vec3 F) (b : Bool) (hinv : camInv s) (h : s.ProcessImu t w a = some (b, s1)) :
    camInv s1 := by
  rcases ProcessImu_some s s1 t w a b h with ⟨_, _, rfl⟩ | ⟨_, _, _, rfl⟩ |
    ⟨_, _, _, _, ⟨_, rfl⟩ | ⟨_, _, tss, wss, ass, _, _, _, rfl⟩⟩ <;> exact hinv

theorem ProcessCam_camInv {F X : Type} [LinearOrderedField F] (norm : Vec3 F → F)
    (s s1 : DynVisIns F X) (t : F) (zcs : List (Vec2 F)) (zcInds : List Int) (b : Bool)
    (hinv : camInv s) (h : s.ProcessCam norm t zcs zcInds = some (b, s1)) : camInv s1 := by
  obtain ⟨i1, i2, i3, i4, i5⟩ := hinv
  obtain ⟨_, _, ⟨rfl, rfl, _⟩ | ⟨rfl, hlen, s0, hb, hloop⟩⟩ :=
    ProcessCam_some norm s s1 t zcs zcInds b h
  · exact ⟨i1, i2, i3, i4, i5⟩
  · obtain ⟨_, _, _, _, _, _, a7, a8, a9, a10, a11, a12, _, _⟩ := camImuBlock_some s s0 t hb
    obtain ⟨⟨_, _, _, _, _, _, _, c8, c9, _, _, _, _⟩, d1, d2, d3, d4, d5, d6, _⟩ :=
      camLoop_some norm zcs zcInds _ s1 hloop hlen
    simp only at c8 c9 d2 d3 d4 d5
    have hxs : s1.xs.length = s.xs.length + 1 := by
      rw [c8, a7]
      simp only [List.length_append, List.length_singleton]
    have hls : s.ls.length ≤ s1.ls.length := by
      rw [← a8]
      exact d5.length_le
    refine ⟨?_, ?_, ?_, ?_, ?_⟩
    · rw [c9, d2, a9, a10]
      simp only [List.length_append]
      omega
    · rw [d2, d3, a10, a12]
      simp only [List.length_append, List.length_replicate]
      omega
    · rw [d3, d4, a12, a11]
      simp only [List.length_append, List.length_replicate]
      omega
    · intro c hc
      rw [d3, a12] at hc
      rcases List.mem_append.mp hc with hc | hc
      · have := i4 c hc
        omega
      · have hceq := List.eq_of_mem_replicate hc
        rw [hceq, a7]
        simp only [List.length_append, List.length_singleton] at hxs ⊢
        omega
    · intro l hl
      rw [d4, a11] at hl
      rcases List.mem_append.mp hl with hl | hl
      · have := i5 l hl
        omega
      · have h0 := d1 l hl
        have h1 := d6 l hl
        omega

theorem ProcessCam_keeps_ready {F X : Type} [LinearOrderedField F] (norm : Vec3 F → F)
    (s s1 : DynVisIns F X) (t : F) (zcs : List (Vec2 F)) (zcInds : List Int) (b : Bool)
    (h : s.ProcessCam norm t zcs zcInds = some (b, s1)) :
    s1.useCam = true ∧ 0 ≤ s1.t := by
  obtain ⟨hcam, ht, ⟨rfl, rfl, _⟩ | ⟨rfl, hlen, s0, hb, hloop⟩⟩ :=
    ProcessCam_some norm s s1 t zcs zcInds b h
  · exact ⟨hcam, ht⟩
  · obtain ⟨a1, _, _, _, _, _, _, _, _, _, _, _, a13, a14⟩ := camImuBlock_some s s0 t hb
    obtain ⟨⟨c1, _, _, _, _, _, c7, _⟩, _⟩ := camLoop_some norm zcs zcInds _ s1 hloop hlen
    simp only at c1 c7
    refine ⟨by rw [c7, a1, hcam], ?_⟩
    rw [c1]
    cases hu : s.useImu with
    | true =>
      obtain ⟨hle, e, _⟩ := a13 hu
      rw [e]
      linarith
    | false =>
      rw [a14 hu]
      exact ht

theorem computeCamAsserts_of_camInv {F X : Type} (s : DynVisIns F X) (hinv : camInv s) :
    computeCamAsserts s = true := by
  obtain ⟨_, i2, i3, i4, i5⟩ := hinv
  unfold computeCamAsserts
  rw [List.all_eq_true]
  intro i hi
  have hi1 : i < s.lus.length := List.mem_range.mp hi
  have hc : i < s.zCamInds.length := by omega
  have hl : i < s.zInds.length := by omega
  rw [List.getElem?_eq_getElem hc, List.getElem?_eq_getElem hl]
  have b1 := i4 _ (List.getElem_mem hc)
  have b2 := i5 _ (List.getElem_mem hl)
  simp only [Bool.and_eq_true, decide_eq_true_eq]
  exact ⟨b1, b2⟩

theorem runCalls_camInv {F X : Type} [LinearOrderedField F] (norm : Vec3 F → F) :
    ∀ (calls : List (Call F)) (s s1 : DynVisIns F X), camInv s →
      runCalls norm calls s = some s1 → camInv s1 := by
  intro calls
  induction calls with
  | nil =>
    intro s s1 hinv h
    simp only [runCalls, Option.some.injEq] at h
    subst h
    exact hinv
  | cons c calls ih =>
    intro s s1 hinv h
    cases c with
    | imu t w a =>
      simp only [runCalls] at h
      split at h
      · cases h
      · next b s2 hstep => exact ih s2 s1 (ProcessImu_camInv s s2 t w a b hinv hstep) h
    | cam t zcs zcInds =>
      simp only [runCalls] at h
      split at h
      · cases h
      · next b s2 hstep =>
        exact ih s2 s1 (ProcessCam_camInv norm s s2 t zcs zcInds b hinv hstep) h

/-- C19: on an object with `useCam` on, a recorded IMU time and consistent measurement
arrays (such as a new object after its first IMU sample), any sequence of `ProcessCam`
calls with as many ids as measurements and no negative id runs without a failed assertion,
the in-loop assertion of line 614 included; afterwards `zs`, `lus`, `zCamInds`, `zInds`
have equal length and every measurement satisfies `zCamInds[i] < xs.size()` and
`zInds[i] < ls.size()`, the assertions of `Compute`.  The same holds after any completed
sequence of `ProcessImu` and `ProcessCam` calls. -/
theorem ProcessCam_measurement_indices {F X : Type} [LinearOrderedField F]
    (norm : Vec3 F → F) (frames : List (F × List (Vec2 F) × List Int))
    (hwf : ∀ f ∈ frames, f.2.1.length = f.2.2.length ∧ ∀ id ∈ f.2.2, 0 ≤ id)
    (s : DynVisIns F X) (hinv : camInv s) (hcam : s.useCam = true) (ht : 0 ≤ s.t) :
    (∃ s1, runCalls norm (frames.map fun f => Call.cam f.1 f.2.1 f.2.2) s = some s1 ∧
        camInv s1 ∧ computeCamAsserts s1 = true) ∧
      (∀ calls s1, runCalls norm calls s = some s1 →
        camInv s1 ∧ computeCamAsserts s1 = true) := by
  constructor
  · induction frames generalizing s with
    | nil => exact ⟨s, rfl, hinv, computeCamAsserts_of_camInv s hinv⟩
    | cons f frames ih =>
      obtain ⟨hl, hid⟩ := hwf f (List.mem_cons_self _ _)
      obtain ⟨b, s2, h2⟩ := ProcessCam_defined norm s f.1 f.2.1 f.2.2 hcam ht hl hid
      obtain ⟨r1, r2⟩ := ProcessCam_keeps_ready norm s s2 _ _ _ b h2
      obtain ⟨s1, h1, k1, k2⟩ := ih (fun g hg => hwf g (List.mem_cons_of_mem _ hg)) s2
        (ProcessCam_camInv norm s s2 _ _ _ b hinv h2) r1 r2
      exact ⟨s1, by simp only [List.map_cons, runCalls, h2, h1], k1, k2⟩
  · intro calls s1 h
    have := runCalls_camInv norm calls s s1 hinv h
    exact ⟨this, computeCamAsserts_of_camInv s1 this⟩

/-- Witness of C19 over the rationals: a new object after an IMU sample at time 1, then
two camera frames, the second with a gap in the feature ids. -/
theorem ProcessCam_measurement_indices_witness :
    (∃ s1, runCalls sampleNorm
          ([((2 : ℚ), [![0, 0]], [(1 : Int)]), (3, [![1, 1], ![0, 0]], [0, 3])].map
            fun f => Call.cam f.1 f.2.1 f.2.2)
          ({ (DynVisIns.new () (1 : Mat3 ℚ) : DynVisIns ℚ Unit) with t := 1 }) = some s1 ∧
        camInv s1 ∧ computeCamAsserts s1 = true) ∧
      (∀ calls s1, runCalls sampleNorm calls
          ({ (DynVisIns.new () (1 : Mat3 ℚ) : DynVisIns ℚ Unit) with t := 1 }) = some s1 →
        camInv s1 ∧ computeCamAsserts s1 = true) :=
  ProcessCam_measurement_indices sampleNorm
    [((2 : ℚ), [![0, 0]], [(1 : Int)]), (3, [![1, 1], ![0, 0]], [0, 3])]
    (by
      intro f hf
      simp only [List.mem_cons, List.mem_singleton, List.not_mem_nil, or_false] at hf
      rcases hf with rfl | rfl
      · exact ⟨rfl, by intro id hid; simp at hid; omega⟩
      · exact ⟨rfl, by intro id hid; simp at hid; omega⟩)
    _ (camInv_new () 1) rfl (by show (0 : ℚ) ≤ 1; norm_num)

/-! ### `ProcessCam` and the landmarks -/

theorem foldl_max_eq (ids : List Int) :
    ∀ (n N : Int), n ≤ N → (∀ id ∈ ids, id + 1 ≤ N) → (N = n ∨ ∃ id ∈ ids, N = id + 1) →
      ids.foldl (fun m id => max m (id + 1)) n = N := by
  induction ids with
  | nil =>
    intro n N _ _ h3
    rcases h3 with h3 | ⟨id, hid, _⟩
    · simp only [List.foldl_nil, h3]
    · cases hid
  | cons id ids ih =>
    intro n N h1 h2 h3
    simp only [List.foldl_cons]
    have hid := h2 id (List.mem_cons_self _ _)
    apply ih
    · exact max_le h1 hid
    · exact fun j hj => h2 j (List.mem_cons_of_mem _ hj)
    · rcases h3 with h3 | ⟨j, hj, h3⟩
      · left
        rw [h3]
        exact (max_eq_left (by omega)).symm
      · rcases List.mem_cons.mp hj with rfl | hj
        · left
          rw [h3]
          exact (max_eq_right (by omega)).symm
        · exact Or.inr ⟨j, hj, h3⟩

theorem prefix_getElem? {A : Type} (l1 l2 : List A) (h : l1 <+: l2) (k : Nat)
    (hk : k < l1.length) : l2[k]? = l1[k]? := by
  obtain ⟨r, rfl⟩ := h
  rw [List.getElem?_append_left hk]

/-- The landmarks created by the measurement loop: every new index `k` is created by the
first measurement whose id is at least `k`; it holds `3*Ric*lu` of that measurement when
its id is `k`, and `(1, 0, 0)` when the id is larger (a gap). -/
theorem camLoop_new_landmarks {F X : Type} [LinearOrderedField F] (norm : Vec3 F → F) :
    ∀ (zcs : List (Vec2 F)) (zcInds : List Int) (s s1 : DynVisIns F X),
      camLoop norm s zcs zcInds = some s1 → zcs.length = zcInds.length →
      ∀ k, s.ls.length ≤ k → k < s1.ls.length →
        ∃ (i : Nat) (id : Int) (z : Vec2 F),
          zcInds[i]? = some id ∧ zcs[i]? = some z ∧ (k : Int) ≤ id ∧
          (∀ (j : Nat) (idj : Int), j < i → zcInds[j]? = some idj → idj < (k : Int)) ∧
          s1.ls[k]? = some (if id = (k : Int) then
            (3 : F) • s.Ric.mulVec (unitBearing norm s.K z) else ![1, 0, 0]) := by
  intro zcs
  induction zcs with
  | nil =>
    intro zcInds s s1 h _ k hk1 hk2
    simp only [camLoop, Option.some.injEq] at h
    subst h
    omega
  | cons z zcs ih =>
    intro zcInds s s1 h hlen k hk1 hk2
    cases zcInds with
    | nil => simp at hlen
    | cons id zcInds =>
      simp only [camLoop] at h
      split at h
      · cases h
      · next s2 hstep =>
        obtain ⟨f1, i1, _, _, _, hls⟩ := camStep_some norm s s2 z id hstep
        obtain ⟨p1, p2, _⟩ := camStep_ls_prefix norm s s2 z id hstep
        have hlen2 : zcs.length = zcInds.length := by simpa using hlen
        obtain ⟨_, _, _, _, _, q1, _⟩ := camLoop_some norm zcs zcInds s2 s1 h hlen2
        obtain ⟨n, rfl⟩ := Int.eq_ofNat_of_zero_le i1
        simp only [Int.toNat_ofNat] at hls p2
        by_cases hk : k < s2.ls.length
        · rcases hls with ⟨_, h2⟩ | ⟨h1, h2⟩
          · rw [h2] at hk
            omega
          · have hl2 : s2.ls.length = n + 1 := by
              rw [h2]
              simp only [List.length_set, List.length_append, List.length_replicate]
              omega
            refine ⟨0, (n : Int), z, by simp, by simp, by omega, fun j idj hj _ => by omega, ?_⟩
            rw [prefix_getElem? _ _ q1 k hk, h2]
            by_cases hkid : (n : Int) = (k : Int)
            · have hk3 : n = k := by omega
              rw [if_pos hkid, ← hk3]
              apply getElem?_set_self_of_lt
              simp only [List.length_append, List.length_replicate]
              omega
            · have hk3 : n ≠ k := by omega
              have hk4 : k < n := by omega
              rw [if_neg hkid, List.getElem?_set_ne hk3,
                List.getElem?_append_right hk1, List.getElem?_replicate]
              rw [if_pos (by omega)]
        · obtain ⟨i, id1, z1, e1, e2, e3, e4, e5⟩ := ih zcInds s2 s1 h hlen2 k (by omega) hk2
          have hK : s2.K = s.K := f1.2.2.2.2.1
          have hR : s2.Ric = s.Ric := f1.2.2.2.1
          refine ⟨i + 1, id1, z1, by simpa using e1, by simpa using e2, e3, ?_, ?_⟩
          · intro j idj hj hidj
            cases j with
            | zero =>
              simp only [List.getElem?_cons_zero, Option.some.injEq] at hidj
              subst hidj
              omega
            | succ j =>
              simp only [List.getElem?_cons_succ] at hidj
              exact e4 j idj (by omega) hidj
          · rw [e5, hK, hR]

/-- C20 (counterexample): four calls of `ProcessCam` with non-negative feature ids on which
the claim fails, each on an object reached from the constructor over the rationals.
(1) On an object whose IMU time is 5, a frame stamped 3 with one measurement of feature
id 0 is rejected as out of sync (`ProcessCam` returns `false`): no landmark is created, so
`ls.size()` is still 0 and not `max(previous size, 1 + largest observed id) = 1`.
(2) On an object whose IMU time is 1, a frame stamped 2 with the feature ids 2, 0: the
measurement of id 2 creates the entries 0, 1, 2, so the id 0, although sighted for the
first time, keeps `(1, 0, 0)` and does not get `3*Ric*lu = (1, -1, -1)`.
(3) A frame with no measurement and one feature id stops at the assertion of line 589.
(4) A frame on an object without a recorded IMU time stops at the assertion of line 558,
and a frame on an object with `useCam` switched off at the assertion of line 557. -/
theorem ProcessCam_landmark_claim_fails :
    (∃ s s1 : DynVisIns ℚ Unit,
      runCalls sampleNorm [Call.imu 5 0 0] (DynVisIns.new () (1 : Mat3 ℚ)) = some s ∧
      s.ProcessCam sampleNorm 3 [![0, 0]] [0] = some (false, s1) ∧
      s.ls.length = 0 ∧ s1.ls.length = 0 ∧
      (s1.ls.length : Int) ≠ max (s.ls.length : Int) (1 + 0)) ∧
    (∃ s s1 : DynVisIns ℚ Unit,
      runCalls sampleNorm [Call.imu 1 0 0] (DynVisIns.new () (1 : Mat3 ℚ)) = some s ∧
      s.ProcessCam sampleNorm 2 [![0, 0], ![1, 1]] [2, 0] = some (true, s1) ∧
      s.ls = [] ∧ s1.ls = [![1, 0, 0], ![1, 0, 0], ![3, 0, 0]] ∧
      (3 : ℚ) • s.Ric.mulVec (unitBearing sampleNorm s.K ![1, 1]) = ![1, -1, -1] ∧
      (![1, 0, 0] : Vec3 ℚ) ≠ ![1, -1, -1]) ∧
    (∃ s : DynVisIns ℚ Unit,
      runCalls sampleNorm [Call.imu 1 0 0] (DynVisIns.new () (1 : Mat3 ℚ)) = some s ∧
      s.ProcessCam sampleNorm 2 [] [7] = none) ∧
    (DynVisIns.new () (1 : Mat3 ℚ) : DynVisIns ℚ Unit).ProcessCam sampleNorm 2 [![0, 0]] [0]
      = none ∧
    (∃ s : DynVisIns ℚ Unit,
      runCalls sampleNorm [Call.imu 1 0 0]
          { (DynVisIns.new () (1 : Mat3 ℚ) : DynVisIns ℚ Unit) with useCam := false }
        = some s ∧
      s.ProcessCam sampleNorm 2 [![0, 0]] [0] = none) := by
  refine ⟨?_, ?_, ?_, ?_, ?_⟩
  · refine ⟨{ (DynVisIns.new () (1 : Mat3 ℚ) : DynVisIns ℚ Unit) with t := 5 },
      { (DynVisIns.new () (1 : Mat3 ℚ) : DynVisIns ℚ Unit) with t := 5 }, ?_, ?_, rfl, rfl, ?_⟩
    · norm_num [runCalls, DynVisIns.ProcessImu, DynVisIns.new]
    · norm_num [DynVisIns.ProcessCam, DynVisIns.camImuBlock, DynVisIns.new]
    · norm_num [DynVisIns.new]
  · have k02 : (1 : Mat3 ℚ) 0 2 = 0 := Matrix.one_apply_ne (by decide)
    have k12 : (1 : Mat3 ℚ) 1 2 = 0 := Matrix.one_apply_ne (by decide)
    have k00 : (1 : Mat3 ℚ) 0 0 = 1 := Matrix.one_apply_eq 0
    have k11 : (1 : Mat3 ℚ) 1 1 = 1 := Matrix.one_apply_eq 1
    have h : ∃ s1 : DynVisIns ℚ Unit,
        ({ (DynVisIns.new () (1 : Mat3 ℚ) : DynVisIns ℚ Unit) with t := 1 }).ProcessCam
            sampleNorm 2 [![0, 0], ![1, 1]] [2, 0] = some (true, s1) ∧
          s1.ls = [![1, 0, 0], ![1, 0, 0], ![3, 0, 0]] := by
      have g : growLs 2 ([] : List (Vec3 ℚ)) = [![1, 0, 0], ![1, 0, 0], ![1, 0, 0]] := by
        rw [growLs_eq 2 _ [] rfl]
        rfl
      have e2 : Int.toNat 2 = 2 := rfl
      norm_num [DynVisIns.ProcessCam, DynVisIns.camImuBlock, DynVisIns.new, camLoop, camStep,
        e2, g, unitBearing, sampleNorm, Matrix.mulVec, Matrix.dotProduct, Fin.sum_univ_three,
        Matrix.vecHead, Matrix.vecTail, k02, k12, k00, k11]
      funext i
      fin_cases i <;> simp [Matrix.vecHead, Matrix.vecTail]
    obtain ⟨s1, h1, h2⟩ := h
    refine ⟨{ (DynVisIns.new () (1 : Mat3 ℚ) : DynVisIns ℚ Unit) with t := 1 }, s1, ?_, h1,
      rfl, h2, ?_, ?_⟩
    · norm_num [runCalls, DynVisIns.ProcessImu, DynVisIns.new]
    · funext i
      fin_cases i <;>
        norm_num [DynVisIns.new, unitBearing, sampleNorm, Matrix.mulVec, Matrix.dotProduct,
          Fin.sum_univ_three, Matrix.vecHead, Matrix.vecTail, k02, k12, k00, k11]
    · intro h
      have := congrFun h 1
      norm_num at this
  · refine ⟨{ (DynVisIns.new () (1 : Mat3 ℚ) : DynVisIns ℚ Unit) with t := 1 }, ?_, ?_⟩
    · norm_num [runCalls, DynVisIns.ProcessImu, DynVisIns.new]
    · norm_num [DynVisIns.ProcessCam, DynVisIns.camImuBlock, DynVisIns.new]
  · norm_num [DynVisIns.ProcessCam, DynVisIns.new]
  · refine ⟨{ (DynVisIns.new () (1 : Mat3 ℚ) : DynVisIns ℚ Unit) with
      useCam := false, t := 1 }, ?_, ?_⟩
    · norm_num [runCalls, DynVisIns.ProcessImu, DynVisIns.new]
    · norm_num [DynVisIns.ProcessCam, DynVisIns.new]

/-- C20 (amended): every call of `ProcessCam` with no negative feature id.  With `useCam`
off or no IMU time recorded the call stops at an assertion (lines 557-558).  Otherwise a
call rejected as out of sync (`useImu` on and `t < this->t`) returns `false` and leaves
the object, hence every landmark, as it was.  Otherwise, with a different number of ids
and measurements the call stops at the assertion of line 589.  Otherwise the call returns
`true` and never deletes or overwrites a landmark: the landmarks that existed before are
a prefix of `ls` afterwards, `ls.size()` is `max(previous size, 1 + largest observed id)`,
and every new entry `k` is created by the first measurement whose id is at least `k`: it
holds `3*Ric*lu` for that measurement's unit bearing `lu` when the id is `k`, and
`(1, 0, 0)` when the id is larger (an id skipped over by a gap). -/
theorem ProcessCam_landmarks {F X : Type} [LinearOrderedField F] (norm : Vec3 F → F)
    (s : DynVisIns F X) (t : F) (zcs : List (Vec2 F)) (zcInds : List Int)
    (hid : ∀ id ∈ zcInds, 0 ≤ id) :
    ((s.useCam = false ∨ s.t < 0) → s.ProcessCam norm t zcs zcInds = none) ∧
    (s.useCam = true → 0 ≤ s.t → s.useImu = true → t < s.t →
      s.ProcessCam norm t zcs zcInds = some (false, s)) ∧
    (s.useCam = true → 0 ≤ s.t → (s.useImu = true → s.t ≤ t) →
      zcs.length ≠ zcInds.length → s.ProcessCam norm t zcs zcInds = none) ∧
    (s.useCam = true → 0 ≤ s.t → (s.useImu = true → s.t ≤ t) →
      zcs.length = zcInds.length →
      ∃ s1, s.ProcessCam norm t zcs zcInds = some (true, s1) ∧
        s.ls <+: s1.ls ∧
        (s1.ls.length : Int)
          = zcInds.foldl (fun m id => max m (id + 1)) (s.ls.length : Int) ∧
        ∀ k, s.ls.length ≤ k → k < s1.ls.length →
          ∃ (i : Nat) (id : Int) (z : Vec2 F),
            zcInds[i]? = some id ∧ zcs[i]? = some z ∧ (k : Int) ≤ id ∧
            (∀ (j : Nat) (idj : Int), j < i → zcInds[j]? = some idj → idj < (k : Int)) ∧
            s1.ls[k]? = some (if id = (k : Int) then
              (3 : F) • s.Ric.mulVec (unitBearing norm s.K z) else ![1, 0, 0])) := by
  refine ⟨fun h => ?_, fun hcam ht hu hlt => ?_, fun hcam ht hsync hlen => ?_,
    fun hcam ht hsync hlen => ?_⟩
  · unfold DynVisIns.ProcessCam
    by_cases hc : s.useCam = false
    · rw [if_pos hc]
    · rw [if_neg hc]
      rcases h with h | h
      · exact absurd h hc
      · rw [if_pos h]
  · have hb : s.camImuBlock t = none := by
      unfold DynVisIns.camImuBlock
      rw [if_pos hu]
      simp only []
      rw [if_pos (by linarith)]
    unfold DynVisIns.ProcessCam
    rw [if_neg (by rw [hcam]; exact Bool.noConfusion), if_neg (not_lt.mpr ht), hb]
  · unfold DynVisIns.ProcessCam
    rw [if_neg (by rw [hcam]; exact Bool.noConfusion), if_neg (not_lt.mpr ht)]
    cases hb : s.camImuBlock t with
    | none =>
      obtain ⟨hu, hlt⟩ := camImuBlock_none s t hb
      exact absurd (hsync hu) (not_le.mpr hlt)
    | some s0 =>
      simp only []
      rw [if_pos hlen]
  obtain ⟨b, s1, h⟩ := ProcessCam_defined norm s t zcs zcInds hcam ht hlen hid
  obtain ⟨_, _, ⟨_, _, hnone⟩ | ⟨rfl, _, s0, hb, hloop⟩⟩ :=
    ProcessCam_some norm s s1 t zcs zcInds b h
  · obtain ⟨hu, hlt⟩ := camImuBlock_none s t hnone
    exact absurd (hsync hu) (not_le.mpr hlt)
  · obtain ⟨_, _, _, _, a5, a6, _, a8, _⟩ := camImuBlock_some s s0 t hb
    obtain ⟨_, d1, _, _, _, d5, d6, d7⟩ := camLoop_some norm zcs zcInds _ s1 hloop hlen
    have hnew := camLoop_new_landmarks norm zcs zcInds _ s1 hloop hlen
    simp only at d5 d7 hnew
    rw [a8] at d5 d7 hnew
    rw [a5, a6] at hnew
    refine ⟨s1, h, d5, ?_, hnew⟩
    symm
    apply foldl_max_eq
    · have := d5.length_le
      omega
    · intro id hi
      have h0 := d1 id hi
      have h1 := d6 id hi
      omega
    · rcases d7 with d7 | ⟨id, hi, d7⟩
      · left
        omega
      · right
        have h0 := d1 id hi
        exact ⟨id, hi, by omega⟩

/-- Witness of C20 over the rationals: an object with IMU time 1 and no landmark, a frame
at time 2 with the feature ids 2 and 0. -/
theorem ProcessCam_landmarks_witness :
    ∃ s1, ({ (DynVisIns.new () (1 : Mat3 ℚ) : DynVisIns ℚ Unit) with t := 1 }).ProcessCam
        sampleNorm 2 [![0, 0], ![1, 1]] [2, 0] = some (true, s1) ∧
      ([] : List (Vec3 ℚ)) <+: s1.ls ∧
      (s1.ls.length : Int) = [(2 : Int), 0].foldl (fun m id => max m (id + 1)) (0 : Int) :=
  let ⟨s1, h1, h2, h3, _⟩ :=
    (ProcessCam_landmarks sampleNorm
      ({ (DynVisIns.new () (1 : Mat3 ℚ) : DynVisIns ℚ Unit) with t := 1 }) 2
      [![0, 0], ![1, 1]] [2, 0]
      (by intro id hid; simp at hid; omega)).2.2.2 rfl (by show (0 : ℚ) ≤ 1; norm_num)
      (fun _ => by show (1 : ℚ) ≤ 2; norm_num) rfl
  ⟨s1, h1, h2, h3⟩

/-! ### The cubic interpolator -/

/-- C21: the `Cubic` built from `(p0, v0, p1, v1, dt)` with `dt > 0` interpolates both
end states exactly: `GetPos(0) = p0`, `GetVel(0) = v0`, `GetPos(dt) = p1`,
`GetVel(dt) = v1`, each call returning `true` (exact arithmetic, any ordered field). -/
theorem Cubic_interpolates_end_states {F : Type} [LinearOrderedField F]
    (p0 v0 p1 v1 : Vec3 F) (dt : F) (hdt : 0 < dt) (p v : Vec3 F) :
    (Cubic.new p0 v0 p1 v1 dt).GetPos p 0 = (true, p0) ∧
      (Cubic.new p0 v0 p1 v1 dt).GetVel v 0 = (true, v0) ∧
      (Cubic.new p0 v0 p1 v1 dt).GetPos p dt = (true, p1) ∧
      (Cubic.new p0 v0 p1 v1 dt).GetVel v dt = (true, v1) := by
  have h0 : ¬ ((Cubic.new p0 v0 p1 v1 dt).dt < 0) := not_lt.mpr (le_of_lt hdt)
  have h1 : ¬ ((Cubic.new p0 v0 p1 v1 dt).dt < dt) := lt_irrefl dt
  have hne : dt ≠ 0 := ne_of_gt hdt
  refine ⟨?_, ?_, ?_, ?_⟩
  · unfold Cubic.GetPos
    rw [if_neg h0]
    simp [Cubic.new]
  · unfold Cubic.GetVel
    rw [if_neg h0]
    simp [Cubic.new]
  · unfold Cubic.GetPos
    rw [if_neg h1]
    simp only [Cubic.new, Prod.mk.injEq, true_and]
    funext i
    simp only [Pi.add_apply, Pi.sub_apply, Pi.smul_apply, smul_eq_mul]
    field_simp
    ring
  · unfold Cubic.GetVel
    rw [if_neg h1]
    simp only [Cubic.new, Prod.mk.injEq, true_and]
    funext i
    simp only [Pi.add_apply, Pi.sub_apply, Pi.smul_apply, smul_eq_mul]
    field_simp
    ring

/-- Witness of C21 over the rationals: from `(0,0,0)` with velocity `(1,0,0)` to
`(2,1,0)` with velocity `(0,1,1)` in time `2`. -/
theorem Cubic_interpolates_end_states_witness :
    (Cubic.new (0 : Vec3 ℚ) ![1, 0, 0] ![2, 1, 0] ![0, 1, 1] 2).GetPos 0 0 = (true, 0) ∧
      (Cubic.new (0 : Vec3 ℚ) ![1, 0, 0] ![2, 1, 0] ![0, 1, 1] 2).GetVel 0 0
        = (true, ![1, 0, 0]) ∧
      (Cubic.new (0 : Vec3 ℚ) ![1, 0, 0] ![2, 1, 0] ![0, 1, 1] 2).GetPos 0 2
        = (true, ![2, 1, 0]) ∧
      (Cubic.new (0 : Vec3 ℚ) ![1, 0, 0] ![2, 1, 0] ![0, 1, 1] 2).GetVel 0 2
        = (true, ![0, 1, 1]) :=
  Cubic_interpolates_end_states (0 : Vec3 ℚ) ![1, 0, 0] ![2, 1, 0] ![0, 1, 1] 2
    (by norm_num) 0 0

theorem Cubic_GetPos_of_le {F : Type} [LinearOrderedField F] (cub : Cubic F) (p : Vec3 F)
    (t : F) (ht : t ≤ cub.dt) :
    cub.GetPos p t = (true, cub.p0 + t • cub.v0 + (t * t / 2) • cub.b + (t * t * t / 3) • cub.c) := by
  unfold Cubic.GetPos
  rw [if_neg (not_lt.mpr ht)]

theorem Cubic_GetVel_of_le {F : Type} [LinearOrderedField F] (cub : Cubic F) (v : Vec3 F)
    (t : F) (ht : t ≤ cub.dt) :
    cub.GetVel v t = (true, cub.v0 + t • cub.b + (t * t) • cub.c) := by
  unfold Cubic.GetVel
  rw [if_neg (not_lt.mpr ht)]

theorem Cubic_GetAcc_of_le {F : Type} [LinearOrderedField F] (cub : Cubic F) (a : Vec3 F)
    (t : F) (ht : t ≤ cub.dt) : cub.GetAcc a t = (true, cub.b + (2 * t) • cub.c) := by
  unfold Cubic.GetAcc
  rw [if_neg (not_lt.mpr ht)]

/-- Each accessor returns `false` exactly when `t > dt`, and then returns its output
argument as it was. -/
theorem Cubic_accessors_reject {F : Type} [LinearOrderedField F] (cub : Cubic F)
    (p v a : Vec3 F) (t : F) :
    ((cub.GetPos p t).1 = false ↔ cub.dt < t) ∧ ((cub.GetVel v t).1 = false ↔ cub.dt < t) ∧
      ((cub.GetAcc a t).1 = false ↔ cub.dt < t) ∧
      (cub.dt < t → cub.GetPos p t = (false, p) ∧ cub.GetVel v t = (false, v) ∧
        cub.GetAcc a t = (false, a)) := by
  unfold Cubic.GetPos Cubic.GetVel Cubic.GetAcc
  by_cases h : cub.dt < t
  · simp only [h, if_true, true_iff, implies_true, and_self]
  · simp only [h, if_false, false_iff, Bool.true_eq_false, not_false_eq_true, false_implies,
      and_self]

theorem cubic_pos_hasDerivAt (p0 v0 b c t : ℝ) :
    HasDerivAt (fun τ : ℝ => p0 + τ * v0 + τ * τ / 2 * b + τ * τ * τ / 3 * c)
      (v0 + t * b + t * t * c) t := by
  have h1 := (hasDerivAt_id t).mul_const v0
  have h2 := ((hasDerivAt_pow 2 t).div_const 2).mul_const b
  have h3 := ((hasDerivAt_pow 3 t).div_const 3).mul_const c
  have h := (((hasDerivAt_const t p0).add h1).add h2).add h3
  have hf : (fun τ : ℝ => p0 + τ * v0 + τ * τ / 2 * b + τ * τ * τ / 3 * c)
      = (fun τ : ℝ => p0 + id τ * v0 + τ ^ 2 / 2 * b + τ ^ 3 / 3 * c) := by
    funext τ
    simp only [id]
    ring
  have e : v0 + t * b + t * t * c
      = 0 + 1 * v0 + ((2 : ℕ) : ℝ) * t ^ (2 - 1) / 2 * b + ((3 : ℕ) : ℝ) * t ^ (3 - 1) / 3 * c := by
    simp only [show (2 - 1 : ℕ) = 1 from rfl, show (3 - 1 : ℕ) = 2 from rfl]
    push_cast
    ring
  rw [hf, e]
  exact h

theorem cubic_vel_hasDerivAt (v0 b c t : ℝ) :
    HasDerivAt (fun τ : ℝ => v0 + τ * b + τ * τ * c) (b + 2 * t * c) t := by
  have h1 := (hasDerivAt_id t).mul_const b
  have h2 := (hasDerivAt_pow 2 t).mul_const c
  have h := ((hasDerivAt_const t v0).add h1).add h2
  have hf : (fun τ : ℝ => v0 + τ * b + τ * τ * c)
      = (fun τ : ℝ => v0 + id τ * b + τ ^ 2 * c) := by
    funext τ
    simp only [id]
    ring
  have e : b + 2 * t * c = 0 + 1 * b + ((2 : ℕ) : ℝ) * t ^ (2 - 1) * c := by
    simp only [show (2 - 1 : ℕ) = 1 from rfl]
    push_cast
    ring
  rw [hf, e]
  exact h

/-- C22: for every `Cubic` over the reals and every `t <= dt`, the accessors return
`pos = p0 + t*v0 + t^2/2*b + t^3/3*c`, `vel = v0 + t*b + t^2*c`, `acc = b + 2*t*c`;
on `t <= dt` the velocity is the time derivative of the position and the acceleration the
time derivative of the velocity (a two-sided derivative when `t < dt`); each accessor
returns `false` exactly when `t > dt` and then leaves its output argument unchanged. -/
theorem Cubic_accessors_consistent (cub : Cubic ℝ) (p v a : Vec3 ℝ) (t : ℝ)
    (ht : t ≤ cub.dt) (i : Fin 3) :
    cub.GetPos p t
        = (true, cub.p0 + t • cub.v0 + (t ^ 2 / 2) • cub.b + (t ^ 3 / 3) • cub.c) ∧
      cub.GetVel v t = (true, cub.v0 + t • cub.b + (t ^ 2) • cub.c) ∧
      cub.GetAcc a t = (true, cub.b + (2 * t) • cub.c) ∧
      HasDerivWithinAt (fun τ => (cub.GetPos p τ).2 i) ((cub.GetVel v t).2 i)
        (Set.Iic cub.dt) t ∧
      HasDerivWithinAt (fun τ => (cub.GetVel v τ).2 i) ((cub.GetAcc a t).2 i)
        (Set.Iic cub.dt) t ∧
      (t < cub.dt → HasDerivAt (fun τ => (cub.GetPos p τ).2 i) ((cub.GetVel v t).2 i) t ∧
        HasDerivAt (fun τ => (cub.GetVel v τ).2 i) ((cub.GetAcc a t).2 i) t) ∧
      (∀ τ, ((cub.GetPos p τ).1 = false ↔ cub.dt < τ) ∧
        ((cub.GetVel v τ).1 = false ↔ cub.dt < τ) ∧
        ((cub.GetAcc a τ).1 = false ↔ cub.dt < τ) ∧
        (cub.dt < τ → cub.GetPos p τ = (false, p) ∧ cub.GetVel v τ = (false, v) ∧
          cub.GetAcc a τ = (false, a))) := by
  have hp : HasDerivWithinAt (fun τ => (cub.GetPos p τ).2 i) ((cub.GetVel v t).2 i)
      (Set.Iic cub.dt) t := by
    rw [Cubic_GetVel_of_le cub v t ht]
    have h := (cubic_pos_hasDerivAt (cub.p0 i) (cub.v0 i) (cub.b i) (cub.c i) t).hasDerivWithinAt
      (s := Set.Iic cub.dt)
    have hv : (cub.v0 + t • cub.b + (t * t) • cub.c) i
        = cub.v0 i + t * cub.b i + t * t * cub.c i := by
      simp only [Pi.add_apply, Pi.smul_apply, smul_eq_mul]
    show HasDerivWithinAt _ ((cub.v0 + t • cub.b + (t * t) • cub.c) i) _ _
    rw [hv]
    refine h.congr_of_mem (fun τ hτ => ?_) ht
    rw [Cubic_GetPos_of_le cub p τ hτ]
    simp only [Pi.add_apply, Pi.smul_apply, smul_eq_mul]
  have hvel : HasDerivWithinAt (fun τ => (cub.GetVel v τ).2 i) ((cub.GetAcc a t).2 i)
      (Set.Iic cub.dt) t := by
    rw [Cubic_GetAcc_of_le cub a t ht]
    have h := (cubic_vel_hasDerivAt (cub.v0 i) (cub.b i) (cub.c i) t).hasDerivWithinAt
      (s := Set.Iic cub.dt)
    have hv : (cub.b + (2 * t) • cub.c) i = cub.b i + 2 * t * cub.c i := by
      simp only [Pi.add_apply, Pi.smul_apply, smul_eq_mul]
    show HasDerivWithinAt _ ((cub.b + (2 * t) • cub.c) i) _ _
    rw [hv]
    refine h.congr_of_mem (fun τ hτ => ?_) ht
    rw [Cubic_GetVel_of_le cub v τ hτ]
    simp only [Pi.add_apply, Pi.smul_apply, smul_eq_mul]
  refine ⟨?_, ?_, Cubic_GetAcc_of_le cub a t ht, hp, hvel,
    fun hlt => ⟨hp.hasDerivAt (Iic_mem_nhds hlt), hvel.hasDerivAt (Iic_mem_nhds hlt)⟩,
    fun τ => Cubic_accessors_reject cub p v a τ⟩
  · rw [Cubic_GetPos_of_le cub p t ht]
    have e1 : t * t / 2 = t ^ 2 / 2 := by ring
    have e2 : t * t * t / 3 = t ^ 3 / 3 := by ring
    rw [e1, e2]
  · rw [Cubic_GetVel_of_le cub v t ht]
    have e1 : t * t = t ^ 2 := by ring
    rw [e1]

/-- Witness of C22: the cubic with `p0 = 0`, `v0 = (1,0,0)`, `b = (0,1,0)`, `c = (0,0,1)`,
`dt = 1`, at `t = 1/2`, first coordinate. -/
theorem Cubic_accessors_consistent_witness :
    HasDerivWithinAt
        (fun τ => ((⟨0, ![1, 0, 0], 1, ![0, 1, 0], ![0, 0, 1]⟩ : Cubic ℝ).GetPos 0 τ).2 0)
        (((⟨0, ![1, 0, 0], 1, ![0, 1, 0], ![0, 0, 1]⟩ : Cubic ℝ).GetVel 0 (1 / 2)).2 0)
        (Set.Iic (1 : ℝ)) (1 / 2) ∧
      (⟨0, ![1, 0, 0], 1, ![0, 1, 0], ![0, 0, 1]⟩ : Cubic ℝ).GetAcc 0 (1 / 2)
        = (true, ![0, 1, 0] + (2 * (1 / 2 : ℝ)) • ![0, 0, 1]) :=
  let h := Cubic_accessors_consistent (⟨0, ![1, 0, 0], 1, ![0, 1, 0], ![0, 0, 1]⟩ : Cubic ℝ)
    0 0 0 (1 / 2) (by show (1 / 2 : ℝ) ≤ 1; norm_num) 0
  ⟨h.2.2.2.1, h.2.2.1⟩

/-! ### The constant-velocity residuals -/

theorem residual6_eq_zero {F : Type} [Zero F] (e1 e2 : Vec3 F) :
    residual6 e1 e2 = 0 ↔ e1 = 0 ∧ e2 = 0 := by
  constructor
  · intro h
    constructor
    · funext i
      have := congrFun h ⟨i.val, by omega⟩
      simpa [residual6] using this
    · funext i
      have := congrFun h ⟨i.val + 3, by omega⟩
      simpa [residual6] using this
  · rintro ⟨rfl, rfl⟩
    funext i
    simp only [residual6]
    split <;> rfl

theorem residual6_sq_sum {F : Type} [Field F] (e1 e2 : Vec3 F) :
    ∑ i, residual6 e1 e2 i ^ 2
      = (e1 0 ^ 2 + e1 1 ^ 2 + e1 2 ^ 2) + (e2 0 ^ 2 + e2 1 ^ 2 + e2 2 ^ 2) := by
  have h0 : residual6 e1 e2 0 = e1 0 := rfl
  have h1 : residual6 e1 e2 1 = e1 1 := rfl
  have h2 : residual6 e1 e2 2 = e1 2 := rfl
  have h3 : residual6 e1 e2 3 = e2 0 := rfl
  have h4 : residual6 e1 e2 4 = e2 1 := rfl
  have h5 : residual6 e1 e2 5 = e2 2 := rfl
  rw [Fin.sum_univ_six, h0, h1, h2, h3, h4, h5]
  ring

/-- The coefficients `b`, `c` of the cubic vanish exactly for a constant-velocity
segment. -/
theorem Cubic_new_coefficients_zero {F : Type} [LinearOrderedField F]
    (pa va pb vb : Vec3 F) (dt : F)
    (hdt : dt ≠ 0) :
    ((Cubic.new pa va pb vb dt).b = 0 ∧ (Cubic.new pa va pb vb dt).c = 0) ↔
      (pb = pa + dt • va ∧ vb = va) := by
  constructor
  · rintro ⟨hb, hc⟩
    have key : ∀ i, pb i = pa i + dt * va i ∧ vb i = va i := by
      intro i
      have h1 := congrFun hb i
      have h2 := congrFun hc i
      simp only [Cubic.new, Pi.add_apply, Pi.sub_apply, Pi.smul_apply, smul_eq_mul,
        Pi.zero_apply] at h1 h2
      have e1 : 6 * (pb i - pa i - dt * va i) - 2 * dt * (vb i - va i)
          = (dt * dt) * (6 / (dt * dt) * (pb i - pa i - dt * va i)
              + -2 / dt * (vb i - va i)) := by
        field_simp
        ring
      have e2 : -6 * (pb i - pa i - dt * va i) + 3 * dt * (vb i - va i)
          = (dt * dt * dt) * (-6 / (dt * dt * dt) * (pb i - pa i - dt * va i)
              + 3 / (dt * dt) * (vb i - va i)) := by
        field_simp
        ring
      rw [h1, mul_zero] at e1
      rw [h2, mul_zero] at e2
      have hq2 : dt * (vb i - va i) = 0 := by linear_combination e1 + e2
      have hv : vb i - va i = 0 := by
        rcases mul_eq_zero.mp hq2 with h | h
        · exact absurd h hdt
        · exact h
      have hp : pb i - pa i - dt * va i = 0 := by
        linear_combination e1 / 6 + (dt / 3) * hv
      exact ⟨by linear_combination hp, by linear_combination hv⟩
    exact ⟨funext fun i => by simpa using (key i).1, funext fun i => (key i).2⟩
  · rintro ⟨rfl, rfl⟩
    constructor <;> funext i <;>
      simp [Cubic.new]

/-- The two vectors `e1`, `e2` of a residual call, with `s1`, `s3` standing for the square
roots of `dt` and `dt / 3`: they vanish together exactly when `b` and `c` do, and their
squared norm is the closed form of the integrated squared acceleration over `std ^ 2`. -/
theorem residual6_cubic {F : Type} [LinearOrderedField F] (dt std s1 s3 : F) (hdt : 0 < dt)
    (hstd : std ≠ 0) (h1 : s1 * s1 = dt) (h3 : s3 * s3 = dt / 3) (b c : Vec3 F) :
    (residual6 ((s1 / std) • (b + dt • c)) ((s3 / std) • (dt • c)) = 0 ↔ b = 0 ∧ c = 0) ∧
    ∑ i, residual6 ((s1 / std) • (b + dt • c)) ((s3 / std) • (dt • c)) i ^ 2
      = (dt * Matrix.dotProduct b b + 2 * dt ^ 2 * Matrix.dotProduct b c
          + 4 / 3 * dt ^ 3 * Matrix.dotProduct c c) / std ^ 2 := by
  have hdt0 : dt ≠ 0 := ne_of_gt hdt
  have hs1 : s1 ≠ 0 := by
    rintro rfl
    rw [mul_zero] at h1
    exact hdt0 h1.symm
  have hs3 : s3 ≠ 0 := by
    rintro rfl
    rw [mul_zero] at h3
    exact (div_ne_zero hdt0 (by norm_num : (3 : F) ≠ 0)) h3.symm
  constructor
  · rw [residual6_eq_zero]
    constructor
    · rintro ⟨he1, he2⟩
      have hc : c = 0 := by
        rcases smul_eq_zero.mp he2 with h | h
        · exact absurd h (div_ne_zero hs3 hstd)
        · rcases smul_eq_zero.mp h with h | h
          · exact absurd h hdt0
          · exact h
      have hb : b = 0 := by
        rcases smul_eq_zero.mp he1 with h | h
        · exact absurd h (div_ne_zero hs1 hstd)
        · rw [hc, smul_zero, add_zero] at h
          exact h
      exact ⟨hb, hc⟩
    · rintro ⟨rfl, rfl⟩
      simp
  · rw [residual6_sq_sum]
    simp only [Matrix.dotProduct, Fin.sum_univ_three, Pi.smul_apply, Pi.add_apply, smul_eq_mul]
    have q1 : (s1 / std) ^ 2 = dt / std ^ 2 := by rw [div_pow, sq s1, h1]
    have q3 : (s3 / std) ^ 2 = dt / 3 / std ^ 2 := by rw [div_pow, sq s3, h3]
    simp only [mul_pow, q1, q3]
    field_simp
    ring

/-- The squared acceleration `|b + 2 t c| ^ 2` of a cubic integrated over `[0, dt]`. -/
theorem cubic_acc_sq_integral (b c : Vec3 ℝ) (dt : ℝ) :
    ∫ t in (0 : ℝ)..dt, Matrix.dotProduct (b + (2 * t) • c) (b + (2 * t) • c)
      = dt * Matrix.dotProduct b b + 2 * dt ^ 2 * Matrix.dotProduct b c
          + 4 / 3 * dt ^ 3 * Matrix.dotProduct c c := by
  have hf : (fun t : ℝ => Matrix.dotProduct (b + (2 * t) • c) (b + (2 * t) • c))
      = fun t : ℝ => Matrix.dotProduct b b + t * (4 * Matrix.dotProduct b c)
          + t * t * (4 * Matrix.dotProduct c c) := by
    funext t
    simp only [Matrix.dotProduct, Fin.sum_univ_three, Pi.smul_apply, Pi.add_apply, smul_eq_mul]
    ring
  rw [hf]
  have hd : ∀ x ∈ Set.uIcc (0 : ℝ) dt,
      HasDerivAt (fun τ : ℝ => 0 + τ * Matrix.dotProduct b b
          + τ * τ / 2 * (4 * Matrix.dotProduct b c)
          + τ * τ * τ / 3 * (4 * Matrix.dotProduct c c))
        (Matrix.dotProduct b b + x * (4 * Matrix.dotProduct b c)
          + x * x * (4 * Matrix.dotProduct c c)) x :=
    fun x _ => cubic_pos_hasDerivAt 0 _ _ _ x
  rw [intervalIntegral.integral_eq_sub_of_hasDerivAt hd
    (Continuous.intervalIntegrable (by continuity) _ _)]
  ring

/-- C23 (amended): in exact real arithmetic (the scalar type read as the reals, `sqrt` as
the real square root), for every segment time `dt > 0` and non-zero noise scales `dwStd`,
`dvStd`, the constructors of `CvCubicRotError` and `CvCubicPosError` pass their assertion, each call
returns true, the six residuals are all zero exactly when `pb = pa + dt * va` and
`vb = va`, and their squared norm is
`(dt |b|^2 + 2 dt^2 (b.c) + (4/3) dt^3 |c|^2) / std^2`, which is the integral over
`[0, dt]` of `|b + 2 t c|^2` divided by `std^2`, where `b`, `c` are the coefficients of the
cubic through the two end states and `std` is `dwStd` for the rotational and `dvStd` for
the positional residual. -/
theorem CvCubic_residuals_constant_velocity {X : Type} (vi : DynVisIns ℝ X) (dt : ℝ)
    (hdt : 0 < dt) (hw : vi.dwStd ≠ 0) (hv : vi.dvStd ≠ 0) (pa va pb vb : Vec3 ℝ) :
    ∃ (er : CvCubicRotError ℝ X) (ep : CvCubicPosError ℝ X),
      CvCubicRotError.new vi dt = some er ∧ CvCubicPosError.new vi dt = some ep ∧
      (er.call Real.sqrt pa va pb vb).1 = true ∧
      (ep.call Real.sqrt pa va pb vb).1 = true ∧
      ((er.call Real.sqrt pa va pb vb).2 = 0 ↔ (pb = pa + dt • va ∧ vb = va)) ∧
      ((ep.call Real.sqrt pa va pb vb).2 = 0 ↔ (pb = pa + dt • va ∧ vb = va)) ∧
      ∑ i, (er.call Real.sqrt pa va pb vb).2 i ^ 2
        = (dt * Matrix.dotProduct (Cubic.new pa va pb vb dt).b (Cubic.new pa va pb vb dt).b
            + 2 * dt ^ 2
              * Matrix.dotProduct (Cubic.new pa va pb vb dt).b (Cubic.new pa va pb vb dt).c
            + 4 / 3 * dt ^ 3
              * Matrix.dotProduct (Cubic.new pa va pb vb dt).c (Cubic.new pa va pb vb dt).c)
          / vi.dwStd ^ 2 ∧
      ∑ i, (er.call Real.sqrt pa va pb vb).2 i ^ 2
        = (∫ t in (0 : ℝ)..dt,
            Matrix.dotProduct
              ((Cubic.new pa va pb vb dt).b + (2 * t) • (Cubic.new pa va pb vb dt).c)
              ((Cubic.new pa va pb vb dt).b + (2 * t) • (Cubic.new pa va pb vb dt).c))
          / vi.dwStd ^ 2 ∧
      ∑ i, (ep.call Real.sqrt pa va pb vb).2 i ^ 2
        = (dt * Matrix.dotProduct (Cubic.new pa va pb vb dt).b (Cubic.new pa va pb vb dt).b
            + 2 * dt ^ 2
              * Matrix.dotProduct (Cubic.new pa va pb vb dt).b (Cubic.new pa va pb vb dt).c
            + 4 / 3 * dt ^ 3
              * Matrix.dotProduct (Cubic.new pa va pb vb dt).c (Cubic.new pa va pb vb dt).c)
          / vi.dvStd ^ 2 ∧
      ∑ i, (ep.call Real.sqrt pa va pb vb).2 i ^ 2
        = (∫ t in (0 : ℝ)..dt,
            Matrix.dotProduct
              ((Cubic.new pa va pb vb dt).b + (2 * t) • (Cubic.new pa va pb vb dt).c)
              ((Cubic.new pa va pb vb dt).b + (2 * t) • (Cubic.new pa va pb vb dt).c))
          / vi.dvStd ^ 2 := by
  have h1 : Real.sqrt dt * Real.sqrt dt = dt := Real.mul_self_sqrt (le_of_lt hdt)
  have h3 : Real.sqrt (dt / 3) * Real.sqrt (dt / 3) = dt / 3 :=
    Real.mul_self_sqrt (le_of_lt (div_pos hdt (by norm_num)))
  have hz := Cubic_new_coefficients_zero pa va pb vb dt (ne_of_gt hdt)
  have rw_ := residual6_cubic dt vi.dwStd (Real.sqrt dt) (Real.sqrt (dt / 3)) hdt hw h1 h3
    (Cubic.new pa va pb vb dt).b (Cubic.new pa va pb vb dt).c
  have rv := residual6_cubic dt vi.dvStd (Real.sqrt dt) (Real.sqrt (dt / 3)) hdt hv h1 h3
    (Cubic.new pa va pb vb dt).b (Cubic.new pa va pb vb dt).c
  refine ⟨{ vi := vi, dt := dt }, { vi := vi, dt := dt }, ?_, ?_, rfl, rfl,
    rw_.1.trans hz, rv.1.trans hz, rw_.2, ?_, rv.2, ?_⟩
  · simp only [CvCubicRotError.new, hdt, if_true]
  · simp only [CvCubicPosError.new, hdt, if_true]
  · rw [cubic_acc_sq_integral]
    exact rw_.2
  · rw [cubic_acc_sq_integral]
    exact rv.2

theorem CvCubic_residuals_constant_velocity_witness :
    (0 : ℝ) < 1 ∧ (DynVisIns.new () 1 : DynVisIns ℝ Unit).dwStd ≠ 0 ∧
      (DynVisIns.new () 1 : DynVisIns ℝ Unit).dvStd ≠ 0 ∧
      ∃ (er : CvCubicRotError ℝ Unit) (ep : CvCubicPosError ℝ Unit),
        CvCubicRotError.new (DynVisIns.new () 1) 1 = some er ∧
        CvCubicPosError.new (DynVisIns.new () 1) 1 = some ep ∧
        (er.call Real.sqrt 0 ![1, 0, 0] ![1, 0, 0] ![1, 0, 0]).2 = 0 ∧
        (ep.call Real.sqrt 0 ![1, 0, 0] ![1, 0, 0] ![1, 0, 0]).2 = 0 :=
  have hw : (DynVisIns.new () 1 : DynVisIns ℝ Unit).dwStd ≠ 0 := by
    show (1 : ℝ) ≠ 0
    norm_num
  have hv : (DynVisIns.new () 1 : DynVisIns ℝ Unit).dvStd ≠ 0 := by
    show (5 : ℝ) ≠ 0
    norm_num
  have hp : (![1, 0, 0] : Vec3 ℝ) = 0 + (1 : ℝ) • ![1, 0, 0] := by
    rw [one_smul, zero_add]
  ⟨one_pos, hw, hv,
    match CvCubic_residuals_constant_velocity (DynVisIns.new () 1) 1 one_pos hw hv
        0 ![1, 0, 0] ![1, 0, 0] ![1, 0, 0] with
    | ⟨er, ep, h1, h2, _, _, h5, h6, _⟩ => ⟨er, ep, h1, h2, h5.mpr ⟨hp, rfl⟩, h6.mpr ⟨hp, rfl⟩⟩⟩

/-! ### The constant-velocity residuals in double arithmetic -/

/-- The model of the type `double` on known values: `1/3`, `sqrt(2)`, `0.1 + 0.2`, a tie
rounded to even, overflow, underflow, and the invalid operations. -/
theorem Dbl_arithmetic_examples :
    (1 : Dbl) / 3 = Dbl.fin false 6004799503160661 (-54) ∧
    Dbl.sqrt 2 = Dbl.fin false 6369051672525773 (-52) ∧
    Dbl.fin false 3602879701896397 (-55) + Dbl.fin false 3602879701896397 (-54)
      = Dbl.fin false 1351079888211149 (-52) ∧
    (1 : Dbl) + Dbl.fin false 1 (-53) = 1 ∧
    (1 : Dbl) + Dbl.fin false 3 (-54) = Dbl.fin false 4503599627370497 (-52) ∧
    Dbl.fin false 1 1023 * 2 = Dbl.inf false ∧
    Dbl.fin false 1 (-1074) / 2 = 0 ∧
    Dbl.fin false 3 (-1074) / 2 = Dbl.fin false 1 (-1073) ∧
    (1 : Dbl) / 0 = Dbl.inf false ∧
    (0 : Dbl) / 0 = Dbl.nan ∧
    Dbl.inf false * 0 = Dbl.nan ∧
    Dbl.inf false - Dbl.inf false = Dbl.nan ∧
    (1 : Dbl) - 1 = 0 ∧
    -(0 : Dbl) = Dbl.fin true 0 0 := by
  set_option maxRecDepth 100000 in
  decide!

/-- C23 (counterexample): the two residuals in the code's double arithmetic, on the object
the constructor builds (`dwStd = 1`, `dvStd = 5`), every vector having its three entries
equal.
(1) Segment time `dt = 2^-600` and a segment at rest (`pa = va = pb = vb = 0`, so that
`pb = pa + dt*va` and `vb = va`): `dt*dt` underflows to zero, `6/dt2` is infinite, its
product with zero is a NaN, and all six residuals are NaN, not zero.
(2) Segment time `dt = 2^100` and `pa = va = pb = 0`, `vb = 2^-1000`, which is not `va`:
the products `-2/dt*q2` and `3/dt2*q2` underflow to zero and all six residuals are zero.
(3) Segment time `dt = 1` and `pa = 1`, `va = 2^-53`, `pb = 1`, `vb = va`: in double
arithmetic `pa + dt*va` is `1 = pb`, yet `q1 = -2^-53` and the fourth residual is not zero.
(4) Segment time `dt = 1 + 2^-30` and `pa = 0`, `va = 1 - 2^-30`, `pb = 1`, `vb = va`: the
exact value of `pa + dt*va` is `1 - 2^-60`, which is not `pb`, yet `dt*va` rounds to `1`
and all six residuals are zero. -/
theorem CvCubic_residuals_double_arithmetic :
    (CvCubicRotError.new (DynVisIns.new () 0 : DynVisIns Dbl Unit) (Dbl.fin false 1 (-600))
        = some ⟨DynVisIns.new () 0, Dbl.fin false 1 (-600)⟩ ∧
      CvCubicPosError.new (DynVisIns.new () 0 : DynVisIns Dbl Unit) (Dbl.fin false 1 (-600))
        = some ⟨DynVisIns.new () 0, Dbl.fin false 1 (-600)⟩ ∧
      (DynVisIns.new () 0 : DynVisIns Dbl Unit).dwStd = Dbl.fin false 1 0 ∧
      (DynVisIns.new () 0 : DynVisIns Dbl Unit).dvStd = Dbl.fin false 5 0 ∧
      (∀ i : Fin 3, (0 : Vec3 Dbl) i = (0 : Vec3 Dbl) i
          + Dbl.fin false 1 (-600) * (0 : Vec3 Dbl) i) ∧
      (∀ i, (CvCubicRotError.call Dbl.sqrt
          ⟨(DynVisIns.new () 0 : DynVisIns Dbl Unit), Dbl.fin false 1 (-600)⟩
          0 0 0 0).2 i = Dbl.nan) ∧
      (∀ i, (CvCubicPosError.call Dbl.sqrt
          ⟨(DynVisIns.new () 0 : DynVisIns Dbl Unit), Dbl.fin false 1 (-600)⟩
          0 0 0 0).2 i = Dbl.nan)) ∧
    (CvCubicRotError.new (DynVisIns.new () 0 : DynVisIns Dbl Unit) (Dbl.fin false 1 100)
        = some ⟨DynVisIns.new () 0, Dbl.fin false 1 100⟩ ∧
      CvCubicPosError.new (DynVisIns.new () 0 : DynVisIns Dbl Unit) (Dbl.fin false 1 100)
        = some ⟨DynVisIns.new () 0, Dbl.fin false 1 100⟩ ∧
      Dbl.fin false 1 (-1000) ≠ (0 : Dbl) ∧
      (∀ i, Dbl.isZero ((CvCubicRotError.call Dbl.sqrt
          ⟨(DynVisIns.new () 0 : DynVisIns Dbl Unit), Dbl.fin false 1 100⟩
          0 0 0 (fun _ => Dbl.fin false 1 (-1000))).2 i) = true) ∧
      (∀ i, Dbl.isZero ((CvCubicPosError.call Dbl.sqrt
          ⟨(DynVisIns.new () 0 : DynVisIns Dbl Unit), Dbl.fin false 1 100⟩
          0 0 0 (fun _ => Dbl.fin false 1 (-1000))).2 i) = true)) ∧
    (CvCubicRotError.new (DynVisIns.new () 0 : DynVisIns Dbl Unit) 1
        = some ⟨DynVisIns.new () 0, 1⟩ ∧
      CvCubicPosError.new (DynVisIns.new () 0 : DynVisIns Dbl Unit) 1
        = some ⟨DynVisIns.new () 0, 1⟩ ∧
      (1 : Dbl) = 1 + 1 * Dbl.fin false 1 (-53) ∧
      (CvCubicRotError.call Dbl.sqrt ⟨(DynVisIns.new () 0 : DynVisIns Dbl Unit), 1⟩
          (fun _ => 1) (fun _ => Dbl.fin false 1 (-53))
          (fun _ => 1) (fun _ => Dbl.fin false 1 (-53))).2 3
        = Dbl.fin false 3900231685776981 (-103) ∧
      (CvCubicPosError.call Dbl.sqrt ⟨(DynVisIns.new () 0 : DynVisIns Dbl Unit), 1⟩
          (fun _ => 1) (fun _ => Dbl.fin false 1 (-53))
          (fun _ => 1) (fun _ => Dbl.fin false 1 (-53))).2 3
        = Dbl.fin false 3120185348621585 (-105)) ∧
    (CvCubicRotError.new (DynVisIns.new () 0 : DynVisIns Dbl Unit)
          (Dbl.fin false 1073741825 (-30))
        = some ⟨DynVisIns.new () 0, Dbl.fin false 1073741825 (-30)⟩ ∧
      CvCubicPosError.new (DynVisIns.new () 0 : DynVisIns Dbl Unit)
          (Dbl.fin false 1073741825 (-30))
        = some ⟨DynVisIns.new () 0, Dbl.fin false 1073741825 (-30)⟩ ∧
      Dbl.toRat 1 ≠ Dbl.toRat 0
        + Dbl.toRat (Dbl.fin false 1073741825 (-30))
          * Dbl.toRat (Dbl.fin false 1073741823 (-30)) ∧
      (∀ i, Dbl.isZero ((CvCubicRotError.call Dbl.sqrt
          ⟨(DynVisIns.new () 0 : DynVisIns Dbl Unit), Dbl.fin false 1073741825 (-30)⟩
          0 (fun _ => Dbl.fin false 1073741823 (-30))
          (fun _ => 1) (fun _ => Dbl.fin false 1073741823 (-30))).2 i) = true) ∧
      (∀ i, Dbl.isZero ((CvCubicPosError.call Dbl.sqrt
          ⟨(DynVisIns.new () 0 : DynVisIns Dbl Unit), Dbl.fin false 1073741825 (-30)⟩
          0 (fun _ => Dbl.fin false 1073741823 (-30))
          (fun _ => 1) (fun _ => Dbl.fin false 1073741823 (-30))).2 i) = true)) := by
  have h1 : (0 : Dbl) < Dbl.fin false 1 (-600) := by decide!
  have h2 : (0 : Dbl) < Dbl.fin false 1 100 := by decide!
  have h3 : (0 : Dbl) < 1 := by decide!
  have h4 : (0 : Dbl) < Dbl.fin false 1073741825 (-30) := by decide!
  refine ⟨⟨if_pos h1, if_pos h1, rfl, rfl, ?_, ?_, ?_⟩, ⟨if_pos h2, if_pos h2, ?_, ?_, ?_⟩,
    ⟨if_pos h3, if_pos h3, ?_, ?_, ?_⟩, ⟨if_pos h4, if_pos h4, ?_, ?_, ?_⟩⟩
  · set_option maxRecDepth 100000 in decide!
  · set_option maxRecDepth 100000 in decide!
  · set_option maxRecDepth 100000 in decide!
  · set_option maxRecDepth 100000 in decide!
  · set_option maxRecDepth 100000 in decide!
  · set_option maxRecDepth 100000 in decide!
  · set_option maxRecDepth 100000 in decide!
  · set_option maxRecDepth 100000 in decide!
  · set_option maxRecDepth 100000 in decide!
  · set_option maxRecDepth 100000 in decide!
  · set_option maxRecDepth 100000 in decide!
  · set_option maxRecDepth 100000 in decide!

end Gcop
